import Mathlib

/-!
# Verification of the Cornell footnote sync engine

A shallow embedding of the reconciliation engine of the
`obsidian-footnote-cornell-plugin` repository (`src/main.ts`), together
with proofs and refutations of the specification's claims about it.

Document text is modelled as `List Char` (one entry per code point).
The JavaScript regular expressions of the source are compiled by hand
into explicit scanners; each scanner's doc comment records the regex it
implements and the reasoning used to linearise its backtracking
(all the patterns involved are backtracking-free once the character
classes are taken into account).
-/

namespace Cornell

/-- Document text: a list of characters. -/
abbrev Str := List Char

/-- Coerce a Lean string literal to the `Str` model. -/
def str (s : String) : Str := s.data

/-- JavaScript `\s` (also the character set trimmed by
`String.prototype.trim`): tab, LF, VT, FF, CR, space, NBSP, and the
Unicode space separators, line separators and BOM. -/
def isJsWs (c : Char) : Bool :=
  c.val == 9 || c.val == 10 || c.val == 11 || c.val == 12 || c.val == 13 ||
  c.val == 32 || c.val == 0xA0 || c.val == 0x1680 ||
  (0x2000 ≤ c.val && c.val ≤ 0x200A) ||
  c.val == 0x2028 || c.val == 0x2029 || c.val == 0x202F ||
  c.val == 0x205F || c.val == 0x3000 || c.val == 0xFEFF

/-- JavaScript line terminators (the characters `.` does not match, and
after which `^` matches in multiline mode): LF, CR, LS, PS. -/
def isLineTerm (c : Char) : Bool :=
  c.val == 10 || c.val == 13 || c.val == 0x2028 || c.val == 0x2029

/-- JS `String.prototype.trimEnd`. -/
def jsTrimEnd (s : Str) : Str := (s.reverse.dropWhile isJsWs).reverse

/-- JS `String.prototype.trimStart`. -/
def jsTrimStart (s : Str) : Str := s.dropWhile isJsWs

/-- JS `String.prototype.trim`. -/
def jsTrim (s : Str) : Str := jsTrimEnd (jsTrimStart s)

theorem length_dropWhile_le (p : Char → Bool) (s : Str) :
    (s.dropWhile p).length ≤ s.length := by
  induction s with
  | nil => simp [List.dropWhile]
  | cons c rest ih =>
    simp only [List.dropWhile]
    cases p c <;> simp <;> omega

/-- `text.replace(/\n{3,}/g, '\n\n')` (used at the end of both content
generators): each maximal run of three or more `\n` characters is
replaced by exactly two.  One maximal newline run (or one other
character) is processed per step; the fuel only serves to make the
recursion structural and never runs out when it starts at the length of
the input. -/
def collapseNLGo : Nat → Str → Str
  | 0, s => s
  | _, [] => []
  | fuel + 1, c :: rest =>
    if c = '\n' then
      let run := (c :: rest).takeWhile (fun d => d = '\n')
      let tail := (c :: rest).dropWhile (fun d => d = '\n')
      (if 3 ≤ run.length then ['\n', '\n'] else run) ++ collapseNLGo fuel tail
    else
      c :: collapseNLGo fuel rest

/-- See `collapseNLGo`. -/
def collapseNewlines (s : Str) : Str := collapseNLGo s.length s

/-- JS `String.prototype.includes`. -/
def jsIncludes (s sub : Str) : Bool :=
  match s with
  | [] => sub.isEmpty
  | _ :: rest => sub.isPrefixOf s || jsIncludes rest sub

/-- JS `String.prototype.endsWith`. -/
def jsEndsWith (s suffix : Str) : Bool :=
  suffix.reverse.isPrefixOf s.reverse

/-! ## The footnote-definition scanner

The definition regex of `parseSourceContent` and `parseFootnotesSimple`
(`src/main.ts`) is

  `/^(\s*)\[\^([^\]]+?)\]:\s*(.*(?:(?:\n(?:\ {4}|\t|\s{2,}).*)*))/gm`

Backtracking analysis used to linearise it:
* `(\s*)` is greedy and is followed by the literal `[`, which is not a
  whitespace character, so the group always holds the maximal whitespace
  run (which may span newlines, since `\s` matches them) and no
  backtracking into it can succeed.
* `([^\]]+?)` is lazy, its class cannot match `]`, and it is followed by
  `]:`; so it matches exactly the (non-empty) run of non-`]` characters
  up to the first `]`, which must be followed by `:`.
* The `\s*` after the colon is greedy; everything after it (`.*` and the
  continuation loop) can match the empty string, so its maximal match is
  final.
* Each continuation iteration is `\n` followed by the first alternative
  that matches — four spaces, a tab, or a greedy run of at least two
  whitespace characters (which may itself span newlines) — then `.*`.
  Again nothing after an iteration forces backtracking.
-/

/-- The continuation-line loop `(?:(?:\n(?:\ {4}|\t|\s{2,}).*)*)`:
returns the consumed text (part of the regex's group 3). -/
def contLoop (fuel : Nat) (t : Str) : Str :=
  match fuel, t with
  | 0, _ => []
  | _, [] => []
  | fuel + 1, c :: u =>
    if c = '\n' then
      if (str "    ").isPrefixOf u then
        let line := (u.drop 4).takeWhile (fun d => !isLineTerm d)
        '\n' :: str "    " ++ line ++
          contLoop fuel ((u.drop 4).dropWhile (fun d => !isLineTerm d))
      else if u.head? = some '\t' then
        let line := (u.drop 1).takeWhile (fun d => !isLineTerm d)
        '\n' :: '\t' :: line ++
          contLoop fuel ((u.drop 1).dropWhile (fun d => !isLineTerm d))
      else if 2 ≤ (u.takeWhile isJsWs).length then
        let ws := u.takeWhile isJsWs
        let line := (u.dropWhile isJsWs).takeWhile (fun d => !isLineTerm d)
        '\n' :: ws ++ line ++
          contLoop fuel ((u.dropWhile isJsWs).dropWhile (fun d => !isLineTerm d))
      else []
    else []

/-- Group 3 of the definition regex, starting from the text after the
greedy `\s*` that follows the colon has been skipped: the rest of the
line, then the continuation loop. -/
def defBody3 (t5 : Str) : Str :=
  t5.takeWhile (fun d => !isLineTerm d) ++
    contLoop (t5.dropWhile (fun d => !isLineTerm d)).length
      (t5.dropWhile (fun d => !isLineTerm d))

/-- A successful match of the definition regex at the start of `t`
(the `^` anchor itself is checked by the driver): returns
`(matched text, raw group 2, group 3)`. -/
def defMatchAt (t : Str) : Option (Str × Str × Str) :=
  match t.dropWhile isJsWs with
  | '[' :: '^' :: t2 =>
    match t2.dropWhile (fun d => d ≠ ']') with
    | ']' :: ':' :: t4 =>
      let refRaw := t2.takeWhile (fun d => d ≠ ']')
      if refRaw.isEmpty then none
      else
        some (t.takeWhile isJsWs ++ '[' :: '^' :: refRaw ++ ']' :: ':' ::
                t4.takeWhile isJsWs ++ defBody3 (t4.dropWhile isJsWs),
              refRaw, defBody3 (t4.dropWhile isJsWs))
    | _ => none
  | _ => none

/-- Does `^` (multiline) match right after the character `prev`
(`none` meaning the start of input)? -/
def lineStartAfter : Option Char → Bool
  | none => true
  | some c => isLineTerm c

/-- Is position `p` of `s` a position where `^` matches in multiline
mode (start of input, or preceded by a line terminator)? -/
def lineStartAt (s : Str) (p : Nat) : Bool :=
  p == 0 ||
    (match s.get? (p - 1) with
     | some c => isLineTerm c
     | none => false)

/-- A raw match of the definition regex: start offset, matched text,
raw group 2 (the untrimmed ref) and group 3 (the untrimmed body with its
continuation indentation). -/
structure DefMatch where
  start : Nat
  fullMatch : Str
  refRaw : Str
  body3 : Str
deriving DecidableEq, Repr

/-- A parsed footnote definition (interface `ParsedDefinition`). -/
structure ParsedDefinition where
  ref : Str
  definition : Str
  start : Nat
  «end» : Nat
  fullMatch : Str
deriving DecidableEq, Repr

/-- A parsed footnote reference (interface `ParsedReference`). -/
structure ParsedReference where
  ref : Str
  start : Nat
  «end» : Nat
  fullMatch : Str
deriving DecidableEq, Repr

/-- `match[3].replace(/\n(?:\ {4}|\t|\s{2,})/g, '\n')`: strips the
continuation-line indentation inside a definition body.  The alternatives
are tried in the regex's order; on a failed match the scan advances one
character. -/
def contReplace (fuel : Nat) (s : Str) : Str :=
  match fuel, s with
  | 0, s => s
  | _, [] => []
  | fuel + 1, c :: u =>
    if c = '\n' then
      if (str "    ").isPrefixOf u then '\n' :: contReplace fuel (u.drop 4)
      else if u.head? = some '\t' then '\n' :: contReplace fuel (u.drop 1)
      else if 2 ≤ (u.takeWhile isJsWs).length then
        '\n' :: contReplace fuel (u.dropWhile isJsWs)
      else c :: contReplace fuel u
    else c :: contReplace fuel u

/-- The `regex.exec` loop over the definition regex with flags `gm`:
walk the string position by position, attempting the (linearised) match
at every `^`-position, and jumping past each match. `prev` is the
character before the current position (`none` at the start of input). -/
def scanDefsGo : Nat → Option Char → Nat → Str → List DefMatch
  | 0, _, _, _ => []
  | fuel + 1, prev, pos, t =>
    match (if lineStartAfter prev then defMatchAt t else none) with
    | some m =>
      { start := pos, fullMatch := m.1, refRaw := m.2.1, body3 := m.2.2 } ::
        scanDefsGo fuel m.1.getLast? (pos + m.1.length) (t.drop m.1.length)
    | none =>
      match t with
      | [] => []
      | c :: rest => scanDefsGo fuel (some c) (pos + 1) rest

/-- All matches of the definition regex over `content`, in document
order. -/
def scanDefs (content : Str) : List DefMatch :=
  scanDefsGo (content.length + 1) none 0 content

/-- The trimmed ref of a definition match (`match[2].trim()`). -/
def DefMatch.ref (m : DefMatch) : Str := jsTrim m.refRaw

/-- The cleaned body of a definition match
(`match[3].replace(/\n(?:\ {4}|\t|\s{2,})/g, '\n').trim()`). -/
def DefMatch.definition (m : DefMatch) : Str :=
  jsTrim (contReplace m.body3.length m.body3)

/-- The end offset of a definition match. -/
def DefMatch.stop (m : DefMatch) : Nat := m.start + m.fullMatch.length

/-- The `regex.exec` loop over the reference regex
`/\[\^([^\]]+?)\](?!:)/g` of `parseSourceContent`: `[^`, a non-empty run
of non-`]` characters, `]`, not followed by `:`.  On failure the scan
advances one character; on success it continues after the `]` (the
lookahead consumes nothing). -/
def scanRefsGo (fuel : Nat) (pos : Nat) (t : Str) : List ParsedReference :=
  match fuel with
  | 0 => []
  | fuel + 1 =>
    match t with
    | [] => []
    | '[' :: '^' :: t2 =>
      let refRaw := t2.takeWhile (fun d => d ≠ ']')
      match t2.dropWhile (fun d => d ≠ ']') with
      | ']' :: t4 =>
        if refRaw.isEmpty || t4.head? = some ':' then
          scanRefsGo fuel (pos + 1) ('^' :: t2)
        else
          { ref := jsTrim refRaw,
            start := pos,
            «end» := pos + refRaw.length + 3,
            fullMatch := '[' :: '^' :: refRaw ++ [']'] } ::
            scanRefsGo fuel (pos + refRaw.length + 3) t4
      | _ => scanRefsGo fuel (pos + 1) ('^' :: t2)
    | _ :: rest => scanRefsGo fuel (pos + 1) rest

/-- All matches of the reference regex over `content`, in document
order. -/
def scanRefs (content : Str) : List ParsedReference :=
  scanRefsGo (content.length + 1) 0 content

/-- `parseSourceContent` (src/main.ts): parse footnote definitions and
references from Markdown content. -/
def parseSourceContent (content : Str) :
    List ParsedDefinition × List ParsedReference :=
  ((scanDefs content).map (fun m =>
    { ref := m.ref, definition := m.definition, start := m.start,
      «end» := m.stop, fullMatch := m.fullMatch }),
   scanRefs content)

/-! ## Insertion-ordered string maps (JS `Map<string, string>`) -/

/-- The JS `Map` is modelled as an association list in insertion order;
`set` updates in place when the key exists and appends otherwise. -/
abbrev JsMap := List (Str × Str)

/-- JS `Map.prototype.set`. -/
def jsMapSet (m : JsMap) (k v : Str) : JsMap :=
  match m with
  | [] => [(k, v)]
  | (k0, v0) :: rest =>
    if k0 = k then (k0, v) :: rest else (k0, v0) :: jsMapSet rest k v

/-- JS `Map.prototype.get` (`none` for a missing key). -/
def jsMapGet (m : JsMap) (k : Str) : Option Str :=
  match m with
  | [] => none
  | (k0, v0) :: rest => if k0 = k then some v0 else jsMapGet rest k

/-- JS `Map.prototype.has`. -/
def jsMapHas (m : JsMap) (k : Str) : Bool :=
  match m with
  | [] => false
  | (k0, _) :: rest => k0 = k || jsMapHas rest k

/-- `new Map(entries)`: iterated `set` over the entries. -/
def jsMapFromEntries (l : List (Str × Str)) : JsMap :=
  l.foldl (fun m kv => jsMapSet m kv.1 kv.2) []

/-- `parseFootnotesSimple` (src/main.ts): the same definition regex,
folded into a map (last definition wins); `if (match[2])` skips matches
whose raw group 2 is empty — the regex in fact guarantees the raw group
is non-empty, so the guard never fires, even when the ref trims to the
empty string. -/
def parseFootnotesSimple (content : Str) : JsMap :=
  (scanDefs content).foldl
    (fun acc m =>
      if m.refRaw.isEmpty then acc
      else jsMapSet acc m.ref m.definition)
    []

/-! ## Sorting of definitions for rendering

Both generators sort entries with
`a[0].localeCompare(b[0], undefined, { numeric: true, sensitivity: 'base' })`
inside a (stable) `Array.prototype.sort`.  `localeCompare` delegates to
the host's collator; it is modelled here as a deterministic natural
(numeric-aware, case-folded) comparison.  No claim in this development
depends on the particular order it produces — only on its determinism
and on the stability of the sort. -/

/-- Numeric value of a digit run. -/
def digitsVal (s : Str) : Nat :=
  s.foldl (fun n c => n * 10 + (c.val.toNat - 48)) 0

/-- Deterministic model of
`localeCompare(·, undefined, { numeric: true, sensitivity: 'base' })`:
digit runs compare numerically, other characters compare case-folded. -/
def localeCompareNumericBase (fuel : Nat) (a b : Str) : Ordering :=
  match fuel, a, b with
  | 0, _, _ => .eq
  | _, [], [] => .eq
  | _, [], _ :: _ => .lt
  | _, _ :: _, [] => .gt
  | fuel + 1, x :: xs, y :: ys =>
    if x.isDigit && y.isDigit then
      let dx := (x :: xs).takeWhile Char.isDigit
      let dy := (y :: ys).takeWhile Char.isDigit
      (compare (digitsVal dx) (digitsVal dy)).then
        (localeCompareNumericBase fuel ((x :: xs).dropWhile Char.isDigit)
          ((y :: ys).dropWhile Char.isDigit))
    else if x.isDigit then .lt
    else if y.isDigit then .gt
    else (compare x.toLower.val y.toLower.val).then
      (localeCompareNumericBase fuel xs ys)

/-- Comparison of two entry keys. -/
def cmpKeys (a b : Str) : Ordering :=
  localeCompareNumericBase (a.length + b.length + 1) a b

/-- Stable insertion used by the sort model: an element is placed after
all existing elements that do not compare greater than it, which is the
stability guarantee of `Array.prototype.sort`. -/
def insertEntry (x : Str × Str) : JsMap → JsMap
  | [] => [x]
  | y :: ys => if cmpKeys x.1 y.1 = .lt then x :: y :: ys else y :: insertEntry x ys

/-- Stable sort of map entries by key (model of
`Array.from(map.entries()).sort(...)`). -/
def sortEntries (m : JsMap) : JsMap :=
  m.foldl (fun acc x => insertEntry x acc) []

/-- `list.join(sep)`. -/
def strIntercalate (sep : Str) : List Str → Str
  | [] => []
  | [x] => x
  | x :: xs => x ++ sep ++ strIntercalate sep xs

/-- The rendered definition block: entries sorted, rendered as
`[^ref]: body`, joined by blank lines (shared shape of
`generateCueContent` and `updateSourceNoteContentRebuild`). -/
def renderDefBlock (m : JsMap) : Str :=
  strIntercalate (str "\n\n")
    ((sortEntries m).map (fun kv => str "[^" ++ kv.1 ++ str "]: " ++ kv.2))

/-! ## Header extraction of `generateCueContent`

The generator locates the first definition line with
`/^(\s*\[\^.+?\]:)/m` and the first marker block line with
`/^\s*```cornell-footnote-links/m` (built via `new RegExp`).  Both are
`^`-anchored single matches, so the match index is the least position
at which `^` holds and the anchored pattern matches. -/

/-- The tail of the first-definition-line pattern after `[^`: at least
one `.` character, then scan (lazily) for `]:` on the same line: at each
step, if the remaining text starts with `]:` the lazy group stops and
the match succeeds; otherwise one more (non-line-terminator) character
is consumed by `.+?`. -/
def scanBrColon : Str → Bool
  | [] => false
  | c :: rest =>
    if c = ']' ∧ rest.head? = some ':' then true
    else !isLineTerm c && scanBrColon rest

/-- Does `/\s*\[\^.+?\]:/` match at the start of `t`?  (`\s*` is greedy
and followed by `[`, a non-whitespace character, so it takes the maximal
whitespace run; `.+?` cannot match `]`-free...  it can match any
non-line-terminator, so the lazy scan looks for the first `]:` on the
line.) -/
def defLineCore : Str → Bool
  | '[' :: '^' :: c :: rest => !isLineTerm c && scanBrColon rest
  | _ => false

/-- See `defLineCore`: the whole anchored pattern is the maximal
whitespace run followed by `defLineCore` on what remains. -/
def genDefLineAt (t : Str) : Bool :=
  defLineCore (t.dropWhile isJsWs)

/-- Does `/\s*```cornell-footnote-links/` match at the start of `t`? -/
def cbLineAt (t : Str) : Bool :=
  (str "```cornell-footnote-links").isPrefixOf (t.dropWhile isJsWs)

/-- Index of the first definition line
(`currentContent.match(/^(\s*\[\^.+?\]:)/m)?.index`). -/
def firstDefIdx (s : Str) : Option Nat :=
  (List.range (s.length + 1)).find?
    (fun p => lineStartAt s p && genDefLineAt (s.drop p))

/-- Index of the first marker-block line. -/
def firstCbIdx (s : Str) : Option Nat :=
  (List.range (s.length + 1)).find?
    (fun p => lineStartAt s p && cbLineAt (s.drop p))

/-- The cut index of the header extraction in `generateCueContent`: the
first definition-line match (default: end of content), overridden by an
earlier marker-block match. -/
def genFirstElementIdx (s : Str) : Nat :=
  let idx0 :=
    match firstDefIdx s with
    | some i => i
    | none => s.length
  match firstCbIdx s with
  | some j => if j < idx0 then j else idx0
  | none => idx0

/-! ## Template substitution -/

/-- `GetSubstitution` for a replacement string (JS
`String.prototype.replace` with a string pattern): `$$`, `$&`,
`` $` `` and `$'` are expanded; everything else is literal. -/
def dollarExpand (rep : Str) (matched before after : Str) : Str :=
  match rep with
  | [] => []
  | c :: r =>
    if c = '$' then
      match r with
      | [] => ['$']
      | d :: r2 =>
        if d = '$' then '$' :: dollarExpand r2 matched before after
        else if d = '&' then matched ++ dollarExpand r2 matched before after
        else if d.val == 96 then before ++ dollarExpand r2 matched before after
        else if d.val == 39 then after ++ dollarExpand r2 matched before after
        else '$' :: d :: dollarExpand r2 matched before after
    else c :: dollarExpand r matched before after

/-- JS `s.replace(pattern, rep)` with a *string* pattern: replaces the
first occurrence only. -/
def jsReplaceFirst (s pat rep : Str) : Str :=
  match s with
  | [] => if pat.isEmpty then dollarExpand rep pat [] [] else []
  | c :: rest =>
    if pat.isPrefixOf s then
      dollarExpand rep pat [] (s.drop pat.length) ++ s.drop pat.length
    else c :: jsReplaceFirstAux rest pat rep [c]
where
  /-- Scan for the first occurrence, tracking the prefix already
  passed (needed for `` $` ``). -/
  jsReplaceFirstAux (t pat rep : Str) (before : Str) : Str :=
    match t with
    | [] => []
    | c :: rest =>
      if pat.isPrefixOf t then
        dollarExpand rep pat before (t.drop pat.length) ++ t.drop pat.length
      else c :: jsReplaceFirstAux rest pat rep (before ++ [c])

/-! ## Settings and fixed internal constants -/

/-- The user-configurable settings (interface
`CornellFootnoteSettings`). -/
structure CornellFootnoteSettings where
  syncOnSave : Bool
  deleteReferencesOnDefinitionDelete : Bool
  deleteDefinitionsOnReferenceDelete : Bool
  linkToSourceText : Str
  linkToCueText : Str
  enableCueNoteNavigation : Bool
  enableModifierClickHighlight : Bool
  moveFootnotesToEnd : Bool

/-- `DEFAULT_SETTINGS` (src/main.ts). -/
def DEFAULT_SETTINGS : CornellFootnoteSettings where
  syncOnSave := false
  deleteReferencesOnDefinitionDelete := false
  deleteDefinitionsOnReferenceDelete := false
  linkToSourceText := str "[[\x7b\x7bsourceNote\x7d\x7d|⬅️ Back to Source]]"
  linkToCueText := str "[[\x7b\x7bcueNote\x7d\x7d|⬅️ Back to Cue]]"
  enableCueNoteNavigation := true
  enableModifierClickHighlight := true
  moveFootnotesToEnd := true

/-- `INTERNAL_SETTINGS.cueNoteSuffix`. -/
def cueNoteSuffix : Str := str "-cue"

/-- `INTERNAL_SETTINGS.summaryNoteSuffix`. -/
def summaryNoteSuffix : Str := str "-summary"

/-! ## `generateCueContent` -/

/-- The header extraction and back-link arm of `generateCueContent`
(src/main.ts): cut the current content at the first definition line or
marker block, trim it, and keep it if it already includes the back-link,
otherwise prepend (or fall back to) the back-link. -/
def genHeaderChoiceT (linkToSource currentContent : Str) : Str :=
  let firstElementIdx := genFirstElementIdx currentContent
  let extractedHeader := jsTrimEnd (currentContent.take firstElementIdx)
  if jsIncludes extractedHeader linkToSource then extractedHeader
  else if !extractedHeader.isEmpty then
    linkToSource ++ str "\n\n" ++ extractedHeader
  else linkToSource

/-- `generateCueContent` (src/main.ts).  `linkToSourceText` is the
configured template (`this.settings.linkToSourceText`) and
`sourceBasename` the basename of the source note file; the header
extraction and back-link handling are `genHeaderChoiceT`. -/
def generateCueContent (linkToSourceText currentContent sourceBasename : Str)
    (footnotes : JsMap) : Str :=
  let linkToSource :=
    jsReplaceFirst linkToSourceText (str "\x7b\x7bsourceNote\x7d\x7d") sourceBasename
  let extractedHeader := genHeaderChoiceT linkToSource currentContent
  let finalHeader :=
    if !extractedHeader.isEmpty then extractedHeader ++ str "\n\n" else []
  let fnsText := if 0 < footnotes.length then renderDefBlock footnotes else []
  let codeBlockSection :=
    if 0 < footnotes.length then str "\n\n```cornell-footnote-links\n```\n"
    else []
  collapseNewlines
    (jsTrimEnd (finalHeader ++ fnsText ++ codeBlockSection) ++ ['\n'])

/-! ## `updateSourceNoteContentRebuild` -/

/-- JS `Set.prototype.add` on an insertion-ordered set. -/
def jsSetAdd (l : List Str) (x : Str) : List Str :=
  if l.contains x then l else l ++ [x]

/-- Stable insertion for `sort((a, b) => b.start - a.start)`:
descending by start offset. -/
def insertByStartDesc (x : ParsedDefinition) :
    List ParsedDefinition → List ParsedDefinition
  | [] => [x]
  | y :: ys =>
    if y.start < x.start then x :: y :: ys else y :: insertByStartDesc x ys

/-- `[...sourceDefs].sort((a, b) => b.start - a.start)`. -/
def sortByStartDesc (l : List ParsedDefinition) : List ParsedDefinition :=
  l.foldl (fun acc x => insertByStartDesc x acc) []

/-- First alternative of the orphan-reference regex
`\[\^(r1|r2|...)\](?!:)` that matches at `t2` (the text after `[^`):
alternatives are tried in insertion order; thanks to `escapeRegex` each
alternative is a literal.  Returns the text after the closing `]` on
success. -/
def altMatch (refs : List Str) (t2 : Str) : Option Str :=
  match refs with
  | [] => none
  | r :: rs =>
    if r.isPrefixOf t2 && (t2.drop r.length).head? = some ']' &&
        (t2.drop (r.length + 1)).head? ≠ some ':' then
      some (t2.drop (r.length + 1))
    else altMatch rs t2

/-- The global replace
`bodyContent.replace(/\[\^(r1|r2|...)\](?!:)/g, '')`: on a match the
matched text is dropped and the scan continues after it; on a failure
the scan advances one character. -/
def stripRefsGo (fuel : Nat) (refs : List Str) (t : Str) : Str :=
  match fuel with
  | 0 => t
  | fuel + 1 =>
    match t with
    | [] => []
    | '[' :: '^' :: t2 =>
      (match altMatch refs t2 with
       | some t4 => stripRefsGo fuel refs t4
       | none => '[' :: stripRefsGo fuel refs ('^' :: t2))
    | c :: rest => c :: stripRefsGo fuel refs rest

/-- Strip every orphan reference (see `stripRefsGo`). -/
def stripRefs (refs : List Str) (s : Str) : Str :=
  stripRefsGo (s.length + 1) refs s

/-- Step 2 of `updateSourceNoteContentRebuild`: walk the Source's
definitions, overwriting bodies from the Cue and collecting the refs
missing from the Cue (`refsToDeleteCompletely`). -/
def rebuildStep1 (footnotesFromCue : JsMap)
    (sourceDefs : List ParsedDefinition) : JsMap × List Str :=
  sourceDefs.foldl
    (fun (acc : JsMap × List Str) d =>
      if jsMapHas footnotesFromCue d.ref then
        (jsMapSet acc.1 d.ref ((jsMapGet footnotesFromCue d.ref).getD []),
         acc.2)
      else (acc.1, jsSetAdd acc.2 d.ref))
    ([], [])

/-- The final definition map of `updateSourceNoteContentRebuild`
(Cue-only definitions appended after the overwritten Source ones). -/
def rebuildFinalDefinitions (footnotesFromCue : JsMap)
    (sourceDefs : List ParsedDefinition) : JsMap :=
  footnotesFromCue.foldl
    (fun acc kv =>
      if sourceDefs.any (fun d => d.ref = kv.1) then acc
      else jsMapSet acc kv.1 kv.2)
    (rebuildStep1 footnotesFromCue sourceDefs).1

/-- Step 3a of `updateSourceNoteContentRebuild`: remove every definition
match (highest offset first) and trim the result. -/
def rebuildBareBody (sourceContent : Str) : Str :=
  jsTrimEnd ((sortByStartDesc (parseSourceContent sourceContent).1).foldl
    (fun (b : Str) d => b.take d.start ++ b.drop d.«end») sourceContent)

/-- `updateSourceNoteContentRebuild` (src/main.ts): rebuild the Source
note from the Cue note's definitions. -/
def updateSourceNoteContentRebuild (sourceContent : Str)
    (footnotesFromCue : JsMap) (deleteReferences moveToEnd : Bool) : Str :=
  let sourceDefs := (parseSourceContent sourceContent).1
  let refsToDeleteCompletely := (rebuildStep1 footnotesFromCue sourceDefs).2
  let finalDefinitions := rebuildFinalDefinitions footnotesFromCue sourceDefs
  let bodyContent := rebuildBareBody sourceContent
  -- 3b. optionally strip references to deleted definitions
  let bodyContent :=
    if deleteReferences && 0 < refsToDeleteCompletely.length then
      stripRefs refsToDeleteCompletely bodyContent
    else bodyContent
  -- 4. render the new definition block
  let finalDefinitionsText :=
    if 0 < finalDefinitions.length then renderDefBlock finalDefinitions
    else []
  -- 5. join body and block (both branches of `moveToEnd` append)
  let newSourceContent :=
    if !finalDefinitionsText.isEmpty then
      if moveToEnd then bodyContent ++ str "\n\n" ++ finalDefinitionsText
      else bodyContent ++ str "\n\n" ++ finalDefinitionsText
    else bodyContent
  collapseNewlines (jsTrimEnd newSourceContent ++ ['\n'])

/-! ## The forward (Source → Cue) data path -/

/-- The pure data path of `syncSourceToCue` (src/main.ts): from the
Source content and the current Cue content, the final footnote map
passed to `generateCueContent` and the generated Cue content.  The
write in `updateCueNoteContent` is gated on
`currentContent !== newContent`. -/
def forwardSyncCompute (deleteDefinitionsOnReferenceDelete : Bool)
    (linkToSourceText sourceContent cueContent sourceBasename : Str) :
    JsMap × Str :=
  let sourceDefs := (parseSourceContent sourceContent).1
  let sourceDefinitionsMap :=
    jsMapFromEntries (sourceDefs.map (fun d => (d.ref, d.definition)))
  let finalCueFootnotes :=
    sourceDefinitionsMap.foldl (fun m kv => jsMapSet m kv.1 kv.2) []
  let finalCueFootnotes :=
    if deleteDefinitionsOnReferenceDelete then
      let presentSourceRefKeys := ((parseSourceContent sourceContent).2).map
        (fun r => r.ref)
      finalCueFootnotes.filter (fun kv => presentSourceRefKeys.contains kv.1)
    else finalCueFootnotes
  (finalCueFootnotes,
   generateCueContent linkToSourceText cueContent sourceBasename
     finalCueFootnotes)

/-- Whether the forward sync writes the Cue note
(`currentContent !== newContent` in `updateCueNoteContent`). -/
def forwardSyncWrites (deleteDefinitionsOnReferenceDelete : Bool)
    (linkToSourceText sourceContent cueContent sourceBasename : Str) : Bool :=
  (forwardSyncCompute deleteDefinitionsOnReferenceDelete linkToSourceText
    sourceContent cueContent sourceBasename).2 ≠ cueContent

/-! ## Path and role resolution

`normalizePath` is Obsidian's, not part of this repository.
Modelled from the spec: the host API normalises a path by trimming it,
unifying and collapsing separator runs, stripping leading and trailing
separators (an empty result becomes `/`), and replacing non-breaking
spaces with plain spaces. -/

/-- One separator-run collapse pass (`replace(/([\\/])+/g, '/')`). -/
def collapseSlashes (fuel : Nat) (s : Str) : Str :=
  match fuel, s with
  | 0, s => s
  | _, [] => []
  | fuel + 1, c :: rest =>
    if c = '/' || c = '\\' then
      '/' :: collapseSlashes fuel
        (rest.dropWhile (fun d => d = '/' || d = '\\'))
    else c :: collapseSlashes fuel rest

/-- Modelled from the spec: Obsidian's `normalizePath` (external host
API, used by the role helpers below). -/
def normalizePath (p : Str) : Str :=
  let t := jsTrim p
  let t := collapseSlashes t.length t
  let t := t.dropWhile (fun d => d = '/')
  let t := (t.reverse.dropWhile (fun d => d = '/')).reverse
  let t := if t.isEmpty then str "/" else t
  t.map (fun c => if c.val == 0xA0 || c.val == 0x202F then ' ' else c)

/-- `isCueNote` (src/main.ts). -/
def isCueNote (filePath : Str) : Bool :=
  if filePath.isEmpty then false
  else jsEndsWith (normalizePath filePath) (cueNoteSuffix ++ str ".md")

/-- `isSummaryNote` (src/main.ts). -/
def isSummaryNote (filePath : Str) : Bool :=
  if filePath.isEmpty then false
  else jsEndsWith (normalizePath filePath) (summaryNoteSuffix ++ str ".md")

/-- `getCueNotePath` (src/main.ts), with the source file's basename and
parent folder path (`sourceFile.parent?.path ?? '/'`) as inputs. -/
def getCueNotePath (basename folderPath : Str) : Str :=
  let cueFilename := basename ++ cueNoteSuffix ++ str ".md"
  let finalPath :=
    if folderPath = str "/" || folderPath = [] then cueFilename
    else folderPath ++ '/' :: cueFilename
  normalizePath finalPath

/-- `getSummaryNotePath` (src/main.ts). -/
def getSummaryNotePath (basename folderPath : Str) : Str :=
  let summaryFilename := basename ++ summaryNoteSuffix ++ str ".md"
  let finalPath :=
    if folderPath = str "/" || folderPath = [] then summaryFilename
    else folderPath ++ '/' :: summaryFilename
  normalizePath finalPath

/-! ## Control flow of the sync passes (re-entrancy guard)

The guard discipline of `syncSourceToCue` and `syncCueToSource` is
modelled as a function of the initial flag, the role check, and the
outcome of each fallible step of the body (vault reads, the counterpart
lookup, and the write/save tail).  `TsThrow` stands for a raised
JavaScript exception; the `try`/`catch`/`finally` structure of the
source is mirrored literally, including the early `return` in the
counterpart-not-found branch (which clears the flag itself before the
`finally` block clears it again). -/

/-- Outcome of one fallible JavaScript step. -/
inductive TsStep where
  | ok
  | throws
deriving DecidableEq, Repr

/-- Result of one sync pass: the final value of `isSyncing`, and
whether an exception escaped to the caller. -/
structure SyncPassResult where
  isSyncing : Bool
  escaped : Bool
deriving DecidableEq, Repr

/-- Control flow of `syncSourceToCue` (src/main.ts):
guard check → role check → set flag → `try` body (read source; look up
the cue note, aborting early when absent; generate/write/save) →
`catch` (report only) → `finally` (release flag). -/
def syncSourceToCueFlow (isSyncing0 : Bool) (fileIsCueOrSummary : Bool)
    (readSource : TsStep) (cueNoteFound : Bool)
    (notFoundSave : TsStep) (writeAndSave : TsStep) : SyncPassResult :=
  if isSyncing0 then { isSyncing := isSyncing0, escaped := false }
  else if fileIsCueOrSummary then { isSyncing := isSyncing0, escaped := false }
  else
    -- this.isSyncing = true; try { ... } catch { ... } finally { release }
    let bodyEscapes : Bool :=
      match readSource with
      | .throws => false        -- caught by the catch block
      | .ok =>
        if !cueNoteFound then
          match notFoundSave with
          | .throws => false    -- caught
          | .ok => false        -- early return (flag already cleared)
        else
          match writeAndSave with
          | .throws => false    -- caught
          | .ok => false
    -- the finally block always runs and clears the flag
    { isSyncing := false, escaped := bodyEscapes }

/-- Control flow of `syncCueToSource` (src/main.ts): analogous, with
the source-note lookup as the early-abort step. -/
def syncCueToSourceFlow (isSyncing0 : Bool) (fileIsCue : Bool)
    (readCue : TsStep) (sourceNoteFound : Bool)
    (readSourceWriteSave : TsStep) : SyncPassResult :=
  if isSyncing0 then { isSyncing := isSyncing0, escaped := false }
  else if !fileIsCue then { isSyncing := isSyncing0, escaped := false }
  else
    let bodyEscapes : Bool :=
      match readCue with
      | .throws => false        -- caught
      | .ok =>
        if !sourceNoteFound then false   -- early return (flag cleared there)
        else
          match readSourceWriteSave with
          | .throws => false    -- caught
          | .ok => false
    { isSyncing := false, escaped := bodyEscapes }

/-! ## Well-formedness of file names and folder paths

`TFile.basename` and `TFile.parent.path` are supplied by the host
application; the hypotheses below describe ordinary vault names — the
characters that `normalizePath` rewrites (separators, non-breaking
spaces) do not occur in them and their edges carry no whitespace. -/

/-- A character `normalizePath` leaves alone and that is not a path
separator. -/
def pathCharOk (c : Char) : Bool :=
  c ≠ '/' && c ≠ '\\' && c.val ≠ 0xA0 && c.val ≠ 0x202F

/-- A character that may sit at either edge of a path. -/
def pathEdgeOk (c : Char) : Bool := !isJsWs c && c ≠ '/'

/-- A well-formed basename: non-empty, no separators or non-breaking
spaces, and not starting with whitespace. -/
def wfName (s : Str) : Bool :=
  match s with
  | [] => false
  | c :: _ => !isJsWs c && s.all pathCharOk

/-- No two adjacent forward slashes. -/
def noDoubleSlash : Str → Bool
  | c1 :: c2 :: rest => !(c1 = '/' && c2 = '/') && noDoubleSlash (c2 :: rest)
  | _ => true

/-- A well-formed (possibly nested) folder path: non-empty, no
backslashes or non-breaking spaces, no doubled separators, and clean
edges. -/
def wfFolder (s : Str) : Bool :=
  match s with
  | [] => false
  | c :: _ =>
    pathEdgeOk c &&
    s.all (fun d => d ≠ '\\' && d.val ≠ 0xA0 && d.val ≠ 0x202F) &&
    noDoubleSlash s &&
    (match s.getLast? with
     | some d => pathEdgeOk d
     | none => false)

theorem noDoubleSlash_tail (c : Char) (t : Str)
    (h : noDoubleSlash (c :: t) = true) : noDoubleSlash t = true := by
  match t with
  | [] => rfl
  | c2 :: rest =>
    rw [noDoubleSlash] at h
    exact (Bool.and_elim_right h)

theorem collapseSlashes_eq_self (fuel : Nat) (s : Str)
    (hfuel : s.length ≤ fuel)
    (hb : s.all (fun c => c ≠ '\\') = true)
    (hd : noDoubleSlash s = true) :
    collapseSlashes fuel s = s := by
  induction fuel generalizing s with
  | zero => cases s <;> rfl
  | succ fuel ih =>
    match s with
    | [] => rfl
    | c :: rest =>
      rw [collapseSlashes]
      simp only [List.all_cons, Bool.and_eq_true] at hb
      by_cases hc : c = '/' || c = '\\'
      · have hc' : c = '/' := by
          rcases Bool.or_eq_true _ _ |>.mp hc with h | h
          · exact of_decide_eq_true h
          · exact absurd (of_decide_eq_true h) (by simpa using hb.1)
        rw [if_pos hc]
        have hrest : rest.dropWhile (fun d => d = '/' || d = '\\') = rest := by
          match rest with
          | [] => rfl
          | d :: rest2 =>
            have hd2 : ¬(d = '/') := by
              subst hc'
              rw [noDoubleSlash] at hd
              intro hdd
              subst hdd
              simp at hd
            have hb2 : ¬(d = '\\') := by
              have := hb.2
              simp only [List.all_cons, Bool.and_eq_true] at this
              simpa using this.1
            rw [List.dropWhile_cons]
            simp [hd2, hb2]
        rw [hrest]
        subst hc'
        congr 1
        exact ih rest (by simpa using hfuel) (by simpa using hb.2)
          (noDoubleSlash_tail _ _ hd)
      · rw [if_neg hc]
        congr 1
        exact ih rest (by simpa using hfuel) (by simpa using hb.2)
          (noDoubleSlash_tail _ _ hd)

theorem map_eq_self_of (s : Str) (f : Char → Char)
    (h : ∀ c ∈ s, f c = c) : s.map f = s := by
  induction s with
  | nil => rfl
  | cons c rest ih =>
    simp only [List.map_cons, h c (by simp)]
    rw [ih (fun x hx => h x (by simp [hx]))]

theorem dropWhile_eq_self_of_head (p : Char → Bool) (s : Str) (c : Char)
    (hh : s.head? = some c) (hc : p c = false) : s.dropWhile p = s := by
  match s with
  | [] => cases hh
  | d :: t =>
    simp only [List.head?_cons, Option.some_inj] at hh
    subst hh
    rw [List.dropWhile_cons, hc]
    simp

/-- On a clean path (non-empty, clean edges, no backslashes, doubled
separators or non-breaking spaces) `normalizePath` is the identity. -/
theorem normalizePath_eq_self (s : Str) (ch cl : Char)
    (hh : s.head? = some ch) (hpe : pathEdgeOk ch = true)
    (hl : s.getLast? = some cl) (hle : pathEdgeOk cl = true)
    (hall : s.all (fun d => d ≠ '\\' && d.val ≠ 0xA0 && d.val ≠ 0x202F)
      = true)
    (hd : noDoubleSlash s = true) :
    normalizePath s = s := by
  obtain ⟨init, rfl⟩ := List.getLast?_eq_some_iff.mp hl
  simp only [pathEdgeOk, Bool.and_eq_true] at hpe hle
  have hrev : (init ++ [cl]).reverse.head? = some cl := by
    rw [List.reverse_append]
    rfl
  have e1 : jsTrim (init ++ [cl]) = init ++ [cl] := by
    unfold jsTrim jsTrimStart jsTrimEnd
    rw [dropWhile_eq_self_of_head isJsWs _ ch hh (by simpa using hpe.1)]
    rw [dropWhile_eq_self_of_head isJsWs _ cl hrev (by simpa using hle.1)]
    exact List.reverse_reverse _
  unfold normalizePath
  dsimp only
  rw [e1]
  rw [collapseSlashes_eq_self _ _ (le_refl _)
    (by
      rw [List.all_eq_true] at hall ⊢
      intro c hc
      have := hall c hc
      simp only [Bool.and_eq_true] at this
      exact this.1.1)
    hd]
  rw [dropWhile_eq_self_of_head _ _ ch hh (by simpa using hpe.2)]
  rw [dropWhile_eq_self_of_head _ _ cl hrev (by simpa using hle.2)]
  rw [List.reverse_reverse]
  rw [if_neg (by simp)]
  apply map_eq_self_of
  intro c hc
  rw [List.all_eq_true] at hall
  have := hall c hc
  simp only [Bool.and_eq_true] at this
  have h1 : ¬(c.val = 0xA0) := by simpa using this.1.2
  have h2 : ¬(c.val = 0x202F) := by simpa using this.2
  simp [h1, h2]

theorem isPrefixOf_append_self (l t : Str) : l.isPrefixOf (l ++ t) = true := by
  induction l with
  | nil => simp [List.isPrefixOf]
  | cons c rest ih => simpa [List.isPrefixOf] using ih

theorem jsEndsWith_append (a b : Str) : jsEndsWith (a ++ b) b = true := by
  unfold jsEndsWith
  rw [List.reverse_append]
  exact isPrefixOf_append_self _ _

theorem slashfree_ndbl (s : Str)
    (h : s.all (fun c => c ≠ '/') = true) : noDoubleSlash s = true := by
  induction s with
  | nil => rfl
  | cons c t ih =>
    match t with
    | [] => rfl
    | c2 :: u =>
      rw [noDoubleSlash]
      simp only [List.all_cons, Bool.and_eq_true] at h
      simp only [Bool.and_eq_true]
      constructor
      · simp only [Bool.not_eq_eq_eq_not, Bool.not_true, Bool.and_eq_false_iff]
        left
        simpa using h.1
      · exact ih (by simp only [List.all_cons, Bool.and_eq_true]; exact ⟨h.2.1, h.2.2⟩)

theorem ndbl_append_slash (f rest : Str)
    (hf : noDoubleSlash f = true)
    (hl : ∀ d, f.getLast? = some d → d ≠ '/')
    (hr : rest.all (fun c => c ≠ '/') = true) :
    noDoubleSlash (f ++ '/' :: rest) = true := by
  induction f with
  | nil =>
    show noDoubleSlash ('/' :: rest) = true
    match rest, hr with
    | [], _ => rfl
    | c2 :: u, hr =>
      rw [noDoubleSlash]
      simp only [List.all_cons, Bool.and_eq_true] at hr
      simp only [Bool.and_eq_true]
      constructor
      · simp only [Bool.not_eq_eq_eq_not, Bool.not_true, Bool.and_eq_false_iff]
        right
        simpa using hr.1
      · exact slashfree_ndbl _
          (by simp only [List.all_cons, Bool.and_eq_true]; exact ⟨hr.1, hr.2⟩)
  | cons c f' ih =>
    match f' with
    | [] =>
      show noDoubleSlash (c :: '/' :: rest) = true
      rw [noDoubleSlash]
      simp only [Bool.and_eq_true]
      constructor
      · simp only [Bool.not_eq_eq_eq_not, Bool.not_true, Bool.and_eq_false_iff]
        left
        simpa using hl c rfl
      · exact ih rfl (fun d hd => by cases hd)
    | c2 :: u =>
      show noDoubleSlash (c :: (c2 :: (u ++ '/' :: rest))) = true
      rw [noDoubleSlash]
      rw [noDoubleSlash] at hf
      simp only [Bool.and_eq_true] at hf ⊢
      refine ⟨hf.1, ?_⟩
      exact ih hf.2
        (fun d hd => hl d (by rw [List.getLast?_cons_cons]; exact hd))

theorem pathCharOk_split {c : Char} (h : pathCharOk c = true) :
    c ≠ '/' ∧ c ≠ '\\' ∧ c.val ≠ 0xA0 ∧ c.val ≠ 0x202F := by
  simp only [pathCharOk, Bool.and_eq_true, decide_eq_true_eq] at h
  exact ⟨h.1.1.1, h.1.1.2, h.1.2, h.2⟩

theorem all_weaken_pathCharOk (s : Str) (h : s.all pathCharOk = true) :
    s.all (fun d => d ≠ '\\' && d.val ≠ 0xA0 && d.val ≠ 0x202F) = true := by
  rw [List.all_eq_true] at h ⊢
  intro c hc
  obtain ⟨_, h2, h3, h4⟩ := pathCharOk_split (h c hc)
  simp [h2, h3, h4]

theorem all_slashfree_of_pathCharOk (s : Str) (h : s.all pathCharOk = true) :
    s.all (fun d => d ≠ '/') = true := by
  rw [List.all_eq_true] at h ⊢
  intro c hc
  simpa using (pathCharOk_split (h c hc)).1

/-- The common shape of `getCueNotePath` and `getSummaryNotePath`: on a
well-formed basename, folder and suffix+extension, the normalized path
is the joined path itself, which ends with the suffix. -/
theorem derivedPath_spec (basename folderPath sfx : Str)
    (hn : wfName basename = true)
    (hf : folderPath = str "/" ∨ folderPath = [] ∨ wfFolder folderPath = true)
    (hs_all : sfx.all pathCharOk = true)
    (hs_last : ∃ sfx0, sfx = sfx0 ++ ['d']) :
    normalizePath
        (if folderPath = str "/" || folderPath = [] then basename ++ sfx
         else folderPath ++ '/' :: (basename ++ sfx))
      = (if folderPath = str "/" || folderPath = [] then basename ++ sfx
         else folderPath ++ '/' :: (basename ++ sfx)) := by
  obtain ⟨sfx0, rfl⟩ := hs_last
  match basename, hn with
  | bc :: bt, hn =>
    simp only [wfName, Bool.and_eq_true] at hn
    obtain ⟨hbc, hball⟩ := hn
    have hbc_edge : pathEdgeOk bc = true := by
      have := pathCharOk_split (by
        rw [List.all_eq_true] at hball
        exact hball bc (by simp))
      simp [pathEdgeOk, hbc, this.1]
    have hfile_all : ((bc :: bt) ++ (sfx0 ++ ['d'])).all
        (fun d => d ≠ '\\' && d.val ≠ 0xA0 && d.val ≠ 0x202F) = true := by
      rw [List.all_append]
      simp only [Bool.and_eq_true]
      exact ⟨all_weaken_pathCharOk _ hball, all_weaken_pathCharOk _ hs_all⟩
    have hfile_sf : ((bc :: bt) ++ (sfx0 ++ ['d'])).all
        (fun d => d ≠ '/') = true := by
      rw [List.all_append]
      simp only [Bool.and_eq_true]
      exact ⟨all_slashfree_of_pathCharOk _ hball,
        all_slashfree_of_pathCharOk _ hs_all⟩
    have hd_edge : pathEdgeOk 'd' = true := by decide
    have hfile_last : ((bc :: bt) ++ (sfx0 ++ ['d'])).getLast? = some 'd' := by
      rw [show (bc :: bt) ++ (sfx0 ++ ['d']) = ((bc :: bt) ++ sfx0) ++ ['d']
        from by simp]
      exact List.getLast?_concat _
    by_cases hroot : folderPath = str "/" || folderPath = []
    · rw [if_pos hroot]
      exact normalizePath_eq_self _ bc 'd' rfl hbc_edge hfile_last hd_edge
        hfile_all (slashfree_ndbl _ hfile_sf)
    · rw [if_neg hroot]
      have hwff : wfFolder folderPath = true := by
        rcases hf with h | h | h
        · exact absurd (by simp [h]) hroot
        · exact absurd (by simp [h]) hroot
        · exact h
      match folderPath, hwff with
      | fc :: ft, hwff =>
        simp only [wfFolder, Bool.and_eq_true] at hwff
        obtain ⟨⟨⟨hfc, hfall⟩, hfndbl⟩, hflast⟩ := hwff
        have hflast' : ∃ d, (fc :: ft).getLast? = some d ∧ pathEdgeOk d
            = true := by
          cases hdl : (fc :: ft).getLast? with
          | none => rw [hdl] at hflast; exact absurd hflast (by simp)
          | some d => rw [hdl] at hflast; exact ⟨d, rfl, hflast⟩
        obtain ⟨fd, hfd, hfd_edge⟩ := hflast'
        have hlast2 : ((fc :: ft) ++ '/' :: ((bc :: bt) ++ (sfx0 ++ ['d']))).getLast?
            = some 'd' := by
          rw [show (fc :: ft) ++ '/' :: ((bc :: bt) ++ (sfx0 ++ ['d']))
              = ((fc :: ft) ++ '/' :: ((bc :: bt) ++ sfx0)) ++ ['d']
            from by simp]
          exact List.getLast?_concat _
        refine normalizePath_eq_self _ fc 'd' ?_ hfc hlast2 hd_edge ?_ ?_
        · rfl
        · rw [List.all_append]
          simp only [Bool.and_eq_true]
          refine ⟨hfall, ?_⟩
          rw [List.all_cons]
          simp only [Bool.and_eq_true]
          exact ⟨by decide, hfile_all⟩
        · refine ndbl_append_slash _ _ hfndbl ?_ hfile_sf
          intro e he
          rw [hfd] at he
          injection he with he2
          subst he2
          simp only [pathEdgeOk, Bool.and_eq_true, decide_eq_true_eq]
            at hfd_edge
          exact hfd_edge.2

theorem derivedPath_endsWith (basename folderPath sfx : Str) :
    jsEndsWith
        (if folderPath = str "/" || folderPath = [] then basename ++ sfx
         else folderPath ++ '/' :: (basename ++ sfx)) sfx = true := by
  by_cases hroot : folderPath = str "/" || folderPath = []
  · rw [if_pos hroot]
    exact jsEndsWith_append _ _
  · rw [if_neg hroot]
    rw [show folderPath ++ '/' :: (basename ++ sfx)
        = (folderPath ++ '/' :: basename) ++ sfx from by simp]
    exact jsEndsWith_append _ _

theorem derivedPath_ne_nil (basename folderPath sfx : Str)
    (hn : wfName basename = true) :
    (if folderPath = str "/" || folderPath = [] then basename ++ sfx
     else folderPath ++ '/' :: (basename ++ sfx)) ≠ [] := by
  match basename, hn with
  | bc :: bt, _ =>
    by_cases hroot : folderPath = str "/" || folderPath = []
    · rw [if_pos hroot]
      simp
    · rw [if_neg hroot]
      cases folderPath <;> simp

/-! ## Properties of `collapseNewlines` -/

theorem collapseNLGo_nil (fuel : Nat) : collapseNLGo fuel [] = [] := by
  cases fuel <;> rfl

theorem collapseNLGo_fuel_eq (fuel : Nat) :
    ∀ (fuel' : Nat) (s : Str), s.length ≤ fuel → s.length ≤ fuel' →
    collapseNLGo fuel s = collapseNLGo fuel' s := by
  induction fuel with
  | zero =>
    intro fuel' s h _
    have : s = [] := List.length_eq_zero.mp (Nat.le_zero.mp h)
    subst this
    rw [collapseNLGo_nil, collapseNLGo_nil]
  | succ fuel ih =>
    intro fuel' s h h'
    match s with
    | [] => rw [collapseNLGo_nil, collapseNLGo_nil]
    | c :: rest =>
      match fuel' with
      | 0 => exact absurd h' (by simp)
      | f2 + 1 =>
        rw [collapseNLGo, collapseNLGo]
        by_cases hc : c = '\n'
        · rw [if_pos hc, if_pos hc]
          have hlen : ((c :: rest).dropWhile (fun d => d = '\n')).length
              ≤ rest.length := by
            subst hc
            rw [List.dropWhile_cons, if_pos (by decide)]
            exact length_dropWhile_le _ rest
          dsimp only
          congr 1
          exact ih f2 _ (le_trans hlen (by simpa using h))
            (le_trans hlen (by simpa using h'))
        · rw [if_neg hc, if_neg hc]
          congr 1
          exact ih f2 rest (by simpa using h) (by simpa using h')

theorem collapseNLGo_eq_collapse (fuel : Nat) (s : Str)
    (h : s.length ≤ fuel) : collapseNLGo fuel s = collapseNewlines s :=
  collapseNLGo_fuel_eq fuel s.length s h (le_refl _)

theorem collapseNewlines_nil : collapseNewlines [] = [] := rfl

theorem collapseNewlines_cons_ne (c : Char) (rest : Str)
    (hc : ¬(c = '\n')) :
    collapseNewlines (c :: rest) = c :: collapseNewlines rest := by
  show collapseNLGo (c :: rest).length (c :: rest) = _
  rw [List.length_cons, collapseNLGo, if_neg hc]
  rfl

theorem head_not_nl_takeWhile (rest : Str) (h : rest.head? ≠ some '\n') :
    rest.takeWhile (fun d => d = '\n') = [] ∧
    rest.dropWhile (fun d => d = '\n') = rest := by
  match rest with
  | [] => exact ⟨rfl, rfl⟩
  | c :: t =>
    have hc : ¬(c = '\n') := fun hh => h (by simp [hh])
    rw [List.takeWhile_cons, List.dropWhile_cons]
    simp [hc]

theorem rep_append_takeWhile (k : Nat) (rest : Str)
    (h : rest.head? ≠ some '\n') :
    (List.replicate k '\n' ++ rest).takeWhile (fun d => d = '\n')
      = List.replicate k '\n' ∧
    (List.replicate k '\n' ++ rest).dropWhile (fun d => d = '\n') = rest := by
  induction k with
  | zero =>
    simpa using head_not_nl_takeWhile rest h
  | succ k ih =>
    rw [List.replicate_succ]
    constructor
    · rw [List.cons_append, List.takeWhile_cons, if_pos (by decide), ih.1]
    · rw [List.cons_append, List.dropWhile_cons, if_pos (by decide), ih.2]

theorem collapseNewlines_run (k : Nat) (rest : Str) (hk : 1 ≤ k)
    (hrest : rest.head? ≠ some '\n') :
    collapseNewlines (List.replicate k '\n' ++ rest)
      = (if 3 ≤ k then ['\n', '\n'] else List.replicate k '\n')
        ++ collapseNewlines rest := by
  obtain ⟨k0, rfl⟩ : ∃ k0, k = k0 + 1 := ⟨k - 1, by omega⟩
  have h1 : List.replicate (k0 + 1) '\n' ++ rest
      = '\n' :: (List.replicate k0 '\n' ++ rest) := by
    rw [List.replicate_succ]
    rfl
  rw [h1]
  show collapseNLGo ('\n' :: (List.replicate k0 '\n' ++ rest)).length _ = _
  rw [List.length_cons, collapseNLGo, if_pos rfl]
  dsimp only
  rw [← h1, (rep_append_takeWhile (k0 + 1) rest hrest).1,
    (rep_append_takeWhile (k0 + 1) rest hrest).2,
    collapseNLGo_eq_collapse _ _ (by simp)]
  congr 2
  rw [List.length_replicate]

/-- Scanner for a run of three consecutive newlines. -/
def hasTripleNL : Str → Bool
  | [] => false
  | c :: rest => (['\n', '\n', '\n'] : Str).isPrefixOf (c :: rest) ||
      hasTripleNL rest

theorem hasTripleNL_iff_inf (s : Str) :
    hasTripleNL s = true ↔ (['\n', '\n', '\n'] : Str) <:+: s := by
  induction s with
  | nil => simp [hasTripleNL]
  | cons c rest ih =>
    rw [hasTripleNL, List.infix_cons_iff, Bool.or_eq_true,
      List.isPrefixOf_iff_prefix, ih]

theorem head?_dropWhile_neg (p : Char → Bool) (l : Str) (c : Char)
    (h : (l.dropWhile p).head? = some c) : p c = false := by
  induction l with
  | nil => cases h
  | cons a t ih =>
    rw [List.dropWhile_cons] at h
    by_cases hpa : p a
    · rw [if_pos hpa] at h
      exact ih h
    · rw [if_neg hpa] at h
      simp only [List.head?_cons, Option.some_inj] at h
      subst h
      simpa using hpa

theorem jsTrimEnd_getLast_not_ws (X : Str) (c : Char)
    (h : (jsTrimEnd X).getLast? = some c) : isJsWs c = false := by
  unfold jsTrimEnd at h
  rw [List.getLast?_reverse] at h
  exact head?_dropWhile_neg _ _ _ h

theorem nl_run_decomp (s : Str) (h : s.head? = some '\n') :
    ∃ k rest, 1 ≤ k ∧ rest.head? ≠ some '\n' ∧
      s = List.replicate k '\n' ++ rest := by
  refine ⟨(s.takeWhile (fun d => d = '\n')).length,
    s.dropWhile (fun d => d = '\n'), ?_, ?_, ?_⟩
  · cases s with
    | nil => cases h
    | cons c t =>
      simp only [List.head?_cons, Option.some_inj] at h
      rw [List.takeWhile_cons, if_pos (by simp [h])]
      simp
  · intro hh
    have := head?_dropWhile_neg (fun d => d = '\n') s '\n' hh
    simp at this
  · conv_lhs => rw [← List.takeWhile_append_dropWhile
      (p := fun d => d = '\n') (l := s)]
    congr 1
    apply List.eq_replicate_of_mem
    intro b hb
    have := List.mem_takeWhile_imp hb
    simpa using this

theorem collapse_head_ne_nl (rest : Str) (h : rest.head? ≠ some '\n') :
    (collapseNewlines rest).head? ≠ some '\n' := by
  match rest with
  | [] => simp [collapseNewlines_nil]
  | c :: t =>
    have hc : ¬(c = '\n') := fun hh => h (by simp [hh])
    rw [collapseNewlines_cons_ne c t hc]
    simpa using hc

theorem beq_nl_ne (y : Char) (hy : ¬(y = '\n')) :
    (('\n' : Char) == y) = false := by
  simp only [beq_eq_false_iff_ne, ne_eq]
  exact fun hh => hy hh.symm

theorem isPrefixOf_triple_cons (c : Char) (X : Str) (hc : ¬(c = '\n')) :
    (['\n', '\n', '\n'] : Str).isPrefixOf (c :: X) = false := by
  simp [List.isPrefixOf, beq_nl_ne c hc]

theorem isPrefixOf_double_ne (Y : Str) (hY : Y.head? ≠ some '\n') :
    (['\n', '\n'] : Str).isPrefixOf Y = false := by
  match Y with
  | [] => rfl
  | y :: t =>
    have hy : ¬(y = '\n') := fun hh => hY (by simp [hh])
    simp [List.isPrefixOf, beq_nl_ne y hy]

theorem isPrefixOf_single_ne (Y : Str) (hY : Y.head? ≠ some '\n') :
    (['\n'] : Str).isPrefixOf Y = false := by
  match Y with
  | [] => rfl
  | y :: t =>
    have hy : ¬(y = '\n') := fun hh => hY (by simp [hh])
    simp [List.isPrefixOf, beq_nl_ne y hy]

theorem hasTriple_cons_ne (c : Char) (X : Str) (hc : ¬(c = '\n'))
    (h : hasTripleNL X = false) : hasTripleNL (c :: X) = false := by
  rw [hasTripleNL, isPrefixOf_triple_cons c X hc, h]
  rfl

theorem hasTriple_one_nl (Y : Str) (hY : Y.head? ≠ some '\n')
    (h : hasTripleNL Y = false) : hasTripleNL ('\n' :: Y) = false := by
  rw [hasTripleNL, h]
  have : (['\n', '\n', '\n'] : Str).isPrefixOf ('\n' :: Y) = false := by
    simp [List.isPrefixOf, isPrefixOf_double_ne Y hY]
  rw [this]
  rfl

theorem hasTriple_reps (k : Nat) (Y : Str) (hk : k ≤ 2)
    (hY : Y.head? ≠ some '\n') (h : hasTripleNL Y = false) :
    hasTripleNL (List.replicate k '\n' ++ Y) = false := by
  interval_cases k
  · simpa using h
  · exact hasTriple_one_nl Y hY h
  · show hasTripleNL ('\n' :: '\n' :: Y) = false
    rw [hasTripleNL]
    have h1 : hasTripleNL ('\n' :: Y) = false := hasTriple_one_nl Y hY h
    rw [h1]
    have : (['\n', '\n', '\n'] : Str).isPrefixOf ('\n' :: '\n' :: Y)
        = false := by
      simp [List.isPrefixOf, isPrefixOf_single_ne Y hY]
    rw [this]
    rfl

theorem collapse_noTriple_bounded (n : Nat) :
    ∀ (s : Str), s.length ≤ n → hasTripleNL (collapseNewlines s) = false := by
  induction n with
  | zero =>
    intro s h
    have : s = [] := List.length_eq_zero.mp (Nat.le_zero.mp h)
    subst this
    rfl
  | succ n ih =>
    intro s h
    match s with
    | [] => rfl
    | c :: rest =>
      by_cases hc : c = '\n'
      · obtain ⟨k, rest2, hk, hrest2, hdecomp⟩ :=
          nl_run_decomp (c :: rest) (by simp [hc])
        rw [hdecomp, collapseNewlines_run k rest2 hk hrest2]
        have hlen2 : rest2.length ≤ n := by
          have hlenEq := congrArg List.length hdecomp
          simp only [List.length_cons, List.length_append,
            List.length_replicate] at hlenEq
          have h2 : rest.length + 1 ≤ n + 1 := by simpa using h
          omega
        have hY := collapse_head_ne_nl rest2 hrest2
        have hrec := ih rest2 hlen2
        by_cases h3 : 3 ≤ k
        · rw [if_pos h3]
          exact hasTriple_reps 2 _ (by omega) hY hrec
        · rw [if_neg h3]
          exact hasTriple_reps k _ (by omega) hY hrec
      · rw [collapseNewlines_cons_ne c rest hc]
        exact hasTriple_cons_ne c _ hc (ih rest (by simpa using h))

theorem collapse_noTriple (s : Str) :
    hasTripleNL (collapseNewlines s) = false :=
  collapse_noTriple_bounded s.length s (le_refl _)

theorem collapse_singleton_nl : collapseNewlines ['\n'] = ['\n'] := rfl

theorem collapse_ends_pair_bounded (n : Nat) :
    ∀ (s Y : Str) (c : Char), s.length ≤ n → ¬(c = '\n') →
    s = Y ++ [c, '\n'] →
    ∃ Z, collapseNewlines s = Z ++ [c, '\n'] := by
  induction n with
  | zero =>
    intro s Y c h _ hdecomp
    subst hdecomp
    simp at h
  | succ n ih =>
    intro s Y c h hcnl hdecomp
    match Y, hdecomp with
    | [], hdecomp =>
      subst hdecomp
      rw [show ([] : Str) ++ [c, '\n'] = c :: ['\n'] from rfl,
        collapseNewlines_cons_ne c ['\n'] hcnl, collapse_singleton_nl]
      exact ⟨[], rfl⟩
    | y :: Y2, hdecomp =>
      have hy : s = y :: (Y2 ++ [c, '\n']) := by simpa using hdecomp
      subst hy
      by_cases hynl : y = '\n'
      · obtain ⟨k, rest2, hk, hrest2, hdec2⟩ :=
          nl_run_decomp (y :: (Y2 ++ [c, '\n'])) (by simp [hynl])
        -- the leading run lies inside `y :: Y2`
        have hklen : k ≤ Y2.length + 1 := by
          by_contra hgt
          push_neg at hgt
          have h1 : (y :: (Y2 ++ [c, '\n'])).get? (Y2.length + 1)
              = some c := by
            rw [show y :: (Y2 ++ [c, '\n']) = (y :: Y2) ++ c :: ['\n']
              from by simp]
            rw [List.get?_append_right (by simp)]
            simp
          have h2 : (List.replicate k '\n' ++ rest2).get? (Y2.length + 1)
              = some '\n' := by
            rw [List.get?_append (by simp [hgt])]
            simp [List.get?_eq_getElem?, List.getElem?_replicate, hgt]
          rw [← hdec2, h1] at h2
          exact hcnl (by simpa using h2)
        have hrest2eq : rest2 = (y :: Y2).drop k ++ [c, '\n'] := by
          have : rest2 = (y :: (Y2 ++ [c, '\n'])).drop k := by
            rw [hdec2]
            simp
          rw [this, show y :: (Y2 ++ [c, '\n']) = (y :: Y2) ++ [c, '\n']
            from by simp]
          rw [List.drop_append_of_le_length (by simpa using hklen)]
        have hlen2 : rest2.length ≤ n := by
          have := congrArg List.length hdec2
          simp at this
          simp at h
          omega
        obtain ⟨Z2, hZ2⟩ := ih rest2 ((y :: Y2).drop k) c hlen2 hcnl hrest2eq
        rw [hdec2, collapseNewlines_run k rest2 hk hrest2, hZ2]
        exact ⟨(if 3 ≤ k then ['\n', '\n'] else List.replicate k '\n')
          ++ Z2, by simp⟩
      · rw [collapseNewlines_cons_ne y _ hynl]
        obtain ⟨Z2, hZ2⟩ := ih (Y2 ++ [c, '\n']) Y2 c
          (by simp only [List.length_cons, List.length_append] at h ⊢
              simp at h ⊢
              omega)
          hcnl rfl
        rw [hZ2]
        exact ⟨y :: Z2, rfl⟩

theorem collapse_trim_shape (M : Str) :
    hasTripleNL (collapseNewlines (jsTrimEnd M ++ ['\n'])) = false ∧
    (collapseNewlines (jsTrimEnd M ++ ['\n'])).getLast? = some '\n' ∧
    ∀ c, ((collapseNewlines (jsTrimEnd M ++ ['\n'])).dropLast).getLast?
      = some c → isJsWs c = false := by
  refine ⟨collapse_noTriple _, ?_⟩
  by_cases hte : jsTrimEnd M = []
  · rw [hte, List.nil_append, collapse_singleton_nl]
    constructor
    · rfl
    · intro c hc
      simp at hc
  · obtain ⟨cl, hcl⟩ : ∃ cl, (jsTrimEnd M).getLast? = some cl := by
      cases hl : (jsTrimEnd M).getLast? with
      | none => exact absurd (List.getLast?_eq_none_iff.mp hl) hte
      | some cl => exact ⟨cl, rfl⟩
    have hclws := jsTrimEnd_getLast_not_ws M cl hcl
    have hclnl : ¬(cl = '\n') := fun hh => by
      rw [hh] at hclws
      simp [isJsWs] at hclws
    obtain ⟨Y, hY⟩ := List.getLast?_eq_some_iff.mp hcl
    obtain ⟨Z, hZ⟩ := collapse_ends_pair_bounded
      (jsTrimEnd M ++ ['\n']).length _ Y cl (le_refl _) hclnl
      (by rw [hY]; simp)
    rw [hZ]
    constructor
    · rw [show Z ++ [cl, '\n'] = (Z ++ [cl]) ++ ['\n'] from by simp,
        List.getLast?_concat]
    · intro c hc
      rw [show Z ++ [cl, '\n'] = (Z ++ [cl]) ++ ['\n'] from by simp,
        List.dropLast_concat, List.getLast?_concat] at hc
      rw [Option.some_inj] at hc
      subst hc
      exact hclws

/-! ## Splitting toolkit for the idempotence development -/

theorem dropWhile_append_pos (p : Char → Bool) (v u : Str) (c : Char) (t : Str)
    (h : v.dropWhile p = c :: t) :
    (v ++ u).dropWhile p = c :: (t ++ u) := by
  rw [List.dropWhile_append, h]
  simp

theorem dropWhile_append_allP (p : Char → Bool) (v u : Str)
    (h : v.dropWhile p = []) :
    (v ++ u).dropWhile p = u.dropWhile p := by
  rw [List.dropWhile_append, h]
  simp

theorem jsTrimEnd_append_allws (A w : Str) (h : ∀ c ∈ w, isJsWs c = true) :
    jsTrimEnd (A ++ w) = jsTrimEnd A := by
  have hw : w.reverse.dropWhile isJsWs = [] := by
    rw [List.dropWhile_eq_nil_iff]
    intro a ha
    exact h a (List.mem_reverse.mp ha)
  unfold jsTrimEnd
  rw [List.reverse_append, dropWhile_append_allP _ _ _ hw]

theorem jsTrimEnd_append_keep (A B : Str) (h : jsTrimEnd B ≠ []) :
    jsTrimEnd (A ++ B) = A ++ jsTrimEnd B := by
  obtain ⟨c, t, hct⟩ : ∃ c t, B.reverse.dropWhile isJsWs = c :: t := by
    cases hx : B.reverse.dropWhile isJsWs with
    | nil => exact absurd (by rw [jsTrimEnd, hx]; rfl) h
    | cons c t => exact ⟨c, t, rfl⟩
  unfold jsTrimEnd
  rw [List.reverse_append, dropWhile_append_pos _ _ _ _ _ hct, hct]
  simp

theorem jsTrimEnd_eq_self_of_getLast (A : Str) (c : Char)
    (h : A.getLast? = some c) (hc : isJsWs c = false) :
    jsTrimEnd A = A := by
  obtain ⟨t, rfl⟩ := List.getLast?_eq_some_iff.mp h
  unfold jsTrimEnd
  rw [List.reverse_append]
  rw [show (([c] : Str)).reverse ++ t.reverse = c :: t.reverse from by simp]
  rw [List.dropWhile_cons, if_neg (by rw [hc]; simp)]
  simp

theorem jsTrimEnd_pre (s : Str) : jsTrimEnd s <+: s := by
  rw [← List.reverse_suffix]
  show (s.reverse.dropWhile isJsWs).reverse.reverse <:+ s.reverse
  rw [List.reverse_reverse]
  exact List.dropWhile_suffix _

/-- `(a :: l).getLast?` in terms of `l.getLast?`. -/
theorem getLast?_cons_eq (a : α) (l : List α) :
    (a :: l).getLast? =
      match l.getLast? with
      | none => some a
      | some b => some b := by
  induction l generalizing a with
  | nil => rfl
  | cons b rest ih =>
    rw [List.getLast?_cons_cons, ih b]
    cases h : rest.getLast? <;> simp

theorem range_find?_none (n : Nat) (p : Nat → Bool)
    (h : (List.range n).find? p = none) : ∀ y, y < n → p y = false := by
  intro y hy
  have := List.find?_eq_none.mp h y (List.mem_range.mpr hy)
  simpa using this

theorem range_find?_some (n : Nat) (p : Nat → Bool) (x : Nat)
    (h : (List.range n).find? p = some x) :
    p x = true ∧ x < n ∧ ∀ y, y < x → p y = false := by
  induction n with
  | zero => simp [List.range_zero] at h
  | succ n ih =>
    rw [List.range_succ, List.find?_append] at h
    cases hfn : (List.range n).find? p with
    | some x0 =>
      rw [hfn] at h
      simp only [Option.or_some] at h
      rw [Option.some_inj] at h
      subst h
      obtain ⟨h1, h2, h3⟩ := ih hfn
      exact ⟨h1, by omega, h3⟩
    | none =>
      rw [hfn] at h
      simp only [Option.none_or] at h
      have hall := range_find?_none n p hfn
      by_cases hpn : p n = true
      · rw [List.find?_cons_of_pos _ hpn] at h
        rw [Option.some_inj] at h
        subst h
        exact ⟨hpn, by omega, hall⟩
      · rw [List.find?_cons_of_neg _ (by simpa using hpn)] at h
        cases h

/-! ## Locality of the header-scan triggers

The two header-cut patterns of `generateCueContent` are confined to a
single line: `.` excludes line terminators, and the marker literal has
none, so neither scan can cross a `'\n'` that follows the scanned
block. -/

theorem isJsWs_of_isLineTerm (c : Char) (h : isLineTerm c = true) :
    isJsWs c = true := by
  unfold isLineTerm at h
  unfold isJsWs
  rcases Bool.or_eq_true_iff.mp h with h1 | h2
  · rcases Bool.or_eq_true_iff.mp h1 with h3 | h4
    · rcases Bool.or_eq_true_iff.mp h3 with h5 | h6 <;> simp_all
    · simp_all
  · simp_all

theorem scanBrColon_append_mono (v u : Str) (h : scanBrColon v = true) :
    scanBrColon (v ++ u) = true := by
  induction v with
  | nil => cases h
  | cons c rest ih =>
    show scanBrColon (c :: (rest ++ u)) = true
    rw [scanBrColon] at h
    simp only [scanBrColon]
    by_cases hc : c = ']' ∧ rest.head? = some ':'
    · have hh : (rest ++ u).head? = some ':' := by
        cases rest with
        | nil => simp at hc
        | cons r t => simpa using hc.2
      rw [if_pos ⟨hc.1, hh⟩]
    · rw [if_neg hc] at h
      rw [Bool.and_eq_true] at h
      by_cases hc2 : c = ']' ∧ (rest ++ u).head? = some ':'
      · rw [if_pos hc2]
      · rw [if_neg hc2, Bool.and_eq_true]
        exact ⟨h.1, ih h.2⟩

theorem scanBrColon_append_stop (v X : Str)
    (hX : X = [] ∨ ∃ Y, X = '\n' :: Y) :
    scanBrColon (v ++ X) = scanBrColon v := by
  induction v with
  | nil =>
    rcases hX with rfl | ⟨Y, rfl⟩
    · rfl
    · simp only [List.nil_append, scanBrColon]
      rw [if_neg (by rintro ⟨h, _⟩; exact absurd h (by decide))]
      rfl
  | cons a rest ih =>
    show scanBrColon (a :: (rest ++ X)) = scanBrColon (a :: rest)
    simp only [scanBrColon]
    by_cases h1 : a = ']' ∧ rest.head? = some ':'
    · have hh : (rest ++ X).head? = some ':' := by
        cases rest with
        | nil => simp at h1
        | cons r t => simpa using h1.2
      rw [if_pos ⟨h1.1, hh⟩, if_pos h1]
    · by_cases h2 : a = ']' ∧ (rest ++ X).head? = some ':'
      · exfalso
        cases rest with
        | cons r t => exact h1 ⟨h2.1, by simpa using h2.2⟩
        | nil =>
          rcases hX with rfl | ⟨Y, rfl⟩
          · simp at h2
          · simp at h2
      · rw [if_neg h2, if_neg h1, ih]

theorem scanBrColon_reach (w rest : Str)
    (hw : ∀ ch ∈ w, isLineTerm ch = false) :
    scanBrColon (w ++ ']' :: ':' :: rest) = true := by
  induction w with
  | nil =>
    simp only [List.nil_append]
    simp [scanBrColon]
  | cons a t ih =>
    show scanBrColon (a :: (t ++ ']' :: ':' :: rest)) = true
    simp only [scanBrColon]
    by_cases h1 : a = ']' ∧ (t ++ ']' :: ':' :: rest).head? = some ':'
    · rw [if_pos h1]
    · rw [if_neg h1, Bool.and_eq_true]
      refine ⟨?_, ih (fun ch hch => hw ch (List.mem_cons_of_mem _ hch))⟩
      rw [hw a (List.mem_cons_self a t)]
      rfl

theorem defLineCore_eq_true (u : Str) (h : defLineCore u = true) :
    ∃ c rest, u = '[' :: '^' :: c :: rest ∧ isLineTerm c = false ∧
      scanBrColon rest = true := by
  rw [defLineCore.eq_def] at h
  split at h
  · next c rest =>
    rw [Bool.and_eq_true] at h
    exact ⟨c, rest, rfl, by simpa using h.1, h.2⟩
  · cases h

theorem defLineCore_cons3 (c : Char) (rest : Str) :
    defLineCore ('[' :: '^' :: c :: rest)
      = (!isLineTerm c && scanBrColon rest) := rfl

theorem defLineCore_two_br (z : Str) : defLineCore ('[' :: '[' :: z) = false := by
  rw [defLineCore.eq_def]
  split
  · next c rest heq => simp at heq
  · rfl

theorem genDefLineAt_nil : genDefLineAt [] = false := rfl

theorem cbLineAt_nil : cbLineAt [] = false := rfl

theorem genDefLineAt_append_of_true (t u : Str) (h : genDefLineAt t = true) :
    genDefLineAt (t ++ u) = true := by
  unfold genDefLineAt at h ⊢
  obtain ⟨c, rest, hshape, hc, hscan⟩ := defLineCore_eq_true _ h
  rw [dropWhile_append_pos _ _ _ _ _ hshape]
  show defLineCore ('[' :: '^' :: c :: (rest ++ u)) = true
  rw [defLineCore_cons3, Bool.and_eq_true]
  exact ⟨by simpa using hc, scanBrColon_append_mono _ _ hscan⟩

theorem genDefLineAt_ws_pre (w x : Str) (hw : w.dropWhile isJsWs = []) :
    genDefLineAt (w ++ x) = genDefLineAt x := by
  unfold genDefLineAt
  rw [dropWhile_append_allP _ _ _ hw]

theorem genDefLineAt_split (v X : Str)
    (hX : X = [] ∨ ∃ Y, X = '\n' :: Y)
    (h : genDefLineAt (v ++ X) = true) :
    (v.dropWhile isJsWs = [] ∧ genDefLineAt X = true) ∨
      genDefLineAt v = true := by
  unfold genDefLineAt at h ⊢
  cases hv : v.dropWhile isJsWs with
  | nil =>
    left
    refine ⟨rfl, ?_⟩
    rwa [dropWhile_append_allP _ _ _ hv] at h
  | cons a t1 =>
    rw [dropWhile_append_pos _ _ _ _ _ hv] at h
    obtain ⟨c, rest, hshape, hc, hscan⟩ := defLineCore_eq_true _ h
    have ha : a = '[' := by
      have := congrArg List.head? hshape
      simpa using this
    have ht : t1 ++ X = '^' :: c :: rest := by
      have := congrArg List.tail hshape
      simpa using this
    cases t1 with
    | nil =>
      rw [List.nil_append] at ht
      rcases hX with rfl | ⟨Y, hY⟩
      · cases ht
      · rw [hY] at ht
        simp at ht
    | cons b t1r =>
      rw [List.cons_append] at ht
      have hb : b = '^' := by simpa using congrArg List.head? ht
      have ht2 : t1r ++ X = c :: rest := by simpa using congrArg List.tail ht
      cases t1r with
      | nil =>
        rw [List.nil_append] at ht2
        rcases hX with rfl | ⟨Y, hY⟩
        · cases ht2
        · rw [hY] at ht2
          have : c = '\n' := by
            have := congrArg List.head? ht2
            simpa using this.symm
          rw [this] at hc
          cases hc
      | cons d t2 =>
        rw [List.cons_append] at ht2
        have hd : d = c := by simpa using congrArg List.head? ht2
        have ht3 : t2 ++ X = rest := by simpa using congrArg List.tail ht2
        right
        rw [ha, hb, hd, defLineCore_cons3, Bool.and_eq_true]
        refine ⟨by simpa using hc, ?_⟩
        rw [← scanBrColon_append_stop t2 X hX, ht3]
        exact hscan

theorem isPrefixOf_append_left (l v u : Str) (h : l.isPrefixOf v = true) :
    l.isPrefixOf (v ++ u) = true := by
  rw [List.isPrefixOf_iff_prefix] at h ⊢
  exact h.trans (List.prefix_append v u)

theorem isPrefixOf_append_stop (l : Str) (X : Str)
    (hl : ∀ ch ∈ l, ¬ ch = '\n')
    (hX : X = [] ∨ ∃ Y, X = '\n' :: Y) :
    ∀ v : Str, l.isPrefixOf (v ++ X) = l.isPrefixOf v := by
  induction l with
  | nil =>
    intro v
    rw [show (([] : Str)).isPrefixOf (v ++ X) = true from by
      rw [List.isPrefixOf_iff_prefix]; exact List.nil_prefix]
    rw [show (([] : Str)).isPrefixOf v = true from by
      rw [List.isPrefixOf_iff_prefix]; exact List.nil_prefix]
  | cons a t ih =>
    intro v
    cases v with
    | nil =>
      rcases hX with rfl | ⟨Y, rfl⟩
      · rfl
      · show ((a == '\n') && t.isPrefixOf Y) = false
        rw [show (a == '\n') = false from by
          simpa using hl a (List.mem_cons_self a t)]
        rfl
    | cons b w =>
      show ((a == b) && t.isPrefixOf (w ++ X)) = ((a == b) && t.isPrefixOf w)
      rw [ih (fun ch hch => hl ch (List.mem_cons_of_mem _ hch)) w]

theorem cbLineAt_append_of_true (t u : Str) (h : cbLineAt t = true) :
    cbLineAt (t ++ u) = true := by
  unfold cbLineAt at h ⊢
  cases hv : t.dropWhile isJsWs with
  | nil => rw [hv] at h; cases h
  | cons a t1 =>
    rw [hv] at h
    rw [dropWhile_append_pos _ _ _ _ _ hv]
    rw [show a :: (t1 ++ u) = (a :: t1) ++ u from rfl]
    exact isPrefixOf_append_left _ _ _ h

theorem cbLineAt_ws_pre (w x : Str) (hw : w.dropWhile isJsWs = []) :
    cbLineAt (w ++ x) = cbLineAt x := by
  unfold cbLineAt
  rw [dropWhile_append_allP _ _ _ hw]

theorem cbLineAt_split (v X : Str)
    (hX : X = [] ∨ ∃ Y, X = '\n' :: Y)
    (h : cbLineAt (v ++ X) = true) :
    (v.dropWhile isJsWs = [] ∧ cbLineAt X = true) ∨ cbLineAt v = true := by
  unfold cbLineAt at h ⊢
  cases hv : v.dropWhile isJsWs with
  | nil =>
    left
    exact ⟨rfl, by rwa [dropWhile_append_allP _ _ _ hv] at h⟩
  | cons a t1 =>
    right
    rw [dropWhile_append_pos _ _ _ _ _ hv] at h
    rw [show a :: (t1 ++ X) = (a :: t1) ++ X from rfl] at h
    rwa [isPrefixOf_append_stop _ _ (by decide) hX] at h

/-! ## Trigger-free texts -/

/-- No definition-line or marker-line trigger of the header scan at any
line start of `s`: on such content `generateCueContent` keeps the whole
text as header. -/
def defFreeCb (s : Str) : Prop :=
  ∀ p, lineStartAt s p = true →
    genDefLineAt (s.drop p) = false ∧ cbLineAt (s.drop p) = false

theorem lineStartAt_zero (s : Str) : lineStartAt s 0 = true := by
  simp [lineStartAt]

theorem lineStartAt_append_left (A X : Str) (p : Nat) (hp : p ≤ A.length) :
    lineStartAt (A ++ X) p = lineStartAt A p := by
  match p with
  | 0 => rfl
  | q + 1 =>
    unfold lineStartAt
    have hlt : q < A.length := by omega
    have : (A ++ X).get? (q + 1 - 1) = A.get? (q + 1 - 1) :=
      List.get?_append (by omega)
    rw [this]

theorem lineStartAt_append_right (A X : Str) (j : Nat) (hj : 1 ≤ j) :
    lineStartAt (A ++ X) (A.length + j) = lineStartAt X j := by
  unfold lineStartAt
  have h0 : (A.length + j == 0) = false := by
    simp
    omega
  have h0' : (j == 0) = false := by
    simp
    omega
  have hg : (A ++ X).get? (A.length + j - 1) = X.get? (j - 1) := by
    rw [show A.length + j - 1 = A.length + (j - 1) from by omega,
      List.get?_append_right (by omega)]
    congr 1
    omega
  rw [h0, h0', hg]

theorem drop_append_add (A X : Str) (j : Nat) :
    (A ++ X).drop (A.length + j) = X.drop j := by
  rw [← List.drop_drop, List.drop_left]

theorem defFreeCb_nil_triggers :
    genDefLineAt ([] : Str) = false ∧ cbLineAt ([] : Str) = false :=
  ⟨rfl, rfl⟩

theorem defFreeCb_drop_past (s : Str) (p : Nat) (hp : s.length ≤ p) :
    genDefLineAt (s.drop p) = false ∧ cbLineAt (s.drop p) = false := by
  rw [List.drop_eq_nil_of_le hp]
  exact defFreeCb_nil_triggers

theorem defFreeCb_of_prefix (t s : Str) (h : t <+: s) (hs : defFreeCb s) :
    defFreeCb t := by
  obtain ⟨u, rfl⟩ := h
  intro p hp
  by_cases hpl : p ≤ t.length
  · have hfree := hs p (by rw [lineStartAt_append_left _ _ _ hpl]; exact hp)
    rw [List.drop_append_of_le_length hpl] at hfree
    constructor
    · by_contra hg
      rw [Bool.not_eq_false] at hg
      rw [genDefLineAt_append_of_true _ _ hg] at hfree
      exact absurd hfree.1 (by simp)
    · by_contra hg
      rw [Bool.not_eq_false] at hg
      rw [cbLineAt_append_of_true _ _ hg] at hfree
      exact absurd hfree.2 (by simp)
  · exact defFreeCb_drop_past t p (by omega)

theorem defFreeCb_append (A X : Str) (hA : defFreeCb A) (hX : defFreeCb X)
    (hXh : X = [] ∨ ∃ Y, X = '\n' :: Y) : defFreeCb (A ++ X) := by
  intro p hp
  by_cases hple : p ≤ A.length
  · rw [List.drop_append_of_le_length hple]
    rw [lineStartAt_append_left _ _ _ hple] at hp
    have hfreeA := hA p hp
    have hfreeX := hX 0 (lineStartAt_zero X)
    rw [List.drop_zero] at hfreeX
    constructor
    · by_contra hg
      rw [Bool.not_eq_false] at hg
      rcases genDefLineAt_split _ _ hXh hg with ⟨_, hXg⟩ | hAg
      · exact absurd hXg (by rw [hfreeX.1]; simp)
      · exact absurd hAg (by rw [hfreeA.1]; simp)
    · by_contra hg
      rw [Bool.not_eq_false] at hg
      rcases cbLineAt_split _ _ hXh hg with ⟨_, hXg⟩ | hAg
      · exact absurd hXg (by rw [hfreeX.2]; simp)
      · exact absurd hAg (by rw [hfreeA.2]; simp)
  · obtain ⟨j, hj, rfl⟩ : ∃ j, 1 ≤ j ∧ p = A.length + j :=
      ⟨p - A.length, by omega, by omega⟩
    rw [drop_append_add]
    rw [lineStartAt_append_right _ _ _ hj] at hp
    exact hX j hp

theorem defFreeCb_append_elim (B X : Str) (hfree : defFreeCb (B ++ X))
    (hXh : X = [] ∨ ∃ Y, X = '\n' :: Y) :
    defFreeCb B ∧ defFreeCb X := by
  constructor
  · intro p hp
    by_cases hple : p ≤ B.length
    · have hw := hfree p (by
        rw [lineStartAt_append_left _ _ _ hple]; exact hp)
      rw [List.drop_append_of_le_length hple] at hw
      constructor
      · by_contra hg
        rw [Bool.not_eq_false] at hg
        rw [genDefLineAt_append_of_true _ _ hg] at hw
        exact absurd hw.1 (by simp)
      · by_contra hg
        rw [Bool.not_eq_false] at hg
        rw [cbLineAt_append_of_true _ _ hg] at hw
        exact absurd hw.2 (by simp)
    · exact defFreeCb_drop_past B p (by omega)
  · intro j hj
    rcases hXh with rfl | ⟨Y, rfl⟩
    · exact defFreeCb_drop_past [] j (by simp)
    · match j with
      | 0 =>
        have hw := hfree (B.length + 1) (by
          rw [lineStartAt_append_right _ _ _ (by omega)]
          simp [lineStartAt, isLineTerm])
        rw [drop_append_add] at hw
        rw [List.drop_zero]
        have hws : (['\n'] : Str).dropWhile isJsWs = [] := by decide
        constructor
        · rw [show ('\n' :: Y : Str) = ['\n'] ++ Y from rfl,
            genDefLineAt_ws_pre _ _ hws]
          exact hw.1
        · rw [show ('\n' :: Y : Str) = ['\n'] ++ Y from rfl,
            cbLineAt_ws_pre _ _ hws]
          exact hw.2
      | j + 1 =>
        have hw := hfree (B.length + (j + 1)) (by
          rw [lineStartAt_append_right _ _ _ (by omega)]
          exact hj)
        rw [drop_append_add] at hw
        exact hw

theorem dropWhile_ws_replicate_nl (k : Nat) :
    (List.replicate k '\n').dropWhile isJsWs = [] := by
  rw [List.dropWhile_eq_nil_iff]
  intro x hx
  rw [List.eq_of_mem_replicate hx]
  decide

theorem lineStartAt_rep_nl (k : Nat) (X : Str) :
    lineStartAt (List.replicate k '\n' ++ X) k = true := by
  match k with
  | 0 => exact lineStartAt_zero _
  | k + 1 =>
    unfold lineStartAt
    have hg : (List.replicate (k + 1) '\n' ++ X).get? (k + 1 - 1)
        = some '\n' := by
      rw [List.get?_append (by simp)]
      simp [List.get?_eq_getElem?, List.getElem?_replicate]
    rw [hg]
    simp [isLineTerm]

theorem drop_rep_nl_le (k q : Nat) (X : Str) (h : q ≤ k) :
    (List.replicate k '\n' ++ X).drop q
      = List.replicate (k - q) '\n' ++ X := by
  conv_lhs => rw [show k = q + (k - q) from by omega]
  rw [List.replicate_add, List.append_assoc]
  have := drop_append_add (List.replicate q '\n')
    (List.replicate (k - q) '\n' ++ X) 0
  simpa using this

theorem defFreeCb_rep_nl (k : Nat) (X : Str) :
    defFreeCb (List.replicate k '\n' ++ X) ↔ defFreeCb X := by
  constructor
  · intro h j hj
    match j with
    | 0 =>
      have hw := h k (lineStartAt_rep_nl k X)
      rw [drop_rep_nl_le k k X (le_refl k)] at hw
      simp only [Nat.sub_self, List.replicate_zero, List.nil_append] at hw
      rw [List.drop_zero]
      exact hw
    | j + 1 =>
      have hw := h ((List.replicate k '\n' : Str).length + (j + 1)) (by
        rw [lineStartAt_append_right _ _ _ (by omega)]
        exact hj)
      rw [drop_append_add] at hw
      exact hw
  · intro h q hq
    by_cases hqk : q ≤ k
    · rw [drop_rep_nl_le k q X hqk]
      have h0 := h 0 (lineStartAt_zero X)
      rw [List.drop_zero] at h0
      constructor
      · rw [genDefLineAt_ws_pre _ _ (dropWhile_ws_replicate_nl _)]
        exact h0.1
      · rw [cbLineAt_ws_pre _ _ (dropWhile_ws_replicate_nl _)]
        exact h0.2
    · obtain ⟨j, hj, hqe⟩ :
          ∃ j, 1 ≤ j ∧ q = (List.replicate k '\n' : Str).length + j :=
        ⟨q - k, by omega, by simp; omega⟩
      subst hqe
      rw [drop_append_add]
      rw [lineStartAt_append_right _ _ _ hj] at hq
      exact h j hq

/-! ## Collapse versus structure -/

theorem collapse_nlfree_append (B X : Str) :
    (∀ ch ∈ B, ¬ ch = '\n') →
    collapseNewlines (B ++ X) = B ++ collapseNewlines X := by
  induction B with
  | nil => intro _; simp
  | cons b t ih =>
    intro hB
    rw [List.cons_append,
      collapseNewlines_cons_ne b _ (hB b (List.mem_cons_self b t)),
      ih (fun ch hch => hB ch (List.mem_cons_of_mem _ hch))]
    rfl

theorem collapse_head_nl (X : Str) (h : X.head? = some '\n') :
    (collapseNewlines X).head? = some '\n' := by
  obtain ⟨k, rest, hk, hrest, hdec⟩ := nl_run_decomp X h
  rw [hdec, collapseNewlines_run k rest hk hrest]
  by_cases h3 : 3 ≤ k
  · rw [if_pos h3]
    rfl
  · rw [if_neg h3]
    match k, hk with
    | k + 1, _ => rw [List.replicate_succ]; rfl

theorem collapse_ne_nil (s : Str) (h : s ≠ []) : collapseNewlines s ≠ [] := by
  match s with
  | c :: rest =>
    by_cases hc : c = '\n'
    · have hh : (collapseNewlines (c :: rest)).head? = some '\n' :=
        collapse_head_nl _ (by simp [hc])
      intro hnil
      rw [hnil] at hh
      cases hh
    · rw [collapseNewlines_cons_ne c rest hc]
      simp

theorem getLast?_replicate_nl (k : Nat) (hk : 1 ≤ k) :
    (List.replicate k '\n' : Str).getLast? = some '\n' := by
  match k, hk with
  | k + 1, _ =>
    rw [show (List.replicate (k + 1) '\n' : Str)
      = List.replicate k '\n' ++ ['\n'] from by rw [List.replicate_succ']]
    exact List.getLast?_concat _

theorem collapse_getLast (n : Nat) : ∀ s : Str, s.length ≤ n →
    (collapseNewlines s).getLast? = s.getLast? := by
  induction n with
  | zero =>
    intro s h
    have : s = [] := List.length_eq_zero.mp (Nat.le_zero.mp h)
    subst this
    rfl
  | succ n ih =>
    intro s h
    match s with
    | [] => rfl
    | c :: rest =>
      by_cases hc : c = '\n'
      · obtain ⟨k, rest2, hk, hrest2, hdec⟩ :=
          nl_run_decomp (c :: rest) (by simp [hc])
        have hlen2 : rest2.length ≤ n := by
          have := congrArg List.length hdec
          simp only [List.length_cons, List.length_append,
            List.length_replicate] at this
          simp only [List.length_cons] at h
          omega
        rw [hdec, collapseNewlines_run k rest2 hk hrest2]
        cases hr2 : rest2 with
        | nil =>
          subst hr2
          rw [collapseNewlines_nil, List.append_nil, List.append_nil]
          by_cases h3 : 3 ≤ k
          · rw [if_pos h3, getLast?_replicate_nl k hk]
            rfl
          · rw [if_neg h3]
        | cons r2 t2 =>
          have hcne : collapseNewlines rest2 ≠ [] := by
            rw [hr2] at *
            exact collapse_ne_nil _ (by simp)
          obtain ⟨cl, hcl⟩ : ∃ cl, (collapseNewlines rest2).getLast? = some cl := by
            cases hx : (collapseNewlines rest2).getLast? with
            | none => exact absurd (List.getLast?_eq_none_iff.mp hx) (by rw [hr2] at *; exact hcne)
            | some cl => exact ⟨cl, rfl⟩
          rw [← hr2]
          rw [List.getLast?_append, List.getLast?_append, ih rest2 hlen2]
          cases hx2 : rest2.getLast? with
          | none =>
            exact absurd (List.getLast?_eq_none_iff.mp hx2) (by rw [hr2]; simp)
          | some cl2 => rfl
      · rw [collapseNewlines_cons_ne c rest hc]
        cases hr : rest with
        | nil => rfl
        | cons r2 t2 =>
          rw [← hr, getLast?_cons_eq, getLast?_cons_eq,
            ih rest (by simp only [List.length_cons] at h; omega)]

theorem collapse_append_last (n : Nat) : ∀ (A B : Str) (c : Char),
    A.length ≤ n → A.getLast? = some c → ¬(c = '\n') →
    collapseNewlines (A ++ B) = collapseNewlines A ++ collapseNewlines B := by
  induction n with
  | zero =>
    intro A B c h hlast _
    have : A = [] := List.length_eq_zero.mp (Nat.le_zero.mp h)
    subst this
    cases hlast
  | succ n ih =>
    intro A B c h hlast hcnl
    match A with
    | [] => cases hlast
    | a :: rest =>
      by_cases ha : a = '\n'
      · obtain ⟨k, A2, hk, hA2, hdec⟩ :=
          nl_run_decomp (a :: rest) (by simp [ha])
        have hA2ne : A2 ≠ [] := by
          intro hnil
          rw [hnil, List.append_nil] at hdec
          rw [hdec] at hlast
          rw [getLast?_replicate_nl k hk] at hlast
          exact hcnl (by simpa using hlast.symm)
        have hlen2 : A2.length ≤ n := by
          have := congrArg List.length hdec
          simp only [List.length_cons, List.length_append,
            List.length_replicate] at this
          simp only [List.length_cons] at h
          omega
        have hlast2 : A2.getLast? = some c := by
          rw [hdec, List.getLast?_append] at hlast
          cases hx : A2.getLast? with
          | none => exact absurd (List.getLast?_eq_none_iff.mp hx) hA2ne
          | some cl => rw [hx] at hlast; exact hlast
        have hheadA2B : (A2 ++ B).head? ≠ some '\n' := by
          cases A2 with
          | nil => exact absurd rfl hA2ne
          | cons x t =>
            rw [List.cons_append]
            simpa using hA2
        rw [hdec, List.append_assoc,
          collapseNewlines_run k (A2 ++ B) hk hheadA2B,
          collapseNewlines_run k A2 hk hA2,
          ih A2 B c hlen2 hlast2 hcnl, List.append_assoc]
      · have hrw : collapseNewlines (a :: rest ++ B)
            = a :: collapseNewlines (rest ++ B) := by
          rw [List.cons_append, collapseNewlines_cons_ne _ _ ha]
        rw [hrw, collapseNewlines_cons_ne _ _ ha]
        cases hr : rest with
        | nil =>
          subst hr
          have : c = a := by
            cases hlast
            rfl
          rw [collapseNewlines_nil]
          rfl
        | cons r2 t2 =>
          rw [← hr]
          have hlast2 : rest.getLast? = some c := by
            rw [getLast?_cons_eq] at hlast
            cases hx : rest.getLast? with
            | none => exact absurd (List.getLast?_eq_none_iff.mp hx) (by rw [hr]; simp)
            | some cl => rw [hx] at hlast; simpa using hlast
          rw [ih rest B c (by simp only [List.length_cons] at h; omega)
            hlast2 hcnl]
          rfl

theorem hasTripleNL_suffix_false (a b : Str) (h : hasTripleNL (a ++ b) = false) :
    hasTripleNL b = false := by
  by_contra hb
  rw [Bool.not_eq_false, hasTripleNL_iff_inf] at hb
  have h2 : (['\n', '\n', '\n'] : Str) <:+: (a ++ b) :=
    hb.trans (List.suffix_append a b).isInfix
  rw [← hasTripleNL_iff_inf, h] at h2
  cases h2
theorem collapse_eq_self_of_noTriple (n : Nat) : ∀ s : Str, s.length ≤ n →
    hasTripleNL s = false → collapseNewlines s = s := by
  induction n with
  | zero =>
    intro s h _
    have : s = [] := List.length_eq_zero.mp (Nat.le_zero.mp h)
    subst this
    rfl
  | succ n ih =>
    intro s h hnt
    match s with
    | [] => rfl
    | c :: rest =>
      by_cases hc : c = '\n'
      · obtain ⟨k, rest2, hk, hrest2, hdec⟩ :=
          nl_run_decomp (c :: rest) (by simp [hc])
        have hk2 : ¬ 3 ≤ k := by
          intro h3
          rw [hdec] at hnt
          have : hasTripleNL (List.replicate k '\n' ++ rest2) = true := by
            rw [hasTripleNL_iff_inf,
              show (['\n', '\n', '\n'] : Str) = List.replicate 3 '\n' from rfl,
              show k = 3 + (k - 3) from by omega, List.replicate_add,
              List.append_assoc]
            exact (List.prefix_append _ _).isInfix
          rw [hnt] at this
          cases this
        have hnt2 : hasTripleNL rest2 = false := by
          rw [hdec] at hnt
          exact hasTripleNL_suffix_false _ _ hnt
        have hlen2 : rest2.length ≤ n := by
          have := congrArg List.length hdec
          simp only [List.length_cons, List.length_append,
            List.length_replicate] at this
          simp only [List.length_cons] at h
          omega
        rw [hdec, collapseNewlines_run k rest2 hk hrest2, if_neg hk2,
          ih rest2 hlen2 hnt2]
      · rw [collapseNewlines_cons_ne c rest hc]
        have hnt2 : hasTripleNL rest = false :=
          hasTripleNL_suffix_false [c] rest (by simpa using hnt)
        rw [ih rest (by simp only [List.length_cons] at h; omega) hnt2]

theorem collapse_idem (s : Str) :
    collapseNewlines (collapseNewlines s) = collapseNewlines s :=
  collapse_eq_self_of_noTriple (collapseNewlines s).length _ (le_refl _)
    (collapse_noTriple s)

theorem infix_nlfree_collapse (n : Nat) : ∀ (s L : Str), s.length ≤ n →
    L ≠ [] → (∀ ch ∈ L, ¬ ch = '\n') → L <:+: s →
    L <:+: collapseNewlines s := by
  induction n with
  | zero =>
    intro s L h hLne _ hinf
    have : s = [] := List.length_eq_zero.mp (Nat.le_zero.mp h)
    subst this
    exact absurd (List.eq_nil_of_infix_nil hinf) hLne
  | succ n ih =>
    intro s L h hLne hLfree hinf
    match s with
    | [] => exact absurd (List.eq_nil_of_infix_nil hinf) hLne
    | c :: rest =>
      by_cases hc : c = '\n'
      · obtain ⟨k, rest2, hk, hrest2, hdec⟩ :=
          nl_run_decomp (c :: rest) (by simp [hc])
        have hlen2 : rest2.length ≤ n := by
          have := congrArg List.length hdec
          simp only [List.length_cons, List.length_append,
            List.length_replicate] at this
          simp only [List.length_cons] at h
          omega
        obtain ⟨u, v, huv⟩ := hinf
        rw [hdec] at huv
        -- the occurrence cannot start inside the newline run
        have hku : k ≤ u.length := by
          by_contra hgt
          push_neg at hgt
          obtain ⟨l0, lt, rfl⟩ : ∃ l0 lt, L = l0 :: lt := by
            cases L with
            | nil => exact absurd rfl hLne
            | cons l0 lt => exact ⟨l0, lt, rfl⟩
          have h1 : (u ++ (l0 :: lt) ++ v).get? u.length = some l0 := by
            rw [List.append_assoc, List.get?_append_right (le_refl _)]
            simp
          have h2 : (List.replicate k '\n' ++ rest2).get? u.length
              = some '\n' := by
            rw [List.get?_append (by simpa using hgt)]
            simp [List.get?_eq_getElem?, List.getElem?_replicate, hgt]
          rw [huv, h2] at h1
          exact hLfree l0 (List.mem_cons_self _ _) (by simpa using h1.symm)
        have hrest2eq : u.drop k ++ L ++ v = rest2 := by
          have hdropped := congrArg (fun t => List.drop k t) huv
          simp only at hdropped
          rw [List.append_assoc] at hdropped
          rw [List.drop_append_of_le_length hku] at hdropped
          rw [show (List.replicate k '\n' ++ rest2 : Str).drop k = rest2 from by
            have := drop_rep_nl_le k k rest2 (le_refl k)
            simpa using this] at hdropped
          rw [← List.append_assoc] at hdropped
          exact hdropped
        have hinf2 : L <:+: rest2 := ⟨u.drop k, v, hrest2eq⟩
        rw [hdec, collapseNewlines_run k rest2 hk hrest2]
        exact (ih rest2 L hlen2 hLne hLfree hinf2).trans
          (List.suffix_append _ _).isInfix
      · rw [collapseNewlines_cons_ne c rest hc]
        obtain ⟨u, v, huv⟩ := hinf
        cases u with
        | nil =>
          -- L is a prefix: L = c :: L2 with L2 a prefix of rest
          obtain ⟨l0, lt, rfl⟩ : ∃ l0 lt, L = l0 :: lt := by
            cases L with
            | nil => exact absurd rfl hLne
            | cons l0 lt => exact ⟨l0, lt, rfl⟩
          rw [List.nil_append] at huv
          have hl0 : l0 = c := by simpa using congrArg List.head? huv
          have hrest : lt ++ v = rest := by
            simpa using congrArg List.tail huv
          have hltfree : ∀ ch ∈ lt, ¬ ch = '\n' :=
            fun ch hch => hLfree ch (List.mem_cons_of_mem _ hch)
          rw [← hrest, collapse_nlfree_append lt v hltfree]
          exact ⟨[], collapseNewlines v, by rw [hl0]; simp⟩
        | cons u0 ut =>
          have hu0 : u0 = c := by simpa using congrArg List.head? huv
          have hrest : ut ++ L ++ v = rest := by
            simpa using congrArg List.tail huv
          have hinf2 : L <:+: rest := ⟨ut, v, hrest⟩
          exact (ih rest L (by simp only [List.length_cons] at h; omega)
            hLne hLfree hinf2).trans
            ⟨[c], [], by simp⟩

theorem jsIncludes_iff_inf (s sub : Str) :
    jsIncludes s sub = true ↔ sub <:+: s := by
  induction s with
  | nil =>
    rw [jsIncludes]
    constructor
    · intro h
      rw [show sub = [] from by simpa [List.isEmpty_iff] using h]
    · intro h
      rw [List.eq_nil_of_infix_nil h]
      rfl
  | cons c rest ih =>
    rw [jsIncludes, Bool.or_eq_true, List.isPrefixOf_iff_prefix, ih,
      List.infix_cons_iff]

theorem defFreeCb_collapse (n : Nat) : ∀ s : Str, s.length ≤ n →
    defFreeCb s → defFreeCb (collapseNewlines s) := by
  induction n with
  | zero =>
    intro s h hs
    have : s = [] := List.length_eq_zero.mp (Nat.le_zero.mp h)
    subst this
    exact hs
  | succ n ih =>
    intro s h hs
    match s with
    | [] => exact hs
    | c :: rest =>
      by_cases hc : c = '\n'
      · obtain ⟨k, rest2, hk, hrest2, hdec⟩ :=
          nl_run_decomp (c :: rest) (by simp [hc])
        have hlen2 : rest2.length ≤ n := by
          have := congrArg List.length hdec
          simp only [List.length_cons, List.length_append,
            List.length_replicate] at this
          simp only [List.length_cons] at h
          omega
        rw [hdec] at hs
        have hs2 : defFreeCb rest2 := (defFreeCb_rep_nl k rest2).mp hs
        have hc2 := ih rest2 hlen2 hs2
        rw [hdec, collapseNewlines_run k rest2 hk hrest2]
        by_cases h3 : 3 ≤ k
        · rw [if_pos h3]
          exact (defFreeCb_rep_nl 2 _).mpr hc2
        · rw [if_neg h3]
          exact (defFreeCb_rep_nl k _).mpr hc2
      · -- block case: split off the maximal newline-free block
        have hdec : c :: rest
            = (c :: rest).takeWhile (fun d => ¬(d = '\n'))
              ++ (c :: rest).dropWhile (fun d => ¬(d = '\n')) :=
          (List.takeWhile_append_dropWhile _ _).symm
        set B := (c :: rest).takeWhile (fun d => ¬(d = '\n')) with hB
        set X := (c :: rest).dropWhile (fun d => ¬(d = '\n')) with hX
        have hBfree : ∀ ch ∈ B, ¬ ch = '\n' := by
          intro ch hch
          have := List.mem_takeWhile_imp hch
          simpa using this
        have hBne : B ≠ [] := by
          rw [hB, List.takeWhile_cons, if_pos (by simpa using hc)]
          simp
        have hXh : X = [] ∨ ∃ Y, X = '\n' :: Y := by
          cases hx : X with
          | nil => exact Or.inl rfl
          | cons x t =>
            right
            refine ⟨t, ?_⟩
            have h9 := head?_dropWhile_neg (fun d => ¬(d = '\n')) (c :: rest) x
              (by rw [← hX, hx]; rfl)
            have hx2 : x = '\n' := by simpa using h9
            rw [hx2]
        have hlenX : X.length ≤ n := by
          have hlenB : 1 ≤ B.length := by
            cases hb : B with
            | nil => exact absurd hb hBne
            | cons b t => simp
          have := congrArg List.length hdec
          simp only [List.length_cons, List.length_append] at this
          simp only [List.length_cons] at h
          omega
        have hsplit := defFreeCb_append_elim B X (by rw [← hdec]; exact hs) hXh
        have hcolX := ih X hlenX hsplit.2
        have hXcolh : collapseNewlines X = [] ∨
            ∃ Y, collapseNewlines X = '\n' :: Y := by
          rcases hXh with hXnil | ⟨Y, hY⟩
          · exact Or.inl (by rw [hXnil]; rfl)
          · right
            have := collapse_head_nl X (by rw [hY]; rfl)
            cases hcx : collapseNewlines X with
            | nil => rw [hcx] at this; cases this
            | cons x t =>
              rw [hcx] at this
              simp only [List.head?_cons, Option.some_inj] at this
              exact ⟨t, by rw [this]⟩
        rw [hdec, collapse_nlfree_append B X hBfree]
        exact defFreeCb_append B (collapseNewlines X) hsplit.1 hcolX hXcolh

theorem defFreeCb_collapseNewlines (s : Str) (h : defFreeCb s) :
    defFreeCb (collapseNewlines s) :=
  defFreeCb_collapse s.length s (le_refl _) h

/-! ## The substituted back-link -/

theorem dollarExpand_no_dollar (rep m b a : Str) (h : '$' ∉ rep) :
    dollarExpand rep m b a = rep := by
  induction rep with
  | nil => rfl
  | cons c r ih =>
    have hc : ¬(c = '$') := fun hh => h (by rw [hh]; exact List.mem_cons_self _ _)
    have hr : '$' ∉ r := fun hh => h (List.mem_cons_of_mem _ hh)
    rw [dollarExpand.eq_def]
    dsimp only
    rw [if_neg hc, ih hr]

theorem jsReplaceFirstAux_here (t pat rep before : Str) (hne : t ≠ [])
    (h : pat.isPrefixOf t = true) :
    jsReplaceFirst.jsReplaceFirstAux t pat rep before
      = dollarExpand rep pat before (t.drop pat.length)
        ++ t.drop pat.length := by
  cases t with
  | nil => exact absurd rfl hne
  | cons c rest =>
    rw [jsReplaceFirst.jsReplaceFirstAux, if_pos h]

theorem jsReplaceFirstAux_skip (c : Char) (rest pat rep before : Str)
    (h : pat.isPrefixOf (c :: rest) = false) :
    jsReplaceFirst.jsReplaceFirstAux (c :: rest) pat rep before
      = c :: jsReplaceFirst.jsReplaceFirstAux rest pat rep (before ++ [c]) := by
  rw [jsReplaceFirst.jsReplaceFirstAux, if_neg (by rw [h]; simp)]

theorem linkToSource_default (name : Str) (hd : '$' ∉ name) :
    jsReplaceFirst DEFAULT_SETTINGS.linkToSourceText
        (str "\x7b\x7bsourceNote\x7d\x7d") name
      = str "[[" ++ name ++ str "|⬅️ Back to Source]]" := by
  have htpl : DEFAULT_SETTINGS.linkToSourceText
      = '[' :: '[' :: (str "\x7b\x7bsourceNote\x7d\x7d"
        ++ str "|⬅️ Back to Source]]") := by decide
  rw [htpl, jsReplaceFirst, if_neg (by decide),
    jsReplaceFirstAux_skip _ _ _ _ _ (by decide),
    jsReplaceFirstAux_here _ _ _ _ (by decide) (by decide),
    dollarExpand_no_dollar _ _ _ _ hd,
    show ((str "\x7b\x7bsourceNote\x7d\x7d" ++ str "|⬅️ Back to Source]]").drop
      (str "\x7b\x7bsourceNote\x7d\x7d").length) = str "|⬅️ Back to Source]]"
      from by decide]
  simp only [List.cons_append, List.append_assoc]
  rfl

theorem linkL_lineterm_free (name : Str)
    (h : ∀ ch ∈ name, isLineTerm ch = false) :
    ∀ ch ∈ str "[[" ++ name ++ str "|⬅️ Back to Source]]",
      isLineTerm ch = false := by
  intro ch hch
  rcases List.mem_append.mp hch with h1 | h2
  · rcases List.mem_append.mp h1 with h3 | h4
    · have hconc : ∀ x ∈ str "[[", isLineTerm x = false := by decide
      exact hconc ch h3
    · exact h ch h4
  · have hconc : ∀ x ∈ str "|⬅️ Back to Source]]", isLineTerm x = false := by
      decide
    exact hconc ch h2

theorem linkL_getLast (name : Str) :
    (str "[[" ++ name ++ str "|⬅️ Back to Source]]").getLast? = some ']' := by
  rw [List.getLast?_append,
    show (str "|⬅️ Back to Source]]").getLast? = some ']' from by decide]
  rfl

theorem genDefLineAt_two_br (z : Str) : genDefLineAt ('[' :: '[' :: z) = false := by
  unfold genDefLineAt
  rw [show ('[' :: '[' :: z).dropWhile isJsWs = '[' :: '[' :: z from by
    rw [List.dropWhile_cons, if_neg (by decide)]]
  exact defLineCore_two_br z

theorem isPrefixOf_head_ne (lit w : Str) (a : Char)
    (h : ∃ c t, lit = c :: t ∧ (c == a) = false) :
    lit.isPrefixOf (a :: w) = false := by
  obtain ⟨c, t, hlit, hca⟩ := h
  rw [hlit]
  show ((c == a) && t.isPrefixOf w) = false
  rw [hca]
  rfl

theorem cbLineAt_br (z : Str) : cbLineAt ('[' :: z) = false := by
  unfold cbLineAt
  rw [show ('[' :: z).dropWhile isJsWs = '[' :: z from by
    rw [List.dropWhile_cons, if_neg (by decide)]]
  exact isPrefixOf_head_ne _ _ _
    ⟨'\x60', str "``cornell-footnote-links", by decide, by decide⟩

theorem defFreeCb_linkL (name : Str) (h : ∀ ch ∈ name, isLineTerm ch = false) :
    defFreeCb (str "[[" ++ name ++ str "|⬅️ Back to Source]]") := by
  intro p hp
  match p with
  | 0 =>
    rw [List.drop_zero]
    constructor
    · exact genDefLineAt_two_br (name ++ str "|⬅️ Back to Source]]")
    · exact cbLineAt_br ('[' :: (name ++ str "|⬅️ Back to Source]]"))
  | q + 1 =>
    exfalso
    simp only [lineStartAt, Nat.add_sub_cancel] at hp
    rw [Bool.or_eq_true] at hp
    rcases hp with h0 | hmatch
    · simp at h0
    · cases hg : (str "[[" ++ name ++ str "|⬅️ Back to Source]]").get? q with
      | none =>
        rw [hg] at hmatch
        cases hmatch
      | some ch =>
        rw [hg] at hmatch
        have hmem : ch ∈ str "[[" ++ name ++ str "|⬅️ Back to Source]]" :=
          List.get?_mem hg
        have hlt := linkL_lineterm_free name h ch hmem
        have hmatch2 : isLineTerm ch = true := hmatch
        rw [hlt] at hmatch2
        cases hmatch2

/-! ## Minimality of the header cut -/

theorem genFirstElementIdx_le_def (H : Str) (d : Nat)
    (hfd : firstDefIdx H = some d) : genFirstElementIdx H ≤ d := by
  unfold genFirstElementIdx
  rw [hfd]
  dsimp only
  cases hfc : firstCbIdx H with
  | none => exact le_refl d
  | some j =>
    dsimp only
    split
    · next hjlt => omega
    · exact le_refl d

theorem genFirstElementIdx_le_cb (H : Str) (j : Nat)
    (hfc : firstCbIdx H = some j) : genFirstElementIdx H ≤ j := by
  unfold genFirstElementIdx
  rw [hfc]
  dsimp only
  split
  · exact le_refl j
  · next hnlt => omega

theorem genFirstElementIdx_free (H : Str) :
    defFreeCb (H.take (genFirstElementIdx H)) := by
  intro p hp
  by_cases hpl : p < (H.take (genFirstElementIdx H)).length
  case neg => exact defFreeCb_drop_past _ p (by omega)
  case pos =>
    have hpi : p < genFirstElementIdx H := by
      rw [List.length_take] at hpl
      omega
    have hpH : p < H.length := by
      rw [List.length_take] at hpl
      omega
    have htad : H.take (genFirstElementIdx H) ++ H.drop (genFirstElementIdx H)
        = H := List.take_append_drop _ H
    have hls : lineStartAt H p = true := by
      rw [← htad, lineStartAt_append_left _ _ _ (Nat.le_of_lt hpl)]
      exact hp
    constructor
    · by_contra hg
      rw [Bool.not_eq_false] at hg
      have hgH : genDefLineAt (H.drop p) = true := by
        conv_lhs => rw [← htad]
        rw [List.drop_append_of_le_length (Nat.le_of_lt hpl)]
        exact genDefLineAt_append_of_true _ _ hg
      have hpred : (lineStartAt H p && genDefLineAt (H.drop p)) = true := by
        rw [Bool.and_eq_true]
        exact ⟨hls, hgH⟩
      cases hfd : firstDefIdx H with
      | none =>
        have hfalse := range_find?_none _ _ hfd p (by omega)
        rw [hpred] at hfalse
        cases hfalse
      | some d =>
        obtain ⟨hd1, hd2, hd3⟩ := range_find?_some _ _ _ hfd
        have hdp : d ≤ p := by
          by_contra hlt
          push_neg at hlt
          have hfalse := hd3 p hlt
          rw [hpred] at hfalse
          cases hfalse
        have hid := genFirstElementIdx_le_def H d hfd
        omega
    · by_contra hg
      rw [Bool.not_eq_false] at hg
      have hgH : cbLineAt (H.drop p) = true := by
        conv_lhs => rw [← htad]
        rw [List.drop_append_of_le_length (Nat.le_of_lt hpl)]
        exact cbLineAt_append_of_true _ _ hg
      have hpred : (lineStartAt H p && cbLineAt (H.drop p)) = true := by
        rw [Bool.and_eq_true]
        exact ⟨hls, hgH⟩
      cases hfc : firstCbIdx H with
      | none =>
        have hfalse := range_find?_none _ _ hfc p (by omega)
        rw [hpred] at hfalse
        cases hfalse
      | some j =>
        obtain ⟨hj1, hj2, hj3⟩ := range_find?_some _ _ _ hfc
        have hjp : j ≤ p := by
          by_contra hlt
          push_neg at hlt
          have hfalse := hj3 p hlt
          rw [hpred] at hfalse
          cases hfalse
        have hij := genFirstElementIdx_le_cb H j hfc
        omega

theorem getLast?_drop_eq (A : Str) (p : Nat) (h : p < A.length) :
    (A.drop p).getLast? = A.getLast? := by
  conv_rhs => rw [← List.take_append_drop p A]
  rw [List.getLast?_append]
  cases hx : (A.drop p).getLast? with
  | none =>
    have hnil := List.getLast?_eq_none_iff.mp hx
    have := congrArg List.length hnil
    simp at this
    omega
  | some c => rfl

theorem noTriggerBefore (A X : Str) (hA : defFreeCb A) (c : Char)
    (hlast : A.getLast? = some c) (hc : isJsWs c = false)
    (hXh : X = [] ∨ ∃ Y, X = '\n' :: Y) :
    ∀ p, p ≤ A.length → lineStartAt (A ++ X) p = true →
      genDefLineAt ((A ++ X).drop p) = false ∧
        cbLineAt ((A ++ X).drop p) = false := by
  intro p hple hp
  rw [List.drop_append_of_le_length hple]
  rw [lineStartAt_append_left _ _ _ hple] at hp
  by_cases hpeq : p = A.length
  · exfalso
    subst hpeq
    cases hA0 : A.length with
    | zero =>
      have hAnil : A = [] := List.length_eq_zero.mp hA0
      rw [hAnil] at hlast
      cases hlast
    | succ n =>
      rw [hA0] at hp
      simp only [lineStartAt, Nat.succ_sub_one] at hp
      rw [Bool.or_eq_true] at hp
      rcases hp with h0 | hm
      · simp at h0
      · have hg : A.get? n = some c := by
          have h2 := (List.getLast?_eq_get? A).symm
          rw [hlast, hA0] at h2
          simpa using h2
        rw [hg] at hm
        have hm2 : isLineTerm c = true := hm
        have := isJsWs_of_isLineTerm c hm2
        rw [this] at hc
        cases hc
  · have hplt : p < A.length := by omega
    have hfree := hA p hp
    have hlastdrop : (A.drop p).getLast? = some c := by
      rw [getLast?_drop_eq A p hplt]
      exact hlast
    have hndw : (A.drop p).dropWhile isJsWs ≠ [] := by
      intro hall
      rw [List.dropWhile_eq_nil_iff] at hall
      obtain ⟨t, ht⟩ := List.getLast?_eq_some_iff.mp hlastdrop
      have hcmem : c ∈ A.drop p := by
        rw [ht]
        simp
      have hws := hall c hcmem
      rw [hws] at hc
      cases hc
    constructor
    · by_contra hg
      rw [Bool.not_eq_false] at hg
      rcases genDefLineAt_split _ _ hXh hg with ⟨hall, _⟩ | hAg
      · exact hndw hall
      · rw [hfree.1] at hAg
        cases hAg
    · by_contra hg
      rw [Bool.not_eq_false] at hg
      rcases cbLineAt_split _ _ hXh hg with ⟨hall, _⟩ | hAg
      · exact hndw hall
      · rw [hfree.2] at hAg
        cases hAg

/-! ## The rendered definition block -/

theorem mem_insertEntry (x y : Str × Str) : ∀ l : JsMap,
    y ∈ insertEntry x l → y = x ∨ y ∈ l := by
  intro l
  induction l with
  | nil =>
    intro h
    exact Or.inl (List.mem_singleton.mp h)
  | cons z t ih =>
    intro h
    rw [insertEntry] at h
    split at h
    · rcases List.mem_cons.mp h with h1 | h2
      · exact Or.inl h1
      · exact Or.inr h2
    · rcases List.mem_cons.mp h with h1 | h2
      · exact Or.inr (by rw [h1]; exact List.mem_cons_self _ _)
      · rcases ih h2 with h3 | h4
        · exact Or.inl h3
        · exact Or.inr (List.mem_cons_of_mem _ h4)

theorem mem_sortEntries_foldl (y : Str × Str) : ∀ (l acc : JsMap),
    y ∈ l.foldl (fun a x => insertEntry x a) acc → y ∈ acc ∨ y ∈ l := by
  intro l
  induction l with
  | nil =>
    intro acc h
    exact Or.inl h
  | cons z t ih =>
    intro acc h
    rw [List.foldl_cons] at h
    rcases ih _ h with h1 | h2
    · rcases mem_insertEntry z y acc h1 with h3 | h4
      · exact Or.inr (by rw [h3]; exact List.mem_cons_self _ _)
      · exact Or.inl h4
    · exact Or.inr (List.mem_cons_of_mem _ h2)

theorem mem_sortEntries (A : JsMap) (y : Str × Str) (h : y ∈ sortEntries A) :
    y ∈ A := by
  rcases mem_sortEntries_foldl y A [] h with h1 | h2
  · cases h1
  · exact h2

theorem length_insertEntry (x : Str × Str) : ∀ l : JsMap,
    (insertEntry x l).length = l.length + 1 := by
  intro l
  induction l with
  | nil => rfl
  | cons z t ih =>
    rw [insertEntry]
    split
    · simp
    · rw [List.length_cons, List.length_cons, ih]

theorem length_sortEntries_foldl : ∀ (l acc : JsMap),
    (l.foldl (fun a x => insertEntry x a) acc).length
      = acc.length + l.length := by
  intro l
  induction l with
  | nil =>
    intro acc
    simp
  | cons z t ih =>
    intro acc
    rw [List.foldl_cons, ih, length_insertEntry]
    rw [List.length_cons]
    omega

theorem sortEntries_ne_nil (A : JsMap) (h : A ≠ []) : sortEntries A ≠ [] := by
  intro hnil
  have hlen := congrArg List.length hnil
  rw [sortEntries, length_sortEntries_foldl] at hlen
  simp at hlen
  exact h hlen

theorem strIntercalate_cons_ex (sep x : Str) (xs : List Str) :
    ∃ r, strIntercalate sep (x :: xs) = x ++ r := by
  cases xs with
  | nil => exact ⟨[], by rw [List.append_nil]; rfl⟩
  | cons y ys =>
    refine ⟨sep ++ strIntercalate sep (y :: ys), ?_⟩
    rw [show strIntercalate sep (x :: y :: ys)
      = x ++ sep ++ strIntercalate sep (y :: ys) from rfl, List.append_assoc]

theorem renderDefBlock_shape (A : JsMap) (hne : A ≠ []) :
    ∃ r1 b1 w, (r1, b1) ∈ A ∧
      renderDefBlock A = '[' :: '^' :: (r1 ++ ']' :: ':' :: w) := by
  obtain ⟨kv, t, hst⟩ : ∃ kv t, sortEntries A = kv :: t := by
    cases hs : sortEntries A with
    | nil => exact absurd hs (sortEntries_ne_nil A hne)
    | cons kv t => exact ⟨kv, t, rfl⟩
  obtain ⟨r0, hr0⟩ := strIntercalate_cons_ex (str "\n\n")
    (str "[^" ++ kv.1 ++ str "]: " ++ kv.2)
    (t.map (fun kv => str "[^" ++ kv.1 ++ str "]: " ++ kv.2))
  refine ⟨kv.1, kv.2, ' ' :: (kv.2 ++ r0), ?_, ?_⟩
  · exact mem_sortEntries A kv (by rw [hst]; exact List.mem_cons_self _ _)
  · unfold renderDefBlock
    rw [hst, List.map_cons, hr0]
    simp only [List.append_assoc, List.cons_append]
    rfl

theorem genDefLineAt_brformat (r1 Z : Str) (hr1ne : r1 ≠ [])
    (hr1lt : ∀ ch ∈ r1, isLineTerm ch = false) :
    genDefLineAt ('[' :: '^' :: (r1 ++ ']' :: ':' :: Z)) = true := by
  obtain ⟨c0, r1t, hr1⟩ : ∃ c0 r1t, r1 = c0 :: r1t := by
    cases hr : r1 with
    | nil => exact absurd hr hr1ne
    | cons c0 r1t => exact ⟨c0, r1t, rfl⟩
  subst hr1
  unfold genDefLineAt
  rw [show ('[' :: '^' :: ((c0 :: r1t) ++ ']' :: ':' :: Z)).dropWhile isJsWs
      = '[' :: '^' :: ((c0 :: r1t) ++ ']' :: ':' :: Z) from by
    rw [List.dropWhile_cons, if_neg (by decide)]]
  rw [show ((c0 :: r1t) ++ ']' :: ':' :: Z) = c0 :: (r1t ++ ']' :: ':' :: Z)
    from rfl]
  rw [defLineCore_cons3, Bool.and_eq_true]
  constructor
  · rw [hr1lt c0 (List.mem_cons_self _ _)]
    rfl
  · exact scanBrColon_reach r1t Z
      (fun ch hch => hr1lt ch (List.mem_cons_of_mem _ hch))

/-! ## Evaluating the generator around a well-formed header -/

theorem genHeaderChoiceT_ne_nil (LinkL H : Str) (hLne : LinkL ≠ []) :
    genHeaderChoiceT LinkL H ≠ [] := by
  unfold genHeaderChoiceT
  dsimp only
  split
  · next hinc =>
    intro hnil
    rw [hnil] at hinc
    have hLnil : LinkL = [] := by
      simpa [jsIncludes, List.isEmpty_iff] using hinc
    exact hLne hLnil
  · split
    · intro hnil
      exact hLne (List.append_eq_nil.mp (List.append_eq_nil.mp hnil).1).1
    · exact hLne

theorem genHeaderChoiceT_facts (LinkL H : Str)
    (hLfree : defFreeCb LinkL) (hLlast : LinkL.getLast? = some ']')
    (hLlt : ∀ ch ∈ LinkL, isLineTerm ch = false) :
    defFreeCb (genHeaderChoiceT LinkL H) ∧
    (∃ ce, (genHeaderChoiceT LinkL H).getLast? = some ce ∧
      isJsWs ce = false) ∧
    jsIncludes (genHeaderChoiceT LinkL H) LinkL = true := by
  have hLne : LinkL ≠ [] := by
    intro hnil
    rw [hnil] at hLlast
    cases hLlast
  have hEfree : defFreeCb (jsTrimEnd (H.take (genFirstElementIdx H))) :=
    defFreeCb_of_prefix _ _ (jsTrimEnd_pre _) (genFirstElementIdx_free H)
  unfold genHeaderChoiceT
  dsimp only
  split
  · next hinc =>
    refine ⟨hEfree, ?_, hinc⟩
    have hEne : jsTrimEnd (H.take (genFirstElementIdx H)) ≠ [] := by
      intro hnil
      rw [hnil] at hinc
      have hLnil : LinkL = [] := by
        simpa [jsIncludes, List.isEmpty_iff] using hinc
      exact hLne hLnil
    obtain ⟨ce, hce⟩ : ∃ ce,
        (jsTrimEnd (H.take (genFirstElementIdx H))).getLast? = some ce := by
      cases hx : (jsTrimEnd (H.take (genFirstElementIdx H))).getLast? with
      | none => exact absurd (List.getLast?_eq_none_iff.mp hx) hEne
      | some ce => exact ⟨ce, rfl⟩
    exact ⟨ce, hce, jsTrimEnd_getLast_not_ws _ ce hce⟩
  · next hninc =>
    split
    · next hnemp =>
      have hEne : jsTrimEnd (H.take (genFirstElementIdx H)) ≠ [] := by
        intro hnil
        rw [hnil] at hnemp
        simp at hnemp
      obtain ⟨ce, hce⟩ : ∃ ce,
          (jsTrimEnd (H.take (genFirstElementIdx H))).getLast? = some ce := by
        cases hx : (jsTrimEnd (H.take (genFirstElementIdx H))).getLast? with
        | none => exact absurd (List.getLast?_eq_none_iff.mp hx) hEne
        | some ce => exact ⟨ce, rfl⟩
      refine ⟨?_, ⟨ce, ?_, jsTrimEnd_getLast_not_ws _ ce hce⟩, ?_⟩
      · rw [List.append_assoc]
        exact defFreeCb_append LinkL _ hLfree
          ((defFreeCb_rep_nl 2 _).mpr hEfree)
          (Or.inr ⟨'\n' :: jsTrimEnd (H.take (genFirstElementIdx H)), rfl⟩)
      · rw [List.append_assoc, List.getLast?_append, List.getLast?_append, hce]
        rfl
      · rw [jsIncludes_iff_inf, List.append_assoc]
        exact (List.prefix_append LinkL _).isInfix
    · exact ⟨hLfree, ⟨']', hLlast, by decide⟩,
        (jsIncludes_iff_inf _ _).mpr (List.infix_refl LinkL)⟩

theorem gen_eval_header (H name : Str) (A : JsMap) (hd : '$' ∉ name) :
    generateCueContent DEFAULT_SETTINGS.linkToSourceText H name A
      = collapseNewlines (jsTrimEnd
          ((genHeaderChoiceT (str "[[" ++ name ++ str "|⬅️ Back to Source]]") H
              ++ str "\n\n")
            ++ (if 0 < A.length then renderDefBlock A else [])
            ++ (if 0 < A.length then str "\n\n```cornell-footnote-links\n```\n"
                else []))
        ++ ['\n']) := by
  unfold generateCueContent
  dsimp only
  rw [linkToSource_default name hd]
  have hne := genHeaderChoiceT_ne_nil
    (str "[[" ++ name ++ str "|⬅️ Back to Source]]") H (by
      intro hnil
      exact absurd (List.append_eq_nil.mp hnil).2 (by decide))
  have hemp : (genHeaderChoiceT
      (str "[[" ++ name ++ str "|⬅️ Back to Source]]") H).isEmpty = false := by
    cases hx : genHeaderChoiceT
        (str "[[" ++ name ++ str "|⬅️ Back to Source]]") H with
    | nil => exact absurd hx hne
    | cons a t => rfl
  rw [if_pos (by rw [hemp]; rfl)]

theorem gen_tail_eq (X : Str) (A : JsMap) (ce : Char)
    (hlast : X.getLast? = some ce) (hws : isJsWs ce = false) :
    collapseNewlines (jsTrimEnd ((X ++ str "\n\n")
        ++ (if 0 < A.length then renderDefBlock A else [])
        ++ (if 0 < A.length then str "\n\n```cornell-footnote-links\n```\n"
            else []))
      ++ ['\n'])
      = collapseNewlines X ++
        (if 0 < A.length then
          collapseNewlines (str "\n\n"
            ++ ((renderDefBlock A
              ++ jsTrimEnd (str "\n\n```cornell-footnote-links\n```\n"))
              ++ ['\n']))
         else ['\n']) := by
  have hcenl : ¬(ce = '\n') := by
    intro hh
    rw [hh] at hws
    cases hws
  by_cases hA : 0 < A.length
  · rw [if_pos hA, if_pos hA, if_pos hA]
    rw [jsTrimEnd_append_keep _ _ (by decide)]
    rw [show (X ++ str "\n\n") ++ renderDefBlock A
        ++ jsTrimEnd (str "\n\n```cornell-footnote-links\n```\n")
        = X ++ (str "\n\n" ++ (renderDefBlock A
          ++ jsTrimEnd (str "\n\n```cornell-footnote-links\n```\n")))
      from by simp [List.append_assoc]]
    rw [List.append_assoc]
    rw [collapse_append_last X.length X _ ce (le_refl _) hlast hcenl]
    rw [show str "\n\n" ++ (renderDefBlock A
        ++ jsTrimEnd (str "\n\n```cornell-footnote-links\n```\n")) ++ ['\n']
        = str "\n\n" ++ ((renderDefBlock A
          ++ jsTrimEnd (str "\n\n```cornell-footnote-links\n```\n")) ++ ['\n'])
      from by simp [List.append_assoc]]
  · rw [if_neg hA, if_neg hA, if_neg hA]
    rw [List.append_nil, List.append_nil]
    rw [jsTrimEnd_append_allws _ _ (by decide)]
    rw [jsTrimEnd_eq_self_of_getLast X ce hlast hws]
    rw [collapse_append_last X.length X _ ce (le_refl _) hlast hcenl]
    rfl

/-- On content of the form `header ++ generated tail`, the header
extraction of `generateCueContent` returns exactly the header. -/
theorem genHeaderChoiceT_of_appended (LinkL Hc T : Str) (ce : Char)
    (hfree : defFreeCb Hc) (hlast : Hc.getLast? = some ce)
    (hws : isJsWs ce = false)
    (hinc : jsIncludes Hc LinkL = true)
    (hT : T = ['\n'] ∨ (∃ V, T = '\n' :: '\n' :: V ∧ genDefLineAt V = true)) :
    genHeaderChoiceT LinkL (Hc ++ T) = Hc := by
  have hXh : T = [] ∨ ∃ Y, T = '\n' :: Y := by
    rcases hT with rfl | ⟨V, rfl, _⟩
    · exact Or.inr ⟨[], rfl⟩
    · exact Or.inr ⟨'\n' :: V, rfl⟩
  have hstrict := noTriggerBefore Hc T hfree ce hlast hws hXh
  have hbelow : ∀ y, y ≤ Hc.length →
      (lineStartAt (Hc ++ T) y && genDefLineAt ((Hc ++ T).drop y)) = false ∧
      (lineStartAt (Hc ++ T) y && cbLineAt ((Hc ++ T).drop y)) = false := by
    intro y hy
    cases hls : lineStartAt (Hc ++ T) y with
    | false => exact ⟨rfl, rfl⟩
    | true =>
      have h2 := hstrict y hy hls
      exact ⟨by rw [h2.1]; rfl, by rw [h2.2]; rfl⟩
  have hidx : genFirstElementIdx (Hc ++ T) = Hc.length + 1 ∧
      T.take 1 = ['\n'] := by
    rcases hT with rfl | ⟨V, hTV, hV⟩
    · have hDnone : firstDefIdx (Hc ++ ['\n']) = none := by
        unfold firstDefIdx
        rw [List.find?_eq_none]
        intro y hy
        rw [List.mem_range] at hy
        simp only [Bool.not_eq_true]
        by_cases hyl : y ≤ Hc.length
        · exact (hbelow y hyl).1
        · rw [List.drop_eq_nil_of_le (by simp; omega),
            show genDefLineAt ([] : Str) = false from rfl, Bool.and_false]
      have hCnone : firstCbIdx (Hc ++ ['\n']) = none := by
        unfold firstCbIdx
        rw [List.find?_eq_none]
        intro y hy
        rw [List.mem_range] at hy
        simp only [Bool.not_eq_true]
        by_cases hyl : y ≤ Hc.length
        · exact (hbelow y hyl).2
        · rw [List.drop_eq_nil_of_le (by simp; omega),
            show cbLineAt ([] : Str) = false from rfl, Bool.and_false]
      refine ⟨?_, rfl⟩
      unfold genFirstElementIdx
      rw [hDnone, hCnone]
      dsimp only
      simp
    · subst hTV
      have hlsT : lineStartAt (Hc ++ '\n' :: '\n' :: V) (Hc.length + 1)
          = true := by
        rw [lineStartAt_append_right _ _ 1 (le_refl 1)]
        rfl
      have hgdT : genDefLineAt ((Hc ++ '\n' :: '\n' :: V).drop (Hc.length + 1))
          = true := by
        rw [drop_append_add Hc _ 1,
          show ('\n' :: '\n' :: V : Str).drop 1 = '\n' :: V from rfl,
          show ('\n' :: V : Str) = ['\n'] ++ V from rfl,
          genDefLineAt_ws_pre _ _ (by decide)]
        exact hV
      have hpredT : (lineStartAt (Hc ++ '\n' :: '\n' :: V) (Hc.length + 1) &&
          genDefLineAt ((Hc ++ '\n' :: '\n' :: V).drop (Hc.length + 1)))
          = true := by
        rw [hlsT, hgdT]
        rfl
      have hDsome : firstDefIdx (Hc ++ '\n' :: '\n' :: V)
          = some (Hc.length + 1) := by
        cases hfd : firstDefIdx (Hc ++ '\n' :: '\n' :: V) with
        | none =>
          have hfalse := range_find?_none _ _ hfd (Hc.length + 1)
            (by simp)
          rw [hpredT] at hfalse
          cases hfalse
        | some x =>
          obtain ⟨hx1, hx2, hx3⟩ := range_find?_some _ _ _ hfd
          have hxge : ¬ x < Hc.length + 1 := by
            intro hlt
            have hfalse := (hbelow x (by omega)).1
            rw [hfalse] at hx1
            cases hx1
          have hxle : x ≤ Hc.length + 1 := by
            by_contra hgt
            push_neg at hgt
            have hfalse := hx3 (Hc.length + 1) hgt
            rw [hpredT] at hfalse
            cases hfalse
          have hxeq : x = Hc.length + 1 := by omega
          rw [hxeq]
      have hCge : ∀ j, firstCbIdx (Hc ++ '\n' :: '\n' :: V) = some j →
          ¬ j < Hc.length + 1 := by
        intro j hfc hlt
        obtain ⟨hj1, _, _⟩ := range_find?_some _ _ _ hfc
        have hfalse := (hbelow j (by omega)).2
        rw [hfalse] at hj1
        cases hj1
      refine ⟨?_, rfl⟩
      unfold genFirstElementIdx
      rw [hDsome]
      dsimp only
      cases hfc : firstCbIdx (Hc ++ '\n' :: '\n' :: V) with
      | none => rfl
      | some j =>
        dsimp only
        rw [if_neg (hCge j hfc)]
  have htake : (Hc ++ T).take (genFirstElementIdx (Hc ++ T))
      = Hc ++ ['\n'] := by
    rw [hidx.1, List.take_append 1, hidx.2]
  unfold genHeaderChoiceT
  dsimp only
  rw [htake, jsTrimEnd_append_allws _ _ (by decide),
    jsTrimEnd_eq_self_of_getLast Hc ce hlast hws, if_pos hinc]

/-- Idempotence of `generateCueContent` (default template) for source
note names without `$` or line terminators and footnote maps whose refs
are non-empty and line-terminator-free. -/
theorem gen_idem_master (H name : Str) (A : JsMap)
    (hd : '$' ∉ name) (hlt : ∀ ch ∈ name, isLineTerm ch = false)
    (hwf : ∀ kv ∈ A, kv.1 ≠ [] ∧ ∀ ch ∈ kv.1, isLineTerm ch = false) :
    generateCueContent DEFAULT_SETTINGS.linkToSourceText
        (generateCueContent DEFAULT_SETTINGS.linkToSourceText H name A) name A
      = generateCueContent DEFAULT_SETTINGS.linkToSourceText H name A := by
  have hLlast := linkL_getLast name
  have hLfree := defFreeCb_linkL name hlt
  have hLlt := linkL_lineterm_free name hlt
  have hLne : (str "[[" ++ name ++ str "|⬅️ Back to Source]]") ≠ [] := by
    intro hnil
    rw [hnil] at hLlast
    cases hLlast
  have hLnlf : ∀ ch ∈ str "[[" ++ name ++ str "|⬅️ Back to Source]]",
      ¬ ch = '\n' := by
    intro ch hch heq
    have h2 := hLlt ch hch
    rw [heq] at h2
    exact absurd h2 (by decide)
  obtain ⟨hfree, ⟨ce, hlast, hws⟩, hinc⟩ :=
    genHeaderChoiceT_facts (str "[[" ++ name ++ str "|⬅️ Back to Source]]") H
      hLfree hLlast hLlt
  set G := genHeaderChoiceT (str "[[" ++ name ++ str "|⬅️ Back to Source]]") H
    with hG
  have hcfree : defFreeCb (collapseNewlines G) :=
    defFreeCb_collapseNewlines G hfree
  have hclast : (collapseNewlines G).getLast? = some ce := by
    rw [collapse_getLast G.length G (le_refl _)]
    exact hlast
  have hcinc : jsIncludes (collapseNewlines G)
      (str "[[" ++ name ++ str "|⬅️ Back to Source]]") = true := by
    rw [jsIncludes_iff_inf]
    exact infix_nlfree_collapse G.length G _ (le_refl _) hLne hLnlf
      ((jsIncludes_iff_inf _ _).mp hinc)
  rw [gen_eval_header H name A hd]
  rw [gen_tail_eq G A ce hlast hws]
  by_cases hA : 0 < A.length
  · rw [if_pos hA]
    obtain ⟨r1, b1, w, hmem, hshape⟩ := renderDefBlock_shape A
      (by intro hnil; rw [hnil] at hA; simp at hA)
    obtain ⟨hr1ne, hr1lt⟩ := hwf _ hmem
    have hZhead : ((renderDefBlock A
        ++ jsTrimEnd (str "\n\n```cornell-footnote-links\n```\n"))
        ++ ['\n']).head? ≠ some '\n' := by
      rw [hshape]
      simp only [List.cons_append, List.head?_cons]
      simp
    have hTeq : collapseNewlines (str "\n\n"
        ++ ((renderDefBlock A
          ++ jsTrimEnd (str "\n\n```cornell-footnote-links\n```\n")) ++ ['\n']))
        = '\n' :: '\n' :: collapseNewlines
            ((renderDefBlock A
              ++ jsTrimEnd (str "\n\n```cornell-footnote-links\n```\n"))
              ++ ['\n']) := by
      rw [show (str "\n\n"
          ++ ((renderDefBlock A
            ++ jsTrimEnd (str "\n\n```cornell-footnote-links\n```\n"))
            ++ ['\n']))
          = List.replicate 2 '\n'
            ++ ((renderDefBlock A
              ++ jsTrimEnd (str "\n\n```cornell-footnote-links\n```\n"))
              ++ ['\n']) from rfl]
      rw [collapseNewlines_run 2 _ (by omega) hZhead]
      rw [if_neg (by omega)]
      rfl
    have hPfree : ∀ ch ∈ ('[' :: '^' :: (r1 ++ ([']', ':'] : Str))),
        ¬ ch = '\n' := by
      intro ch hch heq
      subst heq
      rcases List.mem_cons.mp hch with h1 | h2
      · exact absurd h1 (by decide)
      · rcases List.mem_cons.mp h2 with h3 | h4
        · exact absurd h3 (by decide)
        · rcases List.mem_append.mp h4 with h5 | h6
          · exact absurd (hr1lt '\n' h5) (by decide)
          · have hcc : ∀ x ∈ ([']', ':'] : Str), ¬ x = '\n' := by decide
            exact hcc '\n' h6 rfl
    have hVgd : genDefLineAt (collapseNewlines
        ((renderDefBlock A
          ++ jsTrimEnd (str "\n\n```cornell-footnote-links\n```\n"))
          ++ ['\n'])) = true := by
      rw [hshape]
      rw [show (('[' :: '^' :: (r1 ++ ']' :: ':' :: w))
          ++ jsTrimEnd (str "\n\n```cornell-footnote-links\n```\n")) ++ ['\n']
          = ('[' :: '^' :: (r1 ++ ([']', ':'] : Str)))
            ++ (w ++ (jsTrimEnd (str "\n\n```cornell-footnote-links\n```\n")
              ++ ['\n'])) from by
        simp [List.append_assoc]]
      rw [collapse_nlfree_append _ _ hPfree]
      rw [show ('[' :: '^' :: (r1 ++ ([']', ':'] : Str)))
          ++ collapseNewlines (w
            ++ (jsTrimEnd (str "\n\n```cornell-footnote-links\n```\n")
              ++ ['\n']))
          = '[' :: '^' :: (r1 ++ ']' :: ':' :: collapseNewlines (w
            ++ (jsTrimEnd (str "\n\n```cornell-footnote-links\n```\n")
              ++ ['\n']))) from by
        simp [List.append_assoc]]
      exact genDefLineAt_brformat r1 _ hr1ne hr1lt
    rw [gen_eval_header _ name A hd]
    rw [genHeaderChoiceT_of_appended
      (str "[[" ++ name ++ str "|⬅️ Back to Source]]") (collapseNewlines G)
      (collapseNewlines (str "\n\n"
        ++ ((renderDefBlock A
          ++ jsTrimEnd (str "\n\n```cornell-footnote-links\n```\n"))
          ++ ['\n'])))
      ce hcfree hclast hws hcinc (Or.inr ⟨_, hTeq, hVgd⟩)]
    rw [gen_tail_eq (collapseNewlines G) A ce hclast hws]
    rw [if_pos hA]
    rw [collapse_idem]
  · rw [if_neg hA]
    rw [gen_eval_header _ name A hd]
    rw [genHeaderChoiceT_of_appended
      (str "[[" ++ name ++ str "|⬅️ Back to Source]]") (collapseNewlines G)
      ['\n'] ce hcfree hclast hws hcinc (Or.inl rfl)]
    rw [gen_tail_eq (collapseNewlines G) A ce hclast hws]
    rw [if_neg hA]
    rw [collapse_idem]

/-! # Claims -/

/-- **C9.** Newline normalization of generated output: for every input
to `generateCueContent` and to `updateSourceNoteContentRebuild`, the
returned string contains no run of three or more consecutive newline
characters, and it ends with exactly one trailing newline with no other
whitespace before it (the character preceding the final newline, when
present, is not whitespace — in particular not a newline). -/
theorem newline_normalization (sourceContent : Str)
    (footnotesFromCue : JsMap) (deleteReferences moveToEnd : Bool)
    (linkToSourceText currentContent sourceBasename : Str)
    (footnotes : JsMap) :
    (¬ ((['\n', '\n', '\n'] : Str) <:+:
        updateSourceNoteContentRebuild sourceContent footnotesFromCue
          deleteReferences moveToEnd) ∧
      (updateSourceNoteContentRebuild sourceContent footnotesFromCue
          deleteReferences moveToEnd).getLast? = some '\n' ∧
      ∀ c, ((updateSourceNoteContentRebuild sourceContent footnotesFromCue
          deleteReferences moveToEnd).dropLast).getLast? = some c →
        isJsWs c = false) ∧
    (¬ ((['\n', '\n', '\n'] : Str) <:+:
        generateCueContent linkToSourceText currentContent sourceBasename
          footnotes) ∧
      (generateCueContent linkToSourceText currentContent sourceBasename
          footnotes).getLast? = some '\n' ∧
      ∀ c, ((generateCueContent linkToSourceText currentContent
          sourceBasename footnotes).dropLast).getLast? = some c →
        isJsWs c = false) := by
  constructor
  · refine ⟨?_, (collapse_trim_shape _).2.1, (collapse_trim_shape _).2.2⟩
    intro hinf
    have h1 : hasTripleNL (updateSourceNoteContentRebuild sourceContent
        footnotesFromCue deleteReferences moveToEnd) = true :=
      (hasTripleNL_iff_inf _).mpr hinf
    have h2 : hasTripleNL (updateSourceNoteContentRebuild sourceContent
        footnotesFromCue deleteReferences moveToEnd) = false :=
      (collapse_trim_shape _).1
    rw [h1] at h2
    cases h2
  · refine ⟨?_, (collapse_trim_shape _).2.1, (collapse_trim_shape _).2.2⟩
    intro hinf
    have h1 : hasTripleNL (generateCueContent linkToSourceText
        currentContent sourceBasename footnotes) = true :=
      (hasTripleNL_iff_inf _).mpr hinf
    have h2 : hasTripleNL (generateCueContent linkToSourceText
        currentContent sourceBasename footnotes) = false :=
      (collapse_trim_shape _).1
    rw [h1] at h2
    cases h2

/-- **C10.** Derived-path generation round-trips with role
classification: for every source file with a well-formed basename and
parent folder path, the path returned by `getCueNotePath` satisfies
`isCueNote`, the path returned by `getSummaryNotePath` satisfies
`isSummaryNote`, and each generated path is the source's folder joined
with the source's basename plus the fixed suffix (`-cue.md` /
`-summary.md`). -/
theorem derived_path_roundtrip (basename folderPath : Str)
    (hn : wfName basename = true)
    (hf : folderPath = str "/" ∨ folderPath = [] ∨ wfFolder folderPath
      = true) :
    isCueNote (getCueNotePath basename folderPath) = true ∧
    isSummaryNote (getSummaryNotePath basename folderPath) = true ∧
    getCueNotePath basename folderPath =
      (if folderPath = str "/" || folderPath = [] then ([] : Str)
       else folderPath ++ ['/']) ++ basename ++ (cueNoteSuffix ++ str ".md") ∧
    getSummaryNotePath basename folderPath =
      (if folderPath = str "/" || folderPath = [] then ([] : Str)
       else folderPath ++ ['/']) ++ basename ++
        (summaryNoteSuffix ++ str ".md") := by
  have hcue_all : (cueNoteSuffix ++ str ".md").all pathCharOk = true := by
    decide
  have hcue_last : ∃ s0, cueNoteSuffix ++ str ".md" = s0 ++ ['d'] :=
    ⟨str "-cue.m", by decide⟩
  have hsum_all : (summaryNoteSuffix ++ str ".md").all pathCharOk = true := by
    decide
  have hsum_last : ∃ s0, summaryNoteSuffix ++ str ".md" = s0 ++ ['d'] :=
    ⟨str "-summary.m", by decide⟩
  have ecup : getCueNotePath basename folderPath =
      (if folderPath = str "/" || folderPath = [] then
        basename ++ (cueNoteSuffix ++ str ".md")
       else folderPath ++ '/' :: (basename ++ (cueNoteSuffix ++ str ".md")))
      := by
    unfold getCueNotePath
    rw [show basename ++ cueNoteSuffix ++ str ".md"
        = basename ++ (cueNoteSuffix ++ str ".md") from by simp]
    exact derivedPath_spec basename folderPath _ hn hf hcue_all hcue_last
  have esum : getSummaryNotePath basename folderPath =
      (if folderPath = str "/" || folderPath = [] then
        basename ++ (summaryNoteSuffix ++ str ".md")
       else folderPath ++ '/' ::
        (basename ++ (summaryNoteSuffix ++ str ".md"))) := by
    unfold getSummaryNotePath
    rw [show basename ++ summaryNoteSuffix ++ str ".md"
        = basename ++ (summaryNoteSuffix ++ str ".md") from by simp]
    exact derivedPath_spec basename folderPath _ hn hf hsum_all hsum_last
  refine ⟨?_, ?_, ?_, ?_⟩
  · rw [ecup]
    unfold isCueNote
    rw [if_neg (by
      simp only [List.isEmpty_iff]
      exact derivedPath_ne_nil basename folderPath _ hn)]
    rw [derivedPath_spec basename folderPath _ hn hf hcue_all hcue_last]
    exact derivedPath_endsWith basename folderPath _
  · rw [esum]
    unfold isSummaryNote
    rw [if_neg (by
      simp only [List.isEmpty_iff]
      exact derivedPath_ne_nil basename folderPath _ hn)]
    rw [derivedPath_spec basename folderPath _ hn hf hsum_all hsum_last]
    exact derivedPath_endsWith basename folderPath _
  · rw [ecup]
    by_cases hroot : folderPath = str "/" || folderPath = []
    · rw [if_pos hroot, if_pos hroot]
      simp
    · rw [if_neg hroot, if_neg hroot]
      simp
  · rw [esum]
    by_cases hroot : folderPath = str "/" || folderPath = []
    · rw [if_pos hroot, if_pos hroot]
      simp
    · rw [if_neg hroot, if_neg hroot]
      simp

/-- Witness for **C10** at a concrete input: basename `Note` in the
nested folder `dir/sub`. -/
theorem derived_path_roundtrip_witness :
    isCueNote (getCueNotePath (str "Note") (str "dir/sub")) = true ∧
    isSummaryNote (getSummaryNotePath (str "Note") (str "dir/sub")) = true ∧
    getCueNotePath (str "Note") (str "dir/sub") =
      (if str "dir/sub" = str "/" || str "dir/sub" = [] then ([] : Str)
       else str "dir/sub" ++ ['/']) ++ str "Note" ++
        (cueNoteSuffix ++ str ".md") ∧
    getSummaryNotePath (str "Note") (str "dir/sub") =
      (if str "dir/sub" = str "/" || str "dir/sub" = [] then ([] : Str)
       else str "dir/sub" ++ ['/']) ++ str "Note" ++
        (summaryNoteSuffix ++ str ".md") :=
  derived_path_roundtrip (str "Note") (str "dir/sub") (by decide)
    (Or.inr (Or.inr (by decide)))

/-- **C7.** The `moveFootnotesToEnd` flag does not affect the result of
`updateSourceNoteContentRebuild`: both branches append the regenerated
definition block at the end, so the outputs for `moveToEnd = true` and
`moveToEnd = false` are equal for every Source content, Cue annotation
map and `deleteReferences` setting. -/
theorem rebuild_moveToEnd_irrelevant (sourceContent : Str)
    (footnotesFromCue : JsMap) (deleteReferences : Bool) :
    updateSourceNoteContentRebuild sourceContent footnotesFromCue
        deleteReferences true =
      updateSourceNoteContentRebuild sourceContent footnotesFromCue
        deleteReferences false := by
  unfold updateSourceNoteContentRebuild
  simp

/-- **C8.** The re-entrancy guard is always released and no failure
escapes: for both sync passes, whatever the outcome of each fallible
step (normal completion, counterpart not found, or an exception in the
body), no exception escapes to the caller, and whenever the pass runs
with the flag initially clear (the only case in which it sets the
flag), the flag is clear again when the pass finishes. -/
theorem sync_guard_released (i0 d cf : Bool) (r ns ws : TsStep)
    (i0' c' nf' : Bool) (r' b' : TsStep) :
    (syncSourceToCueFlow i0 d r cf ns ws).escaped = false ∧
    (i0 = false → (syncSourceToCueFlow i0 d r cf ns ws).isSyncing = false) ∧
    (syncCueToSourceFlow i0' c' r' nf' b').escaped = false ∧
    (i0' = false →
      (syncCueToSourceFlow i0' c' r' nf' b').isSyncing = false) := by
  unfold syncSourceToCueFlow syncCueToSourceFlow
  cases i0 <;> cases d <;> cases r <;> cases cf <;> cases ns <;> cases ws <;>
    cases i0' <;> cases c' <;> cases r' <;> cases nf' <;> cases b' <;> simp

/-- Witness for **C8** at a concrete input: a pass that sets the flag
and whose body throws still ends with the flag clear and nothing
escaping. -/
theorem sync_guard_released_witness :
    (syncSourceToCueFlow false false .throws true .ok .ok).escaped = false ∧
    ((false : Bool) = false →
      (syncSourceToCueFlow false false .throws true .ok .ok).isSyncing
        = false) ∧
    (syncCueToSourceFlow false true .ok false .ok).escaped = false ∧
    ((false : Bool) = false →
      (syncCueToSourceFlow false true .ok false .ok).isSyncing = false) :=
  sync_guard_released false false true .throws .ok .ok false true false
    .ok .ok

/-! ### C4: duplicate definitions resolve last-wins -/

/-- The keys of a map, in insertion order. -/
def mapKeys (m : JsMap) : List Str := m.map (fun kv => kv.1)

theorem mapKeys_nil : mapKeys [] = [] := rfl

theorem mapKeys_cons (kv : Str × Str) (m : JsMap) :
    mapKeys (kv :: m) = kv.1 :: mapKeys m := rfl

theorem jsMapGet_set (m : JsMap) (k v k' : Str) :
    jsMapGet (jsMapSet m k v) k' =
      if k = k' then some v else jsMapGet m k' := by
  induction m with
  | nil =>
    by_cases h : k = k' <;> simp [jsMapSet, jsMapGet, h]
  | cons kv rest ih =>
    obtain ⟨k0, v0⟩ := kv
    by_cases h0 : k0 = k
    · subst h0
      simp only [jsMapSet, if_pos rfl, jsMapGet]
      by_cases h : k0 = k' <;> simp [h]
    · simp only [jsMapSet, if_neg h0, jsMapGet]
      by_cases h : k0 = k'
      · subst h
        have hk : ¬(k = k0) := fun hh => h0 hh.symm
        simp [hk]
      · simp [h, ih]

theorem jsMapHas_iff_mem (m : JsMap) (k : Str) :
    jsMapHas m k = true ↔ k ∈ mapKeys m := by
  induction m with
  | nil => simp [jsMapHas, mapKeys_nil]
  | cons kv rest ih =>
    simp only [jsMapHas, mapKeys_cons, List.mem_cons, Bool.or_eq_true,
      decide_eq_true_eq, ih]
    constructor
    · rintro (h | h)
      · exact Or.inl h.symm
      · exact Or.inr h
    · rintro (h | h)
      · exact Or.inl h.symm
      · exact Or.inr h

theorem mapKeys_set (m : JsMap) (k v : Str) :
    mapKeys (jsMapSet m k v) =
      if jsMapHas m k then mapKeys m else mapKeys m ++ [k] := by
  induction m with
  | nil => simp [jsMapSet, jsMapHas, mapKeys]
  | cons kv rest ih =>
    obtain ⟨k0, v0⟩ := kv
    by_cases h0 : k0 = k
    · subst h0
      simp [jsMapSet, jsMapHas, mapKeys_cons]
    · have hhas : jsMapHas ((k0, v0) :: rest) k = jsMapHas rest k := by
        simp [jsMapHas, h0]
      rw [hhas]
      simp only [jsMapSet, if_neg h0, mapKeys_cons, ih]
      by_cases hh : jsMapHas rest k <;> simp [hh]

theorem mapKeys_set_nodup (m : JsMap) (k v : Str)
    (h : (mapKeys m).Nodup) : (mapKeys (jsMapSet m k v)).Nodup := by
  rw [mapKeys_set]
  split
  · exact h
  · next hh =>
    rw [List.nodup_append]
    refine ⟨h, List.nodup_singleton k, ?_⟩
    intro a ha hb
    simp only [List.mem_singleton] at hb
    subst hb
    exact hh ((jsMapHas_iff_mem m a).mpr ha)

theorem foldl_set_nodup (l : List (Str × Str)) (m0 : JsMap)
    (h : (mapKeys m0).Nodup) :
    (mapKeys (l.foldl (fun acc kv => jsMapSet acc kv.1 kv.2) m0)).Nodup := by
  induction l generalizing m0 with
  | nil => exact h
  | cons kv rest ih => exact ih _ (mapKeys_set_nodup _ _ _ h)

/-- Folding `jsMapSet` over entries: a key's value is the value of its
last occurrence (or its value in the initial map). -/
theorem foldl_set_get (l : List (Str × Str)) (m0 : JsMap) (k : Str) :
    jsMapGet (l.foldl (fun acc kv => jsMapSet acc kv.1 kv.2) m0) k =
      match (l.filter (fun kv => kv.1 = k)).getLast? with
      | some kv => some kv.2
      | none => jsMapGet m0 k := by
  induction l generalizing m0 with
  | nil => simp
  | cons kv rest ih =>
    obtain ⟨k0, v0⟩ := kv
    rw [List.foldl_cons, ih]
    by_cases h0 : k0 = k
    · subst h0
      rw [List.filter_cons_of_pos (by simp), getLast?_cons_eq]
      cases h : (rest.filter (fun kv => kv.1 = k0)).getLast? <;>
        simp [h, jsMapGet_set]
    · rw [List.filter_cons_of_neg (by simp [h0])]
      cases h : (rest.filter (fun kv => kv.1 = k)).getLast? <;>
        simp [h, jsMapGet_set, h0]

theorem defMatchAt_refRaw_ne_nil (t : Str) (m : Str × Str × Str)
    (h : defMatchAt t = some m) : m.2.1 ≠ [] := by
  unfold defMatchAt at h
  split at h
  · next t2 heq =>
    split at h
    · next t4 heq2 =>
      dsimp only at h
      split at h
      · exact absurd h (by simp)
      · next hne =>
        rw [Option.some_inj] at h
        subst h
        simpa [List.isEmpty_iff] using hne
    · exact absurd h (by simp)
  · exact absurd h (by simp)

theorem scanDefsGo_refRaw_ne_nil (fuel : Nat) (prev : Option Char)
    (pos : Nat) (t : Str) :
    ∀ m ∈ scanDefsGo fuel prev pos t, m.refRaw ≠ [] := by
  induction fuel generalizing prev pos t with
  | zero => intro m hm; simp only [scanDefsGo] at hm; exact absurd hm (by simp)
  | succ fuel ih =>
    intro m hm
    simp only [scanDefsGo] at hm
    split at hm
    · next mm heq =>
      simp only [List.mem_cons] at hm
      rcases hm with hm | hm
      · subst hm
        split at heq
        · exact defMatchAt_refRaw_ne_nil _ _ heq
        · exact absurd heq (by simp)
      · exact ih _ _ _ _ hm
    · split at hm
      · simp at hm
      · exact ih _ _ _ _ hm

theorem foldl_guarded_set (l : List DefMatch) (acc : JsMap)
    (h : ∀ m ∈ l, m.refRaw ≠ []) :
    l.foldl (fun acc m =>
        if m.refRaw.isEmpty then acc else jsMapSet acc m.ref m.definition)
      acc =
    l.foldl (fun acc m => jsMapSet acc m.ref m.definition) acc := by
  induction l generalizing acc with
  | nil => rfl
  | cons m rest ih =>
    have hm : m.refRaw ≠ [] := h m (by simp)
    simp only [List.foldl_cons]
    rw [show (if m.refRaw.isEmpty then acc
        else jsMapSet acc m.ref m.definition)
        = jsMapSet acc m.ref m.definition from by
      simp [List.isEmpty_iff, hm]]
    exact ih _ (fun x hx => h x (by simp [hx]))

/-- With no empty raw group in sight (which the scanner guarantees),
`parseFootnotesSimple` is the plain fold of `jsMapSet`. -/
theorem parseFootnotesSimple_eq_fold (content : Str) :
    parseFootnotesSimple content =
      ((scanDefs content).map (fun m => (m.ref, m.definition))).foldl
        (fun acc kv => jsMapSet acc kv.1 kv.2) [] := by
  have h : ∀ m ∈ scanDefs content, m.refRaw ≠ [] :=
    scanDefsGo_refRaw_ne_nil _ _ _ _
  unfold parseFootnotesSimple
  rw [List.foldl_map, foldl_guarded_set (scanDefs content) [] h]

/-- **C4.** Duplicate definitions resolve last-wins: for every input
text, the ref keys of the map returned by `parseFootnotesSimple` are
unique, and the value stored for any ref is the body of the *last*
definition with that ref (after trimming) in document order — in
particular, when two definition lines share a ref the map holds exactly
one entry for it, carrying the later body. -/
theorem duplicate_defs_last_wins (content : Str) :
    (mapKeys (parseFootnotesSimple content)).Nodup ∧
    ∀ r, jsMapGet (parseFootnotesSimple content) r =
      (((parseSourceContent content).1.filter
          (fun d => d.ref = r)).getLast?).map (fun d => d.definition) := by
  constructor
  · rw [parseFootnotesSimple_eq_fold]
    exact foldl_set_nodup _ _ (by simp [mapKeys_nil])
  · intro r
    rw [parseFootnotesSimple_eq_fold, foldl_set_get]
    have e1 : ((scanDefs content).map
          (fun m => (m.ref, m.definition))).filter (fun kv => kv.1 = r)
        = ((scanDefs content).filter (fun m => m.ref = r)).map
            (fun m => (m.ref, m.definition)) := by
      rw [List.filter_map]
      rfl
    have e2 : (parseSourceContent content).1.filter (fun d => d.ref = r)
        = ((scanDefs content).filter (fun m => m.ref = r)).map
            (fun m =>
              ({ ref := m.ref, definition := m.definition, start := m.start,
                 «end» := m.stop, fullMatch := m.fullMatch }
                : ParsedDefinition)) := by
      show ((scanDefs content).map _).filter _ = _
      rw [List.filter_map]
      rfl
    rw [e1, e2, List.getLast?_map, List.getLast?_map]
    cases ((scanDefs content).filter (fun m => m.ref = r)).getLast? <;>
      simp [jsMapGet]

/-- **C5** (refutation of the claimed behaviour, recorded as a code
bug): the parsers do *not* skip a definition whose ref is empty after
trimming.  On the failing input `"[^ ]: body"` both
`parseFootnotesSimple` and `parseSourceContent` produce an entry whose
ref is the empty string — the guard `if (match[2])` tests the raw
(pre-trim) group, which the regex guarantees non-empty, so it never
fires, contradicting the intended "empty ref is skipped" behaviour. -/
theorem parsers_keep_whitespace_only_ref :
    parseFootnotesSimple (str "[^ ]: body") = [([], str "body")] ∧
    (parseSourceContent (str "[^ ]: body")).1.map
        (fun d => d.ref) = [[]] := by
  constructor <;> rfl

/-! ## Rebuilding a de-duplicated map -/

theorem mapKeys_append (a b : JsMap) :
    mapKeys (a ++ b) = mapKeys a ++ mapKeys b := by
  rw [mapKeys, mapKeys, mapKeys, List.map_append]

theorem jsMapSet_append_of_not_mem (k v : Str) : ∀ acc : JsMap,
    ¬ jsMapHas acc k = true → jsMapSet acc k v = acc ++ [(k, v)] := by
  intro acc
  induction acc with
  | nil => intro _; rfl
  | cons kv rest ih =>
    intro h
    obtain ⟨k0, v0⟩ := kv
    rw [jsMapSet]
    rw [if_neg (fun heq => h (by simp only [jsMapHas]; rw [heq]; simp))]
    rw [List.cons_append,
      ih (fun hh => h (by simp only [jsMapHas]; rw [hh]; simp))]

theorem foldl_set_app : ∀ (l acc : JsMap),
    (mapKeys (acc ++ l)).Nodup →
    l.foldl (fun a kv => jsMapSet a kv.1 kv.2) acc = acc ++ l := by
  intro l
  induction l with
  | nil =>
    intro acc _
    simp
  | cons kv t ih =>
    intro acc h
    rw [List.foldl_cons]
    have hnotmem : ¬ jsMapHas acc kv.1 = true := by
      rw [jsMapHas_iff_mem]
      intro hmem
      rw [mapKeys_append, List.nodup_append] at h
      obtain ⟨_, _, hdisj⟩ := h
      exact hdisj hmem (by rw [mapKeys_cons]; exact List.mem_cons_self _ _)
    rw [jsMapSet_append_of_not_mem kv.1 kv.2 acc hnotmem]
    rw [ih (acc ++ [(kv.1, kv.2)]) (by rw [List.append_assoc]; exact h)]
    simp

theorem foldl_set_rebuild (m : JsMap) (h : (mapKeys m).Nodup) :
    m.foldl (fun acc kv => jsMapSet acc kv.1 kv.2) [] = m := by
  have h2 := foldl_set_app m [] (by simpa using h)
  simpa using h2

/-- Evaluation of the forward data path with orphan-definition pruning
disabled: the final Cue footnotes are exactly the Source's parsed
definitions keyed by (trimmed) ref. -/
theorem forwardSyncCompute_eval (sourceContent cueContent name : Str) :
    forwardSyncCompute false DEFAULT_SETTINGS.linkToSourceText sourceContent
        cueContent name
      = (jsMapFromEntries (((parseSourceContent sourceContent).1).map
            (fun d => (d.ref, d.definition))),
         generateCueContent DEFAULT_SETTINGS.linkToSourceText cueContent name
           (jsMapFromEntries (((parseSourceContent sourceContent).1).map
             (fun d => (d.ref, d.definition))))) := by
  unfold forwardSyncCompute
  dsimp only
  rw [if_neg (by decide)]
  rw [foldl_set_rebuild (jsMapFromEntries
      (((parseSourceContent sourceContent).1).map
        (fun d => (d.ref, d.definition))))
    (foldl_set_nodup _ [] List.nodup_nil)]

/-! ## Claims C3 and C1 -/

/-- **C3** (amended).  Cue-content generation with the default back-link
template is idempotent provided the source note name contains no `$` and
no line terminator, and every ref of the annotation set is non-empty and
line-terminator-free: generating a second time from the first
generation's output returns the same string.  (Without these provisos
the claim is false: see the counterexample.) -/
theorem cue_generation_idempotent (H name : Str) (A : JsMap)
    (hd : '$' ∉ name) (hlt : ∀ ch ∈ name, isLineTerm ch = false)
    (hwf : ∀ kv ∈ A, kv.1 ≠ [] ∧ ∀ ch ∈ kv.1, isLineTerm ch = false) :
    generateCueContent DEFAULT_SETTINGS.linkToSourceText
        (generateCueContent DEFAULT_SETTINGS.linkToSourceText H name A) name A
      = generateCueContent DEFAULT_SETTINGS.linkToSourceText H name A :=
  gen_idem_master H name A hd hlt hwf

theorem cue_generation_idempotent_witness :
    (('$' ∉ str "Note") ∧ (∀ ch ∈ str "Note", isLineTerm ch = false) ∧
      (∀ kv ∈ ([(str "a", str "b")] : JsMap),
        kv.1 ≠ [] ∧ ∀ ch ∈ kv.1, isLineTerm ch = false)) ∧
    generateCueContent DEFAULT_SETTINGS.linkToSourceText
        (generateCueContent DEFAULT_SETTINGS.linkToSourceText (str "x")
          (str "Note") [(str "a", str "b")])
        (str "Note") [(str "a", str "b")]
      = generateCueContent DEFAULT_SETTINGS.linkToSourceText (str "x")
          (str "Note") [(str "a", str "b")] :=
  ⟨⟨by decide, by decide, by decide⟩,
   cue_generation_idempotent (str "x") (str "Note") [(str "a", str "b")]
     (by decide) (by decide) (by decide)⟩

/-- **C3** (counterexample to the unconditional claim).  With the
annotation set `{"" ↦ "hello"}` — which the parsers do produce, e.g.
from `"[^ ]: hello"` — generation is not idempotent: the second pass
re-matches the rendered `[^]: hello` line as a definition line, cuts the
header there, and emits a different document. -/
theorem cue_generation_not_idempotent_cex :
    generateCueContent DEFAULT_SETTINGS.linkToSourceText
        (generateCueContent DEFAULT_SETTINGS.linkToSourceText []
          (str "Note") [([], str "hello")])
        (str "Note") [([], str "hello")]
      ≠ generateCueContent DEFAULT_SETTINGS.linkToSourceText []
          (str "Note") [([], str "hello")] := by decide

/-- **C1** (amended).  Forward sync with
`deleteDefinitionsOnReferenceDelete` disabled fully replaces the Cue's
definitions: the map passed to the generator is exactly the Source's
parsed definitions keyed by ref (Cue-only definitions dropped, shared
refs overwritten, new refs added); and — provided the source note name
has no `$` and no line terminator and every parsed Source ref is
non-empty and line-terminator-free — an immediate second forward sync
generates content equal to the Cue content just written, so the
`currentContent !== newContent` write gate does not fire.  (Without the
provisos the second write can fire: see the counterexample.) -/
theorem forward_sync_full_replace (sourceContent cueContent name : Str)
    (hd : '$' ∉ name) (hlt : ∀ ch ∈ name, isLineTerm ch = false)
    (hwf : ∀ kv ∈ jsMapFromEntries
        (((parseSourceContent sourceContent).1).map
          (fun d => (d.ref, d.definition))),
      kv.1 ≠ [] ∧ ∀ ch ∈ kv.1, isLineTerm ch = false) :
    (forwardSyncCompute false DEFAULT_SETTINGS.linkToSourceText sourceContent
        cueContent name).1
      = jsMapFromEntries (((parseSourceContent sourceContent).1).map
          (fun d => (d.ref, d.definition))) ∧
    forwardSyncWrites false DEFAULT_SETTINGS.linkToSourceText sourceContent
      ((forwardSyncCompute false DEFAULT_SETTINGS.linkToSourceText
        sourceContent cueContent name).2) name = false := by
  constructor
  · rw [forwardSyncCompute_eval]
  · have hkey : (forwardSyncCompute false DEFAULT_SETTINGS.linkToSourceText
        sourceContent
        ((forwardSyncCompute false DEFAULT_SETTINGS.linkToSourceText
          sourceContent cueContent name).2) name).2
      = (forwardSyncCompute false DEFAULT_SETTINGS.linkToSourceText
          sourceContent cueContent name).2 := by
      rw [forwardSyncCompute_eval sourceContent cueContent name]
      dsimp only
      rw [forwardSyncCompute_eval sourceContent _ name]
      dsimp only
      exact gen_idem_master cueContent name _ hd hlt hwf
    unfold forwardSyncWrites
    rw [hkey]
    simp

theorem forward_sync_full_replace_witness :
    (('$' ∉ str "Note") ∧ (∀ ch ∈ str "Note", isLineTerm ch = false) ∧
      (∀ kv ∈ jsMapFromEntries
          (((parseSourceContent (str "See[^a].\n\n[^a]: A")).1).map
            (fun d => (d.ref, d.definition))),
        kv.1 ≠ [] ∧ ∀ ch ∈ kv.1, isLineTerm ch = false)) ∧
    ((forwardSyncCompute false DEFAULT_SETTINGS.linkToSourceText
        (str "See[^a].\n\n[^a]: A") [] (str "Note")).1
      = jsMapFromEntries
          (((parseSourceContent (str "See[^a].\n\n[^a]: A")).1).map
            (fun d => (d.ref, d.definition))) ∧
     forwardSyncWrites false DEFAULT_SETTINGS.linkToSourceText
       (str "See[^a].\n\n[^a]: A")
       ((forwardSyncCompute false DEFAULT_SETTINGS.linkToSourceText
         (str "See[^a].\n\n[^a]: A") [] (str "Note")).2) (str "Note")
       = false) :=
  ⟨⟨by decide, by decide, by decide⟩,
   forward_sync_full_replace (str "See[^a].\n\n[^a]: A") [] (str "Note")
     (by decide) (by decide) (by decide)⟩

/-- **C1** (counterexample to the unconditional claim).  For the Source
`"[^ ]: hello"` the first forward sync writes a Cue note from which a
second, immediate forward sync generates different content, so the
second sync performs a write. -/
theorem forward_sync_second_write_cex :
    forwardSyncWrites false DEFAULT_SETTINGS.linkToSourceText
        (str "[^ ]: hello")
        ((forwardSyncCompute false DEFAULT_SETTINGS.linkToSourceText
          (str "[^ ]: hello") [] (str "Note")).2)
        (str "Note") = true := by decide

/-! ## Absence of references in generated documents

The reference regex `\[\^([^\]]+?)\](?!:)` can only match where `[^`
occurs; `StrongSafe` says every such occurrence is immediately followed
by a `]`-free run and then `]:`, on which the lazy group is forced to
stop at the `]` and the negative lookahead rejects the match. -/

/-- Does the reference regex match at the very start of `t`? -/
def refStep : Str → Bool
  | '[' :: '^' :: t2 =>
    (match t2.dropWhile (fun d => d ≠ ']') with
     | ']' :: t4 =>
       !((t2.takeWhile (fun d => d ≠ ']')).isEmpty || t4.head? = some ':')
     | _ => false)
  | _ => false

/-- Every occurrence of `[^` in `s` is followed by a `]`-free run and
then `]:` — such occurrences never produce a reference match, whatever
follows. -/
def StrongSafe (s : Str) : Prop :=
  ∀ p t2, s.drop p = '[' :: '^' :: t2 →
    ∃ r t4, t2 = r ++ ']' :: ':' :: t4 ∧ ']' ∉ r

theorem refStep_not_br (t : Str) (h : ∀ t2, t ≠ '[' :: '^' :: t2) :
    refStep t = false := by
  rw [refStep.eq_def]
  split
  · next t2 => exact absurd rfl (h t2)
  · rfl

theorem refStep_safe_form (t2 r t4 : Str)
    (hform : t2 = r ++ ']' :: ':' :: t4) (hr : ']' ∉ r) :
    refStep ('[' :: '^' :: t2) = false := by
  have hrdw : r.dropWhile (fun d => d ≠ ']') = [] := by
    rw [List.dropWhile_eq_nil_iff]
    intro x hx
    have hxne : x ≠ ']' := fun hxe => hr (hxe ▸ hx)
    simpa using hxne
  have hdw : t2.dropWhile (fun d => d ≠ ']') = ']' :: ':' :: t4 := by
    rw [hform, dropWhile_append_allP _ _ _ hrdw]
    rw [List.dropWhile_cons, if_neg (by simp)]
  have hred : refStep ('[' :: '^' :: t2)
      = (match t2.dropWhile (fun d => d ≠ ']') with
         | ']' :: t4 =>
           !((t2.takeWhile (fun d => d ≠ ']')).isEmpty ||
             t4.head? = some ':')
         | _ => false) := rfl
  rw [hred, hdw]
  simp

theorem scanRefsGo_nil (fuel : Nat) : ∀ (pos : Nat) (t : Str),
    (∀ p, refStep (t.drop p) = false) → scanRefsGo fuel pos t = [] := by
  induction fuel with
  | zero =>
    intro pos t _
    rfl
  | succ fuel ih =>
    intro pos t h
    rw [scanRefsGo.eq_def]
    dsimp only
    split
    · rfl
    · next t2 =>
      have hshift : ∀ p, refStep (('^' :: t2).drop p) = false := by
        intro p
        match p with
        | 0 =>
          exact refStep_not_br _ (by intro t2' h'; simp at h')
        | q + 1 =>
          exact h (q + 2)
      split
      · next t4 heq2 =>
        have h0 := h 0
        rw [List.drop_zero] at h0
        have hred0 : refStep ('[' :: '^' :: t2)
            = (match t2.dropWhile (fun d => d ≠ ']') with
               | ']' :: t4 =>
                 !((t2.takeWhile (fun d => d ≠ ']')).isEmpty ||
                   t4.head? = some ':')
               | _ => false) := rfl
        rw [hred0, heq2] at h0
        have hmatch : (match (']' :: t4 : Str) with
            | ']' :: t4' =>
              !((t2.takeWhile (fun d => d ≠ ']')).isEmpty ||
                t4'.head? = some ':')
            | _ => false)
            = !((t2.takeWhile (fun d => d ≠ ']')).isEmpty ||
                t4.head? = some ':') := rfl
        rw [hmatch] at h0
        have hcond : ((t2.takeWhile (fun d => d ≠ ']')).isEmpty ||
            t4.head? = some ':') = true := by
          cases hcx : ((t2.takeWhile (fun d => d ≠ ']')).isEmpty ||
              t4.head? = some ':') with
          | true => rfl
          | false =>
            rw [hcx] at h0
            cases h0
        rw [if_pos hcond]
        exact ih _ _ hshift
      · exact ih _ _ hshift
    · next c rest =>
      exact ih _ _ (fun p => h (p + 1))


theorem scanRefs_nil_of_strongSafe (s : Str) (hs : StrongSafe s) :
    scanRefs s = [] := by
  apply scanRefsGo_nil
  intro p
  cases hsh : s.drop p with
  | nil => exact refStep_not_br _ (by intro t2 h2; cases h2)
  | cons c rest =>
    by_cases hc : ∃ t2, c :: rest = '[' :: '^' :: t2
    · obtain ⟨t2, ht2⟩ := hc
      obtain ⟨r, t4, hform, hr⟩ := hs p t2 (by rw [hsh, ht2])
      rw [ht2]
      exact refStep_safe_form t2 r t4 hform hr
    · push_neg at hc
      exact refStep_not_br _ hc

theorem pair_infix_of_drop (x : Str) (p : Nat) (a b : Char) (t2 : Str)
    (h : x.drop p = a :: b :: t2) : [a, b] <:+: x := by
  refine ⟨x.take p, t2, ?_⟩
  rw [show x.take p ++ [a, b] ++ t2 = x.take p ++ (a :: b :: t2) from by simp]
  rw [← h, List.take_append_drop]

theorem strongSafe_of_no_pair (x : Str)
    (h : ¬ (['[', '^'] : Str) <:+: x) : StrongSafe x := by
  intro p t2 hdrop
  exact absurd (pair_infix_of_drop x p _ _ _ hdrop) h

theorem no_pair_of_no_caret (x : Str) (h : '^' ∉ x) :
    ¬ (['[', '^'] : Str) <:+: x := by
  intro ⟨u, v, huv⟩
  apply h
  rw [← huv]
  simp

theorem strongSafe_cons (c : Char) (z : Str) (hz : StrongSafe z)
    (hc : ¬(c = '[' ∧ z.head? = some '^')) : StrongSafe (c :: z) := by
  intro p t2 hdrop
  match p, hdrop with
  | 0, hdrop =>
    have hc1 : c = '[' := by simpa using congrArg List.head? hdrop
    have hz1 : z = '^' :: t2 := by simpa using congrArg List.tail hdrop
    exact absurd ⟨hc1, by rw [hz1]; rfl⟩ hc
  | q + 1, hdrop =>
    exact hz q t2 hdrop

theorem strongSafe_append (x y : Str) (hx : StrongSafe x) (hy : StrongSafe y)
    (hb : ¬(x.getLast? = some '[' ∧ y.head? = some '^')) :
    StrongSafe (x ++ y) := by
  intro p t2 hdrop
  by_cases hpx : p + 2 ≤ x.length
  · obtain ⟨c1, c2, w, hxw⟩ : ∃ c1 c2 w, x.drop p = c1 :: c2 :: w := by
      match hx1 : x.drop p,
          (show 2 ≤ (x.drop p).length by rw [List.length_drop]; omega) with
      | c1 :: c2 :: w, _ => exact ⟨c1, c2, w, rfl⟩
      | [], hlen => simp at hlen
      | [c1], hlen => simp at hlen
    rw [List.drop_append_of_le_length (by omega), hxw] at hdrop
    have hc1 : c1 = '[' := by simpa using congrArg List.head? hdrop
    have hrest : c2 :: (w ++ y) = '^' :: t2 := by
      simpa using congrArg List.tail hdrop
    have hc2 : c2 = '^' := by simpa using congrArg List.head? hrest
    have ht2 : w ++ y = t2 := by simpa using congrArg List.tail hrest
    obtain ⟨r, t4, hform, hr⟩ := hx p w (by rw [hxw, hc1, hc2])
    exact ⟨r, t4 ++ y, by rw [← ht2, hform]; simp, hr⟩
  · by_cases hpx2 : p ≤ x.length
    · rw [List.drop_append_of_le_length hpx2] at hdrop
      cases hx1 : x.drop p with
      | nil =>
        rw [hx1, List.nil_append] at hdrop
        exact hy 0 t2 (by rw [List.drop_zero]; exact hdrop)
      | cons c1 rest =>
        have hrnil : rest = [] := by
          have hl := congrArg List.length hx1
          rw [List.length_drop] at hl
          simp at hl
          have : rest.length = 0 := by omega
          exact List.length_eq_zero.mp this
        subst hrnil
        rw [hx1] at hdrop
        have hc1 : c1 = '[' := by simpa using congrArg List.head? hdrop
        have hy1 : y = '^' :: t2 := by simpa using congrArg List.tail hdrop
        exfalso
        apply hb
        constructor
        · have hplt : p < x.length := by
            have hl := congrArg List.length hx1
            rw [List.length_drop] at hl
            simp at hl
            omega
          rw [← getLast?_drop_eq x p hplt, hx1, hc1]
          rfl
        · rw [hy1]
          rfl
    · push_neg at hpx2
      obtain ⟨j, hje⟩ : ∃ j, p = x.length + j := ⟨p - x.length, by omega⟩
      subst hje
      rw [drop_append_add] at hdrop
      exact hy j t2 hdrop

theorem pair_infix_append_cases (a b : Char) : ∀ (x y : Str),
    [a, b] <:+: (x ++ y) →
    [a, b] <:+: x ∨ [a, b] <:+: y ∨
      (x.getLast? = some a ∧ y.head? = some b) := by
  intro x
  induction x with
  | nil =>
    intro y h
    exact Or.inr (Or.inl (by simpa using h))
  | cons c x' ih =>
    intro y h
    obtain ⟨u, v, huv⟩ := h
    cases u with
    | nil =>
      rw [List.nil_append] at huv
      have hac : a = c := by simpa using congrArg List.head? huv
      have hrest : b :: v = x' ++ y := by simpa using congrArg List.tail huv
      cases x' with
      | nil =>
        rw [List.nil_append] at hrest
        exact Or.inr (Or.inr ⟨by rw [hac]; rfl, by rw [← hrest]; rfl⟩)
      | cons d x'' =>
        have hbd : b = d := by simpa using congrArg List.head? hrest
        exact Or.inl ⟨[], x'', by rw [hac, hbd]; rfl⟩
    | cons u0 u' =>
      have hrest : u' ++ [a, b] ++ v = x' ++ y := by
        simpa using congrArg List.tail huv
      rcases ih y ⟨u', v, hrest⟩ with h1 | h2 | h3
      · exact Or.inl (List.infix_cons h1)
      · exact Or.inr (Or.inl h2)
      · refine Or.inr (Or.inr ⟨?_, h3.2⟩)
        rw [getLast?_cons_eq]
        rw [h3.1]

theorem pair_infix_collapse (n : Nat) : ∀ (s : Str) (a b : Char),
    s.length ≤ n → ¬(a = '\n') → ¬(b = '\n') →
    [a, b] <:+: collapseNewlines s → [a, b] <:+: s := by
  induction n with
  | zero =>
    intro s a b h _ _ hinf
    have hs : s = [] := List.length_eq_zero.mp (Nat.le_zero.mp h)
    subst hs
    exact hinf
  | succ n ih =>
    intro s a b h ha hb hinf
    match s with
    | [] => exact hinf
    | c :: rest =>
      by_cases hc : c = '\n'
      · obtain ⟨k, rest2, hk, hrest2, hdec⟩ :=
          nl_run_decomp (c :: rest) (by simp [hc])
        have hlen2 : rest2.length ≤ n := by
          have := congrArg List.length hdec
          simp only [List.length_cons, List.length_append,
            List.length_replicate] at this
          simp only [List.length_cons] at h
          omega
        rw [hdec, collapseNewlines_run k rest2 hk hrest2] at hinf
        set k' := if 3 ≤ k then 2 else k with hk'
        have hinf2 : [a, b] <:+: collapseNewlines rest2 := by
          rcases pair_infix_append_cases a b
            (if 3 ≤ k then ['\n', '\n'] else List.replicate k '\n')
            (collapseNewlines rest2) hinf with h1 | h2 | h3
          · exfalso
            obtain ⟨u, v, huv⟩ := h1
            apply ha
            have hmem : a ∈ (if 3 ≤ k then (['\n', '\n'] : Str)
                else List.replicate k '\n') := by
              rw [← huv]
              simp
            by_cases h3k : 3 ≤ k
            · rw [if_pos h3k] at hmem
              simp at hmem
              exact hmem
            · rw [if_neg h3k] at hmem
              exact List.eq_of_mem_replicate hmem
          · exact h2
          · exfalso
            apply ha
            have h31 := h3.1
            by_cases h3k : 3 ≤ k
            · rw [if_pos h3k] at h31
              have h9 : ('\n' : Char) = a := by simpa using h31
              exact h9.symm
            · rw [if_neg h3k] at h31
              rw [getLast?_replicate_nl k hk] at h31
              have h9 : ('\n' : Char) = a := by simpa using h31
              exact h9.symm
        have := ih rest2 a b hlen2 ha hb hinf2
        rw [hdec]
        exact this.trans (List.suffix_append _ _).isInfix
      · rw [collapseNewlines_cons_ne c rest hc] at hinf
        rcases pair_infix_append_cases a b [c] (collapseNewlines rest)
          (by simpa using hinf) with h1 | h2 | h3
        · exfalso
          obtain ⟨u, v, huv⟩ := h1
          have := congrArg List.length huv
          simp at this
          omega
        · exact List.infix_cons (ih rest a b
            (by simp only [List.length_cons] at h; omega) ha hb h2)
        · -- a = c and collapse rest starts with b
          have hac : a = c := by
            have h9 : c = a := by simpa using h3.1
            exact h9.symm
          have hbhead := h3.2
          -- rest's head must be b as well
          cases hr : rest with
          | nil =>
            rw [hr, collapseNewlines_nil] at hbhead
            cases hbhead
          | cons r0 t0 =>
            by_cases hr0 : r0 = '\n'
            · exfalso
              apply hb
              have := collapse_head_nl rest (by rw [hr, hr0]; rfl)
              rw [this] at hbhead
              simpa using hbhead.symm
            · rw [hr, collapseNewlines_cons_ne r0 t0 hr0] at hbhead
              have hbr0 : b = r0 := by simpa using hbhead.symm
              exact ⟨[], t0, by rw [hac, hbr0]; rfl⟩

theorem hasTriple_nlfree_append (x y : Str) :
    (∀ ch ∈ x, ¬ ch = '\n') → hasTripleNL y = false →
    hasTripleNL (x ++ y) = false := by
  induction x with
  | nil =>
    intro _ hy
    simpa using hy
  | cons c t ih =>
    intro hx hy
    rw [List.cons_append]
    exact hasTriple_cons_ne c _ (hx c (List.mem_cons_self _ _))
      (ih (fun ch hch => hx ch (List.mem_cons_of_mem _ hch)) hy)

theorem intercalate_lines_noTriple : ∀ (ls : List Str) (tail : Str),
    (∀ l ∈ ls, (∀ ch ∈ l, ¬ ch = '\n') ∧ l.head? = some '[') →
    hasTripleNL tail = false →
    hasTripleNL (strIntercalate (str "\n\n") ls ++ tail) = false := by
  intro ls
  induction ls with
  | nil =>
    intro tail _ ht
    simpa using ht
  | cons l rest ih =>
    intro tail hl ht
    cases rest with
    | nil =>
      rw [show strIntercalate (str "\n\n") [l] = l from rfl]
      exact hasTriple_nlfree_append l tail (hl l (List.mem_cons_self _ _)).1 ht
    | cons l2 rest2 =>
      rw [show strIntercalate (str "\n\n") (l :: l2 :: rest2)
          = l ++ str "\n\n" ++ strIntercalate (str "\n\n") (l2 :: rest2)
          from rfl]
      rw [List.append_assoc, List.append_assoc]
      apply hasTriple_nlfree_append l _ (hl l (List.mem_cons_self _ _)).1
      rw [show (str "\n\n" : Str)
          ++ (strIntercalate (str "\n\n") (l2 :: rest2) ++ tail)
          = List.replicate 2 '\n'
            ++ (strIntercalate (str "\n\n") (l2 :: rest2) ++ tail) from rfl]
      apply hasTriple_reps 2 _ (by omega)
      · obtain ⟨r0, hr0⟩ := strIntercalate_cons_ex (str "\n\n") l2 rest2
        rw [hr0]
        have hl2 := (hl l2 (List.mem_cons_of_mem _ (List.mem_cons_self _ _))).2
        cases hx : l2 with
        | nil =>
          rw [hx] at hl2
          cases hl2
        | cons a t =>
          rw [hx] at hl2
          have hab : a = '[' := by simpa using hl2
          rw [List.cons_append, List.cons_append, hab]
          simp
      · exact ih tail (fun l' hl' => hl l' (List.mem_cons_of_mem _ hl')) ht

theorem strongSafe_brline (r z : Str) (hrbr : '[' ∉ r) (hrsq : ']' ∉ r)
    (hz : StrongSafe z) :
    StrongSafe ('[' :: '^' :: (r ++ ']' :: ':' :: z)) := by
  intro p t2 hdrop
  match p, hdrop with
  | 0, hdrop =>
    have ht2 : t2 = r ++ ']' :: ':' :: z := by
      have h2 := congrArg List.tail (congrArg List.tail hdrop)
      simpa using h2.symm
    exact ⟨r, z, ht2, hrsq⟩
  | 1, hdrop =>
    exact absurd (show ('^' : Char) = '[' by
      simpa using congrArg List.head? hdrop) (by decide)
  | q + 2, hdrop =>
    by_cases hq : q < r.length
    · exfalso
      apply hrbr
      have hh : (r ++ ']' :: ':' :: z).get? q = some '[' := by
        rw [List.get?_eq_getElem?]
        rw [← List.head?_drop]
        rw [show (r ++ ']' :: ':' :: z).drop q
          = ('[' :: '^' :: (r ++ ']' :: ':' :: z)).drop (q + 2) from rfl]
        rw [hdrop]
        rfl
      rw [List.get?_append hq] at hh
      exact List.get?_mem hh
    · push_neg at hq
      obtain ⟨j, hje⟩ : ∃ j, q = r.length + j := ⟨q - r.length, by omega⟩
      subst hje
      have hdrop2 : (']' :: ':' :: z).drop j = '[' :: '^' :: t2 := by
        rw [← drop_append_add r (']' :: ':' :: z) j]
        exact hdrop
      match j, hdrop2 with
      | 0, hdrop2 =>
        exact absurd (show (']' : Char) = '[' by
          simpa using congrArg List.head? hdrop2) (by decide)
      | 1, hdrop2 =>
        exact absurd (show (':' : Char) = '[' by
          simpa using congrArg List.head? hdrop2) (by decide)
      | j + 2, hdrop2 =>
        exact hz j t2 hdrop2

theorem strongSafe_lines : ∀ (entries : JsMap) (tail : Str),
    (∀ kv ∈ entries, '[' ∉ kv.1 ∧ ']' ∉ kv.1 ∧
      ¬ (['[', '^'] : Str) <:+: kv.2) →
    StrongSafe tail → tail.head? ≠ some '^' →
    StrongSafe (strIntercalate (str "\n\n")
      (entries.map (fun kv => str "[^" ++ kv.1 ++ str "]: " ++ kv.2))
      ++ tail) := by
  intro entries
  induction entries with
  | nil =>
    intro tail _ hst _
    simpa using hst
  | cons kv rest ih =>
    intro tail hents hst hsh
    obtain ⟨hbr, hsq, hbp⟩ := hents kv (List.mem_cons_self _ _)
    cases rest with
    | nil =>
      rw [List.map_cons, List.map_nil,
        show strIntercalate (str "\n\n")
          [str "[^" ++ kv.1 ++ str "]: " ++ kv.2]
          = str "[^" ++ kv.1 ++ str "]: " ++ kv.2 from rfl]
      rw [show (str "[^" ++ kv.1 ++ str "]: " ++ kv.2) ++ tail
          = '[' :: '^' :: (kv.1 ++ ']' :: ':' :: (' ' :: (kv.2 ++ tail)))
          from by simp only [List.append_assoc, List.cons_append]; rfl]
      apply strongSafe_brline kv.1 _ hbr hsq
      apply strongSafe_cons
      · apply strongSafe_append kv.2 tail (strongSafe_of_no_pair _ hbp) hst
        intro hpr
        exact hsh hpr.2
      · intro hpr
        exact absurd hpr.1 (by decide)
    | cons kv2 rest2 =>
      rw [List.map_cons]
      rw [show strIntercalate (str "\n\n")
          ((str "[^" ++ kv.1 ++ str "]: " ++ kv.2)
            :: (kv2 :: rest2).map
              (fun kv => str "[^" ++ kv.1 ++ str "]: " ++ kv.2))
          = (str "[^" ++ kv.1 ++ str "]: " ++ kv.2) ++ str "\n\n"
            ++ strIntercalate (str "\n\n")
              ((kv2 :: rest2).map
                (fun kv => str "[^" ++ kv.1 ++ str "]: " ++ kv.2))
          from rfl]
      rw [show ((str "[^" ++ kv.1 ++ str "]: " ++ kv.2) ++ str "\n\n"
            ++ strIntercalate (str "\n\n")
              ((kv2 :: rest2).map
                (fun kv => str "[^" ++ kv.1 ++ str "]: " ++ kv.2)))
            ++ tail
          = '[' :: '^' :: (kv.1 ++ ']' :: ':' :: (' ' :: (kv.2
              ++ ('\n' :: '\n' :: (strIntercalate (str "\n\n")
                ((kv2 :: rest2).map
                  (fun kv => str "[^" ++ kv.1 ++ str "]: " ++ kv.2))
                ++ tail)))))
          from by simp only [List.append_assoc, List.cons_append]; rfl]
      apply strongSafe_brline kv.1 _ hbr hsq
      apply strongSafe_cons
      · apply strongSafe_append kv.2 _ (strongSafe_of_no_pair _ hbp)
        · apply strongSafe_cons
          · apply strongSafe_cons
            · exact ih tail
                (fun kv' h' => hents kv' (List.mem_cons_of_mem _ h')) hst hsh
            · intro hpr
              exact absurd hpr.1 (by decide)
          · intro hpr
            exact absurd hpr.1 (by decide)
        · intro hpr
          exact absurd (show ('\n' : Char) = '^' by simpa using hpr.2)
            (by decide)
      · intro hpr
        exact absurd hpr.1 (by decide)

/-- The generated Cue document contains no reference match, provided
the current header content has none, the source name has no `$`, `^` or
line terminator, and the annotation entries have `[`-, `]`- and
newline-free refs and reference-free, newline-free bodies. -/
theorem gen_no_refs_master (H name : Str) (A : JsMap)
    (hd : '$' ∉ name) (hcar : '^' ∉ name)
    (hlt : ∀ ch ∈ name, isLineTerm ch = false)
    (hH : ¬ (['[', '^'] : Str) <:+: H)
    (hwf : ∀ kv ∈ A, '[' ∉ kv.1 ∧ ']' ∉ kv.1 ∧
      (∀ ch ∈ kv.1, ¬ ch = '\n') ∧ ¬ (['[', '^'] : Str) <:+: kv.2 ∧
      (∀ ch ∈ kv.2, ¬ ch = '\n')) :
    scanRefs (generateCueContent DEFAULT_SETTINGS.linkToSourceText H name A)
      = [] := by
  have hLlast := linkL_getLast name
  have hLfree := defFreeCb_linkL name hlt
  have hLlt := linkL_lineterm_free name hlt
  obtain ⟨hfree, ⟨ce, hlast, hws⟩, hinc⟩ :=
    genHeaderChoiceT_facts (str "[[" ++ name ++ str "|⬅️ Back to Source]]") H
      hLfree hLlast hLlt
  set G := genHeaderChoiceT (str "[[" ++ name ++ str "|⬅️ Back to Source]]") H
    with hG
  rw [gen_eval_header H name A hd, gen_tail_eq G A ce hlast hws]
  apply scanRefs_nil_of_strongSafe
  have hsafeG : StrongSafe (collapseNewlines G) := by
    apply strongSafe_of_no_pair
    intro hpair
    have hpairG : (['[', '^'] : Str) <:+: G :=
      pair_infix_collapse G.length G '[' '^' (le_refl _) (by decide)
        (by decide) hpair
    have hLnp : ¬ (['[', '^'] : Str) <:+:
        (str "[[" ++ name ++ str "|⬅️ Back to Source]]") := by
      apply no_pair_of_no_caret
      intro hmem
      rcases List.mem_append.mp hmem with h1 | h2
      · rcases List.mem_append.mp h1 with h3 | h4
        · exact absurd h3 (by decide)
        · exact hcar h4
      · exact absurd h2 (by decide)
    have hEnp : ¬ (['[', '^'] : Str) <:+:
        jsTrimEnd (H.take (genFirstElementIdx H)) := by
      intro hp
      apply hH
      exact hp.trans
        ((jsTrimEnd_pre _).trans (List.take_prefix _ _)).isInfix
    rw [hG] at hpairG
    unfold genHeaderChoiceT at hpairG
    dsimp only at hpairG
    split at hpairG
    · exact hEnp hpairG
    · split at hpairG
      · rcases pair_infix_append_cases '[' '^' _ _ hpairG with h1 | h2 | h3
        · rcases pair_infix_append_cases '[' '^' _ _ h1 with h4 | h5 | h6
          · exact hLnp h4
          · exact no_pair_of_no_caret _ (by decide) h5
          · rw [hLlast] at h6
            exact absurd (show (']' : Char) = '[' by simpa using h6.1)
              (by decide)
        · exact hEnp h2
        · have h31 := h3.1
          rw [List.getLast?_append,
            show (str "\n\n" : Str).getLast? = some '\n' from rfl,
            Option.or_some] at h31
          exact absurd (show ('\n' : Char) = '[' by simpa using h31)
            (by decide)
      · exact hLnp hpairG
  by_cases hA : 0 < A.length
  · rw [if_pos hA]
    obtain ⟨r1, b1, w, hmem, hshape⟩ := renderDefBlock_shape A
      (by intro hnil; rw [hnil] at hA; simp at hA)
    have hlinesfacts : ∀ l ∈ (sortEntries A).map
        (fun kv => str "[^" ++ kv.1 ++ str "]: " ++ kv.2),
        (∀ ch ∈ l, ¬ ch = '\n') ∧ l.head? = some '[' := by
      intro l hl
      obtain ⟨kv, hkv, hleq⟩ := List.mem_map.mp hl
      obtain ⟨_, _, hr1nl, _, hb1nl⟩ := hwf kv (mem_sortEntries A kv hkv)
      constructor
      · intro ch hch heq
        subst heq
        rw [← hleq] at hch
        rcases List.mem_append.mp hch with h1 | h2
        · rcases List.mem_append.mp h1 with h3 | h4
          · rcases List.mem_append.mp h3 with h5 | h6
            · exact absurd h5 (by decide)
            · exact hr1nl '\n' h6 rfl
          · exact absurd h4 (by decide)
        · exact hb1nl '\n' h2 rfl
      · rw [← hleq]
        rfl
    have hfnsTriple : hasTripleNL (renderDefBlock A
        ++ (jsTrimEnd (str "\n\n```cornell-footnote-links\n```\n") ++ ['\n']))
        = false := by
      unfold renderDefBlock
      exact intercalate_lines_noTriple _ _ hlinesfacts (by decide)
    have htrip : hasTripleNL (str "\n\n"
        ++ ((renderDefBlock A
          ++ jsTrimEnd (str "\n\n```cornell-footnote-links\n```\n"))
          ++ ['\n'])) = false := by
      rw [show (str "\n\n" : Str)
          ++ ((renderDefBlock A
            ++ jsTrimEnd (str "\n\n```cornell-footnote-links\n```\n"))
            ++ ['\n'])
          = List.replicate 2 '\n' ++ (renderDefBlock A
            ++ (jsTrimEnd (str "\n\n```cornell-footnote-links\n```\n")
              ++ ['\n'])) from by
        simp only [List.append_assoc]
        rfl]
      apply hasTriple_reps 2 _ (by omega)
      · rw [hshape, List.cons_append, List.head?_cons]
        simp
      · exact hfnsTriple
    have hid : collapseNewlines (str "\n\n"
        ++ ((renderDefBlock A
          ++ jsTrimEnd (str "\n\n```cornell-footnote-links\n```\n"))
          ++ ['\n']))
        = str "\n\n" ++ ((renderDefBlock A
          ++ jsTrimEnd (str "\n\n```cornell-footnote-links\n```\n"))
          ++ ['\n']) :=
      collapse_eq_self_of_noTriple _ _ (le_refl _) htrip
    rw [hid]
    apply strongSafe_append _ _ hsafeG
    · rw [show (str "\n\n" : Str)
          ++ ((renderDefBlock A
            ++ jsTrimEnd (str "\n\n```cornell-footnote-links\n```\n"))
            ++ ['\n'])
          = '\n' :: '\n' :: (strIntercalate (str "\n\n")
              ((sortEntries A).map
                (fun kv => str "[^" ++ kv.1 ++ str "]: " ++ kv.2))
            ++ (jsTrimEnd (str "\n\n```cornell-footnote-links\n```\n")
              ++ ['\n'])) from by
        unfold renderDefBlock
        simp only [List.append_assoc, List.cons_append]
        rfl]
      apply strongSafe_cons
      · apply strongSafe_cons
        · apply strongSafe_lines (sortEntries A) _ ?hents ?hts ?hth
          case hents =>
            intro kv' hkv'
            obtain ⟨h1, h2, _, h4, _⟩ := hwf kv' (mem_sortEntries A kv' hkv')
            exact ⟨h1, h2, h4⟩
          case hts =>
            exact strongSafe_of_no_pair _ (no_pair_of_no_caret _ (by decide))
          case hth =>
            decide
        · intro hpr
          exact absurd hpr.1 (by decide)
      · intro hpr
        exact absurd hpr.1 (by decide)
    · intro hpr
      have h93 := hpr.2
      rw [show (str "\n\n" : Str)
          ++ ((renderDefBlock A
            ++ jsTrimEnd (str "\n\n```cornell-footnote-links\n```\n"))
            ++ ['\n'])
          = '\n' :: ('\n' :: ((renderDefBlock A
            ++ jsTrimEnd (str "\n\n```cornell-footnote-links\n```\n"))
            ++ ['\n'])) from rfl, List.head?_cons] at h93
      exact absurd (show ('\n' : Char) = '^' by simpa using h93) (by decide)
  · rw [if_neg hA]
    apply strongSafe_append _ _ hsafeG
    · exact strongSafe_of_no_pair _ (no_pair_of_no_caret _ (by decide))
    · intro hpr
      exact absurd (show ('\n' : Char) = '^' by simpa using hpr.2) (by decide)

/-- **C6** (amended).  Parsing the output of `generateCueContent` yields
no footnote references, provided: the current Cue content has no `[^`
occurrence, the source name has no `$`, `^` or line terminator, and the
annotation set's refs are `[`-, `]`- and newline-free with
reference-free, newline-free bodies.  (Unconditionally the claim is
false — a body or retained header holding `[^x]` text reappears verbatim
in the derived document: see the counterexample.) -/
theorem derived_doc_no_references (H name : Str) (A : JsMap)
    (hd : '$' ∉ name) (hcar : '^' ∉ name)
    (hlt : ∀ ch ∈ name, isLineTerm ch = false)
    (hH : ¬ (['[', '^'] : Str) <:+: H)
    (hwf : ∀ kv ∈ A, '[' ∉ kv.1 ∧ ']' ∉ kv.1 ∧
      (∀ ch ∈ kv.1, ¬ ch = '\n') ∧ ¬ (['[', '^'] : Str) <:+: kv.2 ∧
      (∀ ch ∈ kv.2, ¬ ch = '\n')) :
    (parseSourceContent (generateCueContent DEFAULT_SETTINGS.linkToSourceText
      H name A)).2 = [] := by
  unfold parseSourceContent
  dsimp only
  exact gen_no_refs_master H name A hd hcar hlt hH hwf

theorem derived_doc_no_references_witness :
    (('$' ∉ str "Note") ∧ ('^' ∉ str "Note") ∧
      (∀ ch ∈ str "Note", isLineTerm ch = false) ∧
      (¬ (['[', '^'] : Str) <:+: str "My header") ∧
      (∀ kv ∈ ([(str "a", str "b")] : JsMap), '[' ∉ kv.1 ∧ ']' ∉ kv.1 ∧
        (∀ ch ∈ kv.1, ¬ ch = '\n') ∧ ¬ (['[', '^'] : Str) <:+: kv.2 ∧
        (∀ ch ∈ kv.2, ¬ ch = '\n'))) ∧
    (parseSourceContent (generateCueContent DEFAULT_SETTINGS.linkToSourceText
      (str "My header") (str "Note") [(str "a", str "b")])).2 = [] :=
  ⟨⟨by decide, by decide, by decide, by decide, by decide⟩,
   derived_doc_no_references (str "My header") (str "Note")
     [(str "a", str "b")] (by decide) (by decide) (by decide) (by decide)
     (by decide)⟩

/-- **C6** (counterexample to the unconditional claim).  A definition
body holding reference text reappears verbatim in the generated Cue
note, which therefore parses with a (spurious) reference. -/
theorem derived_doc_reference_cex :
    (parseSourceContent (generateCueContent DEFAULT_SETTINGS.linkToSourceText
      [] (str "Note") [(str "a", str "see [^b]")])).2 ≠ [] := by decide

/-! ### C2: backward sync with orphan-reference deletion -/

/-- Modelled from the spec: a decomposition of a Source body into
literal chunks and inline reference tokens `[^r]`. -/
inductive BodySeg where
  | chunk (s : Str)
  | tok (r : Str)

/-- The text denoted by a segment list (`tok r` denotes `[^r]`). -/
def flattenSegs : List BodySeg → Str
  | [] => []
  | .chunk s :: rest => s ++ flattenSegs rest
  | .tok r :: rest => '[' :: '^' :: (r ++ ']' :: flattenSegs rest)

/-- Modelled from the spec: strip every inline reference citing a ref in
`refs`, keeping every other segment untouched. -/
def stripSegs (refs : List Str) : List BodySeg → Str
  | [] => []
  | .chunk s :: rest => s ++ stripSegs refs rest
  | .tok r :: rest =>
    if refs.contains r then stripSegs refs rest
    else '[' :: '^' :: (r ++ ']' :: stripSegs refs rest)

/-- Well-formedness of a decomposition: chunks hold no `[`, token refs
hold no `[` and no `]`, and no token is followed directly by `:` (which
would make it a definition marker, not an inline reference). -/
def wfSegs : List BodySeg → Bool
  | [] => true
  | .chunk s :: rest => !s.contains '[' && wfSegs rest
  | .tok r :: rest =>
    !r.contains '[' && !r.contains ']' &&
      ((flattenSegs rest).head? ≠ some ':') && wfSegs rest

/-- On text of the shape `ref ++ "]" ++ z`, the alternation
`(r1|r2|...)` of the orphan-reference regex matches exactly the listed
refs (for `]`-free alternatives and a lookahead-compatible tail). -/
theorem altMatch_form (r z : Str) (hr : ']' ∉ r) (hz : z.head? ≠ some ':') :
    ∀ (R : List Str), (∀ r1 ∈ R, ']' ∉ r1) →
      altMatch R (r ++ ']' :: z) = if R.contains r then some z else none := by
  intro R
  induction R with
  | nil => intro _; simp [altMatch]
  | cons a R2 ih =>
    intro hR
    have hR2 : ∀ r1 ∈ R2, ']' ∉ r1 :=
      fun r1 h1 => hR r1 (List.mem_cons_of_mem _ h1)
    have ha : ']' ∉ a := hR a (List.mem_cons_self _ _)
    rw [show altMatch (a :: R2) (r ++ ']' :: z)
        = (if a.isPrefixOf (r ++ ']' :: z) &&
            ((r ++ ']' :: z).drop a.length).head? = some ']' &&
            ((r ++ ']' :: z).drop (a.length + 1)).head? ≠ some ':' then
            some ((r ++ ']' :: z).drop (a.length + 1))
          else altMatch R2 (r ++ ']' :: z)) from rfl]
    by_cases har : a = r
    · subst har
      have h2 : (a ++ ']' :: z).drop a.length = ']' :: z := List.drop_left _ _
      have h3 : (a ++ ']' :: z).drop (a.length + 1) = z := by
        rw [← List.drop_drop, List.drop_left]; rfl
      have hpre : a.isPrefixOf (a ++ ']' :: z) = true := by
        rw [List.isPrefixOf_iff_prefix]; exact List.prefix_append _ _
      rw [if_pos (by simp [hpre, h2, h3, hz])]
      rw [h3, if_pos (by simp)]
    · rw [if_neg ?hneg]
      case hneg =>
        intro hc
        rw [Bool.and_eq_true, Bool.and_eq_true] at hc
        obtain ⟨⟨hpre, hnx⟩, _⟩ := hc
        rw [List.isPrefixOf_iff_prefix] at hpre
        rw [decide_eq_true_eq] at hnx
        rcases List.prefix_or_prefix_of_prefix hpre
            (List.prefix_append r (']' :: z)) with hab | hba
        · have hlt : a.length < r.length := by
            rcases lt_or_eq_of_le hab.length_le with h | h
            · exact h
            · exact absurd (hab.eq_of_length h) har
          rw [List.drop_append_of_le_length (le_of_lt hlt)] at hnx
          cases hd : r.drop a.length with
          | nil =>
            have : r.length - a.length = 0 := by
              rw [← List.length_drop, hd]; rfl
            omega
          | cons d t =>
            rw [hd] at hnx
            have hdj : d = ']' := by simpa using hnx
            refine hr ?_
            refine List.mem_of_mem_drop (n := a.length) ?_
            rw [hd, ← hdj]
            exact List.mem_cons_self _ _
        · obtain ⟨e, he⟩ := hba
          rw [← he, List.prefix_append_right_inj] at hpre
          cases e with
          | nil =>
            rw [List.append_nil] at he
            exact har he.symm
          | cons e0 e1 =>
            obtain ⟨w, hw⟩ := hpre
            have he0 : e0 = ']' := by
              have := congrArg List.head? hw
              simpa using this
            refine ha ?_
            rw [← he, he0]
            exact List.mem_append_right _ (List.mem_cons_self _ _)
      rw [ih hR2]
      have hcc : (a :: R2).contains r = R2.contains r := by
        simp only [List.contains_cons]
        have hfa : (r == a) = false := by
          rw [beq_eq_false_iff_ne]
          exact fun h => har h.symm
        rw [hfa, Bool.false_or]
      rw [hcc]

theorem stripRefsGo_cons_ne (f : Nat) (R : List Str) (c : Char) (rest : Str)
    (hc : ¬ c = '[') :
    stripRefsGo (f + 1) R (c :: rest) = c :: stripRefsGo f R rest := by
  rw [stripRefsGo.eq_def]
  dsimp only
  split
  · next heq => exact absurd heq (by simp)
  · next t2 heq =>
    exact absurd (by simpa using congrArg List.head? heq) hc
  · next hd tl hx heq =>
    rw [List.cons.injEq] at heq
    rw [heq.1, heq.2]

theorem stripRefsGo_br (f : Nat) (R : List Str) (t2 : Str) :
    stripRefsGo (f + 1) R ('[' :: '^' :: t2)
      = match altMatch R t2 with
        | some t4 => stripRefsGo f R t4
        | none => '[' :: stripRefsGo f R ('^' :: t2) := rfl

/-- A `[`-free prefix is copied verbatim by the reference strip. -/
theorem stripRefsGo_copy (R : List Str) (Z res : Str)
    (hres : ∀ f, Z.length < f → stripRefsGo f R Z = res) :
    ∀ (s : Str), '[' ∉ s → ∀ (fuel : Nat), s.length + Z.length < fuel →
      stripRefsGo fuel R (s ++ Z) = s ++ res := by
  intro s
  induction s with
  | nil =>
    intro _ fuel hlen
    rw [List.nil_append, List.nil_append]
    exact hres fuel (by simpa using hlen)
  | cons c s2 ih =>
    intro hbr fuel hlen
    have hc : ¬ c = '[' := fun h => hbr (h ▸ List.mem_cons_self _ _)
    obtain ⟨f, rfl⟩ : ∃ f, fuel = f + 1 := ⟨fuel - 1, by omega⟩
    rw [List.cons_append, stripRefsGo_cons_ne f R c (s2 ++ Z) hc]
    rw [ih (fun hx => hbr (List.mem_cons_of_mem _ hx)) f
      (by simp only [List.length_cons] at hlen; omega)]
    rfl

/-- On the text of a well-formed decomposition, the reference strip
removes exactly the listed tokens. -/
theorem stripRefsGo_segs (R : List Str) (hR : ∀ r1 ∈ R, ']' ∉ r1) :
    ∀ (segs : List BodySeg), wfSegs segs = true →
      ∀ (fuel : Nat), (flattenSegs segs).length < fuel →
        stripRefsGo fuel R (flattenSegs segs) = stripSegs R segs := by
  intro segs
  induction segs with
  | nil =>
    intro _ fuel hlen
    obtain ⟨f, rfl⟩ : ∃ f, fuel = f + 1 := ⟨fuel - 1, by omega⟩
    rfl
  | cons seg rest ih =>
    intro hwf fuel hlen
    cases seg with
    | chunk s =>
      have hflat : flattenSegs (.chunk s :: rest) = s ++ flattenSegs rest :=
        rfl
      have hwf2 : (!s.contains '[' && wfSegs rest) = true := hwf
      rw [Bool.and_eq_true] at hwf2
      obtain ⟨hs, hrest⟩ := hwf2
      have hbr : '[' ∉ s := by
        rw [Bool.not_eq_true'] at hs
        simp_all
      rw [hflat, List.length_append] at hlen
      rw [hflat,
        show stripSegs R (.chunk s :: rest) = s ++ stripSegs R rest from rfl]
      exact stripRefsGo_copy R (flattenSegs rest) (stripSegs R rest)
        (fun f hf => ih hrest f hf) s hbr fuel hlen
    | tok r =>
      have hflat : flattenSegs (.tok r :: rest)
          = '[' :: '^' :: (r ++ ']' :: flattenSegs rest) := rfl
      have hwf2 : (!r.contains '[' && !r.contains ']' &&
          ((flattenSegs rest).head? ≠ some ':') && wfSegs rest) = true := hwf
      rw [Bool.and_eq_true, Bool.and_eq_true, Bool.and_eq_true] at hwf2
      obtain ⟨⟨⟨hr1, hr2⟩, hr3⟩, hrest⟩ := hwf2
      rw [decide_eq_true_eq] at hr3
      have hbr1 : '[' ∉ r := by
        rw [Bool.not_eq_true'] at hr1
        simp_all
      have hbr2 : ']' ∉ r := by
        rw [Bool.not_eq_true'] at hr2
        simp_all
      rw [hflat] at hlen
      simp only [List.length_cons, List.length_append] at hlen
      obtain ⟨f, rfl⟩ : ∃ f, fuel = f + 1 := ⟨fuel - 1, by omega⟩
      rw [hflat, stripRefsGo_br, altMatch_form r (flattenSegs rest) hbr2
        hr3 R hR]
      have hsSegs : stripSegs R (.tok r :: rest)
          = if R.contains r then stripSegs R rest
            else '[' :: '^' :: (r ++ ']' :: stripSegs R rest) := rfl
      rw [hsSegs]
      by_cases hc : R.contains r = true
      · rw [if_pos hc, if_pos hc]
        exact ih hrest f (by omega)
      · rw [if_neg hc, if_neg hc]
        have hsplit : '^' :: (r ++ ']' :: flattenSegs rest)
            = ('^' :: (r ++ [']'])) ++ flattenSegs rest := by
          simp
        rw [hsplit]
        have hbrs : '[' ∉ '^' :: (r ++ [']']) := by
          intro hmem
          rcases List.mem_cons.mp hmem with h | h
          · exact absurd h.symm (by decide)
          · rcases List.mem_append.mp h with h2 | h2
            · exact hbr1 h2
            · rw [List.mem_singleton] at h2
              exact absurd h2.symm (by decide)
        rw [stripRefsGo_copy R (flattenSegs rest) (stripSegs R rest)
          (fun f2 hf2 => ih hrest f2 hf2) ('^' :: (r ++ [']'])) hbrs f
          (by simp only [List.length_cons, List.length_append,
            List.length_nil]; omega)]
        simp

/-- `bodyContent.replace(refRegex, '')` on a well-formed decomposition. -/
theorem stripRefs_segs (R : List Str) (segs : List BodySeg)
    (hR : ∀ r1 ∈ R, ']' ∉ r1) (hwf : wfSegs segs = true) :
    stripRefs R (flattenSegs segs) = stripSegs R segs :=
  stripRefsGo_segs R hR segs hwf _ (Nat.lt_succ_self _)

theorem jsMapHas_eq_isSome (m : JsMap) (k : Str) :
    jsMapHas m k = (jsMapGet m k).isSome := by
  induction m with
  | nil => rfl
  | cons kv rest ih =>
    obtain ⟨k0, v0⟩ := kv
    by_cases h : k0 = k <;> simp [jsMapHas, jsMapGet, h, ih]

theorem jsMapGet_eq_none_of_has_false (m : JsMap) (k : Str)
    (h : ¬ jsMapHas m k = true) : jsMapGet m k = none := by
  cases hg : jsMapGet m k with
  | none => rfl
  | some v =>
    rw [jsMapHas_eq_isSome, hg] at h
    exact absurd rfl h

/-- The map component of `rebuildStep1` ignores the set component. -/
theorem step1_fst_eq (cue : JsMap) (defs : List ParsedDefinition) :
    ∀ (acc : JsMap × List Str),
    (defs.foldl (fun (acc : JsMap × List Str) d =>
        if jsMapHas cue d.ref then
          (jsMapSet acc.1 d.ref ((jsMapGet cue d.ref).getD []), acc.2)
        else (acc.1, jsSetAdd acc.2 d.ref)) acc).1
    = defs.foldl (fun (m : JsMap) d =>
        if jsMapHas cue d.ref then
          jsMapSet m d.ref ((jsMapGet cue d.ref).getD []) else m) acc.1 := by
  induction defs with
  | nil => intro acc; rfl
  | cons d rest ih =>
    intro acc
    rw [List.foldl_cons, List.foldl_cons]
    by_cases h : jsMapHas cue d.ref = true
    · rw [if_pos h, if_pos h]
      exact ih _
    · rw [if_neg h, if_neg h]
      exact ih _

/-- Lookup through the first rebuild fold: a key present among the
Source definitions and in the Cue gets the Cue's body; other keys keep
their initial value. -/
theorem step1_fold_get (cue : JsMap) (k : Str) :
    ∀ (defs : List ParsedDefinition) (m0 : JsMap),
    jsMapGet (defs.foldl (fun (m : JsMap) d =>
        if jsMapHas cue d.ref then
          jsMapSet m d.ref ((jsMapGet cue d.ref).getD []) else m) m0) k
    = if defs.any (fun d => d.ref = k) && jsMapHas cue k then
        jsMapGet cue k
      else jsMapGet m0 k := by
  intro defs
  induction defs with
  | nil => intro m0; simp
  | cons d rest ih =>
    intro m0
    rw [List.foldl_cons, ih]
    by_cases hdk : d.ref = k
    · by_cases hck : jsMapHas cue k = true
      · rw [hdk, if_pos hck]
        by_cases hra : (rest.any (fun d => d.ref = k)
            && jsMapHas cue k) = true
        · rw [if_pos hra, if_pos (by simp [List.any_cons, hdk, hck])]
        · rw [if_neg hra, jsMapGet_set, if_pos rfl,
            if_pos (by simp [List.any_cons, hdk, hck])]
          have hsome : (jsMapGet cue k).isSome = true := by
            rw [← jsMapHas_eq_isSome]; exact hck
          obtain ⟨v, hv⟩ := Option.isSome_iff_exists.mp hsome
          rw [hv]
          rfl
      · rw [hdk, if_neg hck, if_neg (by simp [hck]), if_neg (by simp [hck])]
    · have hget : jsMapGet (if jsMapHas cue d.ref then
          jsMapSet m0 d.ref ((jsMapGet cue d.ref).getD []) else m0) k
          = jsMapGet m0 k := by
        split
        · rw [jsMapGet_set, if_neg hdk]
        · rfl
      rw [hget]
      have hany : (d :: rest).any (fun d2 => d2.ref = k)
          = rest.any (fun d2 => d2.ref = k) := by
        simp [List.any_cons, hdk]
      rw [hany]

/-- Lookup through the second rebuild fold (Cue-only definitions
appended), for a Cue map with unique keys. -/
theorem rebuildFold2_get (defs : List ParsedDefinition) (k : Str) :
    ∀ (cue : JsMap), (mapKeys cue).Nodup → ∀ (m0 : JsMap),
    jsMapGet (cue.foldl (fun acc kv =>
        if defs.any (fun d => d.ref = kv.1) then acc
        else jsMapSet acc kv.1 kv.2) m0) k
    = if !defs.any (fun d => d.ref = k) && jsMapHas cue k then
        jsMapGet cue k
      else jsMapGet m0 k := by
  intro cue
  induction cue with
  | nil => intro _ m0; simp [jsMapHas, jsMapGet]
  | cons kv rest ih =>
    intro hnodup m0
    obtain ⟨k0, v0⟩ := kv
    rw [mapKeys_cons, List.nodup_cons] at hnodup
    obtain ⟨hk0, hnd⟩ := hnodup
    rw [List.foldl_cons]
    dsimp only
    rw [ih hnd _]
    by_cases hk : k0 = k
    · subst hk
      by_cases hsrc : defs.any (fun d => d.ref = k0) = true
      · rw [if_pos hsrc, if_neg (by simp [hsrc]), if_neg (by simp [hsrc])]
      · rw [if_neg hsrc]
        have hhr : jsMapHas rest k0 = false := by
          cases hh : jsMapHas rest k0
          · rfl
          · exact absurd ((jsMapHas_iff_mem rest k0).mp hh) hk0
        rw [if_neg (by simp [hhr]), jsMapGet_set, if_pos rfl,
          if_pos (by simp [hsrc, jsMapHas])]
        simp [jsMapGet]
    · have hget0 : jsMapGet (if defs.any (fun d => d.ref = k0) then m0
          else jsMapSet m0 k0 v0) k = jsMapGet m0 k := by
        split
        · rfl
        · rw [jsMapGet_set, if_neg hk]
      rw [hget0]
      have hhas : jsMapHas ((k0, v0) :: rest) k = jsMapHas rest k := by
        simp [jsMapHas, hk]
      have hgc : jsMapGet ((k0, v0) :: rest) k = jsMapGet rest k := by
        simp [jsMapGet, hk]
      rw [hhas, hgc]

/-- The final definition map of the rebuild agrees pointwise with the
Cue's annotation map (for a Cue map with unique keys). -/
theorem rebuildFinalDefinitions_get (cue : JsMap)
    (defs : List ParsedDefinition) (hnodup : (mapKeys cue).Nodup) (k : Str) :
    jsMapGet (rebuildFinalDefinitions cue defs) k = jsMapGet cue k := by
  unfold rebuildFinalDefinitions rebuildStep1
  rw [step1_fst_eq cue defs ([], [])]
  rw [rebuildFold2_get defs k cue hnodup _]
  rw [step1_fold_get cue k defs []]
  by_cases hck : jsMapHas cue k = true
  · by_cases hsrc : defs.any (fun d => d.ref = k) = true
    · rw [if_neg (by simp [hsrc]), if_pos (by simp [hsrc, hck])]
    · rw [if_pos (by simp [hsrc, hck])]
  · rw [if_neg (by simp [hck]), if_neg (by simp [hck])]
    rw [jsMapGet_eq_none_of_has_false cue k hck]
    rfl

/-- **C2** (corrected).  Backward sync with orphan deletion enabled,
for a Cue map with unique keys and a Source whose stripped body
decomposes into `[`-free chunks and well-formed reference tokens with
`]`-free refs: the result is the body with exactly the tokens citing
the orphaned refs removed and every other segment untouched, followed
by a single definition block whose map agrees pointwise with the Cue's
annotation map.  (The unconditional claim is false: a citation such as
`[^ b ]`, which the parsers trim to the removed ref `b`, is missed by
the strip — see the counterexample.) -/
theorem backward_sync_orphan_deletion (sourceContent : Str)
    (footnotesFromCue : JsMap) (moveToEnd : Bool) (segs : List BodySeg)
    (hnodup : (mapKeys footnotesFromCue).Nodup)
    (hsegs : rebuildBareBody sourceContent = flattenSegs segs)
    (hwf : wfSegs segs = true)
    (hR : ∀ r1 ∈ (rebuildStep1 footnotesFromCue
        (parseSourceContent sourceContent).1).2, ']' ∉ r1)
    (hdel : 0 < (rebuildStep1 footnotesFromCue
        (parseSourceContent sourceContent).1).2.length)
    (hFD : 0 < (rebuildFinalDefinitions footnotesFromCue
        (parseSourceContent sourceContent).1).length) :
    updateSourceNoteContentRebuild sourceContent footnotesFromCue true
        moveToEnd
      = collapseNewlines (jsTrimEnd
          (stripSegs (rebuildStep1 footnotesFromCue
              (parseSourceContent sourceContent).1).2 segs
            ++ str "\n\n"
            ++ renderDefBlock (rebuildFinalDefinitions footnotesFromCue
              (parseSourceContent sourceContent).1)) ++ ['\n']) ∧
    (∀ k, jsMapGet (rebuildFinalDefinitions footnotesFromCue
        (parseSourceContent sourceContent).1) k
      = jsMapGet footnotesFromCue k) := by
  constructor
  · have hFDne : rebuildFinalDefinitions footnotesFromCue
        (parseSourceContent sourceContent).1 ≠ [] := by
      intro h0
      rw [h0] at hFD
      exact absurd hFD (by simp)
    obtain ⟨r1, b1, w, _, hshape⟩ := renderDefBlock_shape _ hFDne
    have hrne : (!(renderDefBlock (rebuildFinalDefinitions footnotesFromCue
        (parseSourceContent sourceContent).1)).isEmpty) = true := by
      rw [hshape]
      rfl
    unfold updateSourceNoteContentRebuild
    dsimp only
    rw [if_pos (show (true && decide (0 < (rebuildStep1 footnotesFromCue
        (parseSourceContent sourceContent).1).2.length)) = true by
      simp [hdel])]
    rw [hsegs, stripRefs_segs _ segs hR hwf]
    rw [if_pos hFD, if_pos hrne, ite_self]
  · exact fun k => rebuildFinalDefinitions_get footnotesFromCue _ hnodup k

theorem backward_sync_orphan_deletion_witness :
    ((mapKeys [(str "a", str "A2")]).Nodup ∧
      rebuildBareBody (str "See[^a] and[^b].\n\n[^a]: A\n\n[^b]: B")
        = flattenSegs [.chunk (str "See"), .tok (str "a"),
            .chunk (str " and"), .tok (str "b"), .chunk (str ".")] ∧
      wfSegs [.chunk (str "See"), .tok (str "a"), .chunk (str " and"),
          .tok (str "b"), .chunk (str ".")] = true ∧
      (∀ r1 ∈ (rebuildStep1 [(str "a", str "A2")] (parseSourceContent
          (str "See[^a] and[^b].\n\n[^a]: A\n\n[^b]: B")).1).2, ']' ∉ r1) ∧
      0 < (rebuildStep1 [(str "a", str "A2")] (parseSourceContent
          (str "See[^a] and[^b].\n\n[^a]: A\n\n[^b]: B")).1).2.length ∧
      0 < (rebuildFinalDefinitions [(str "a", str "A2")] (parseSourceContent
          (str "See[^a] and[^b].\n\n[^a]: A\n\n[^b]: B")).1).length) ∧
    (updateSourceNoteContentRebuild
        (str "See[^a] and[^b].\n\n[^a]: A\n\n[^b]: B")
        [(str "a", str "A2")] true true
      = collapseNewlines (jsTrimEnd
          (stripSegs (rebuildStep1 [(str "a", str "A2")] (parseSourceContent
              (str "See[^a] and[^b].\n\n[^a]: A\n\n[^b]: B")).1).2
              [.chunk (str "See"), .tok (str "a"), .chunk (str " and"),
                .tok (str "b"), .chunk (str ".")]
            ++ str "\n\n"
            ++ renderDefBlock (rebuildFinalDefinitions [(str "a", str "A2")]
              (parseSourceContent
                (str "See[^a] and[^b].\n\n[^a]: A\n\n[^b]: B")).1))
          ++ ['\n']) ∧
    (∀ k, jsMapGet (rebuildFinalDefinitions [(str "a", str "A2")]
        (parseSourceContent
          (str "See[^a] and[^b].\n\n[^a]: A\n\n[^b]: B")).1) k
      = jsMapGet [(str "a", str "A2")] k)) :=
  ⟨⟨by decide, by decide, by decide, by decide, by decide, by decide⟩,
   backward_sync_orphan_deletion
     (str "See[^a] and[^b].\n\n[^a]: A\n\n[^b]: B") [(str "a", str "A2")]
     true
     [.chunk (str "See"), .tok (str "a"), .chunk (str " and"),
       .tok (str "b"), .chunk (str ".")]
     (by decide) (by decide) (by decide) (by decide) (by decide) (by decide)⟩

/-- **C2** (counterexample to the unconditional claim).  The citation
`[^ b ]` cites the ref `b` (the parsers trim refs), `b`'s definition is
absent from the Cue, and orphan deletion is on — yet the citation
survives in the rebuilt Source, because the strip regex is built from
the trimmed refs and only matches citations literally. -/
theorem backward_sync_orphan_cex :
    jsIncludes (updateSourceNoteContentRebuild
        (str "See[^a] and[^ b ].\n\n[^a]: A\n\n[^b]: B")
        [(str "a", str "A2")] true true)
      (str "[^ b ]") = true := by decide

end Cornell
